import Mathlib

/-! carl: monomials (`src/carl/core/Monomial.cpp`) and the subresultant chain
(`src/carl/core/polynomialfunctions/Resultant.h`).

A shallow embedding of the monomial operations and of the subresultant
functions of carl and a verification of the properties its specification states
about them.

* A `Monomial::Arg` (a shared pointer that may be null) is an `Option Monomial`;
  `none` is the null pointer, the "no monomial" value (the constant 1).
* An iterator into an exponent vector is the list of the pairs from the
  iterator to the end; the end iterator is the empty list.
* A loop that moves two iterators is a function recursive on a fuel counter;
  the callers pass the sum of the two lengths, which every loop here stays
  below because each round moves at least one iterator forward.
* The cached hash of a monomial is a function of its exponent vector and is
  left out.
-/

namespace carl

/-- The class Monomial: the exponent vector mExponents, a vector of pairs of a
Variable and an exponent, and the cached total degree mTotalDegree, an exponent.
The types Variable and exponent are declared in headers that are not among the
sources at hand and are modelled from the data model of the specification: a
variable is "an opaque, totally-ordered, globally-unique identifier", here its
identifier, a natural number, ordered as the numbers are; an exponent is "a
positive integer", here a natural number with exact arithmetic. The code takes
a difference of exponents only where, on consistent monomials, the minuend is
at least the subtrahend. -/
structure Monomial where
  mExponents : List (Nat × Nat)
  mTotalDegree : Nat
deriving DecidableEq, Repr

/-- The type Monomial::Arg, a shared pointer to a constant monomial; none is the
null pointer. -/
abbrev Monomial.Arg := Option Monomial

/-- Modelled from the spec: MonomialPool::create (MonomialPool.h and
MonomialPool.cpp are not among the sources at hand): "given an already-sorted,
deduplicated list of (variable, exponent) pairs and a total degree, produces the
canonical shared instance for that content". Two shared instances are the same
exactly when their contents are equal, so the instance is its content. -/
def MonomialPool.create (exps : List (Nat × Nat)) (tdeg : Nat) : Monomial.Arg :=
  some ⟨exps, tdeg⟩

/-- Modelled from the spec: the overload MonomialPool::create(Variable, exponent)
used by the product of "no monomial" and a variable: the canonical shared
instance of the monomial with the single pair (v, e). -/
def MonomialPool.createVar (v : Nat) (e : Nat) : Monomial.Arg :=
  some ⟨[(v, e)], e⟩

/-- Modelled from the spec: createMonomial, the free function of MonomialPool.h
that forwards its arguments to MonomialPool::create. -/
def createMonomial (exps : List (Nat × Nat)) (tdeg : Nat) : Monomial.Arg :=
  MonomialPool.create exps tdeg

/-- The call std::find(mExponents.cbegin(), mExponents.cend(), v): the vector is
split at the first pair whose variable is v. The first component is the range
from begin to the iterator found, the second the range from that iterator to
the end, which is empty when the iterator is the end iterator. -/
def find : List (Nat × Nat) → Nat →
    List (Nat × Nat) × List (Nat × Nat)
  | [], _ => ([], [])
  | p :: rest, v =>
    if p.1 = v then ([], p :: rest)
    else ((p :: (find rest v).1), (find rest v).2)

/-- Monomial::dropVariable (Monomial.cpp, lines 16 to 34). -/
def Monomial.dropVariable (m : Monomial) (v : Nat) : Monomial.Arg :=
  match find m.mExponents v with
  | (_, []) => MonomialPool.create m.mExponents m.mTotalDegree
  | (before, it :: after) =>
    if m.mExponents.length = 1 then none
    else
      let tDeg := m.mTotalDegree - it.2
      let newExps := before ++ after
      MonomialPool.create newExps tDeg

/-- Monomial::divide(Variable::Arg, Monomial::Arg&) (Monomial.cpp, lines 36 to
56). The value none is the return value false, which leaves res untouched;
some res is the return value true together with the monomial assigned to res. -/
def Monomial.divideVar (m : Monomial) (v : Nat) : Option Monomial.Arg :=
  match find m.mExponents v with
  | (_, []) => none
  | (before, it :: after) =>
    let newExps :=
      if it.2 = 1 then
        (if before ≠ [] then before else []) ++ after
      else
        before ++ (it.1, it.2 - 1) :: after
    some (MonomialPool.create newExps (m.mTotalDegree - 1))

/-- The loop of Monomial::divide(const Monomial::Arg&, Monomial::Arg&) together
with the statements after it (lines 74 to 128); tdeg is the difference
mTotalDegree - m->mTotalDegree, itleft and itright are the two iterators. -/
def divideLoop (tdeg : Nat) : List (Nat × Nat) → List (Nat × Nat) →
    List (Nat × Nat) → Option Monomial.Arg
  | [], itright, newExps =>
    if itright ≠ [] then none
    else if newExps.isEmpty then some none
    else some (MonomialPool.create newExps tdeg)
  | itleft :: left, [], newExps =>
    some (MonomialPool.create (newExps ++ itleft :: left) tdeg)
  | itleft :: left, itright :: right, newExps =>
    if itleft.1 = itright.1 then
      if itleft.2 < itright.2 then none
      else
        let newExp := itleft.2 - itright.2
        if newExp > 0 then divideLoop tdeg left right (newExps ++ [(itleft.1, newExp)])
        else divideLoop tdeg left right newExps
    else if itleft.1 < itright.1 then none
    else divideLoop tdeg left (itright :: right) (newExps ++ [itleft])

/-- Monomial::divide(const Monomial::Arg&, Monomial::Arg&) (Monomial.cpp, lines
58 to 129). The value none is the return value false; some res is the return
value true together with the monomial assigned to res. -/
def Monomial.divide (self : Monomial) (m : Monomial.Arg) : Option Monomial.Arg :=
  match m with
  | none => some (some ⟨self.mExponents, self.mTotalDegree⟩)
  | some m =>
    if m.mTotalDegree > self.mTotalDegree ∨ m.mExponents.length > self.mExponents.length then none
    else divideLoop (self.mTotalDegree - m.mTotalDegree) self.mExponents m.mExponents []

/-- The loop of Monomial::sqrt (lines 134 to 137); none is the return of nullptr
from inside the loop. -/
def sqrtLoop : List (Nat × Nat) → List (Nat × Nat) →
    Option (List (Nat × Nat))
  | [], newExps => some newExps
  | it :: rest, newExps =>
    if it.2 % 2 = 1 then none
    else sqrtLoop rest (newExps ++ [(it.1, it.2 / 2)])

/-- Monomial::sqrt (Monomial.cpp, lines 131 to 139). -/
def Monomial.sqrt (m : Monomial) : Monomial.Arg :=
  if m.mTotalDegree % 2 = 1 then none
  else
    match sqrtLoop m.mExponents [] with
    | none => none
    | some newExps => createMonomial newExps (m.mTotalDegree / 2)

/-- The loop of Monomial::separablePart (lines 192 to 195). -/
def separablePartLoop : List (Nat × Nat) → List (Nat × Nat) →
    List (Nat × Nat)
  | [], newExps => newExps
  | it :: rest, newExps => separablePartLoop rest (newExps ++ [(it.1, 1)])

/-- Monomial::separablePart (Monomial.cpp, lines 189 to 197). -/
def Monomial.separablePart (m : Monomial) : Monomial.Arg :=
  MonomialPool.create (separablePartLoop m.mExponents []) m.mExponents.length

/-- The loop of Monomial::pow (lines 207 to 211). -/
def powLoop (exp : Nat) : List (Nat × Nat) → List (Nat × Nat) → Nat →
    List (Nat × Nat) × Nat
  | [], newExps, expsum => (newExps, expsum)
  | it :: rest, newExps, expsum =>
    powLoop exp rest (newExps ++ [(it.1, it.2 * exp)]) (expsum + it.2 * exp)

/-- Monomial::pow (Monomial.cpp, lines 199 to 213). -/
def Monomial.pow (m : Monomial) (exp : Nat) : Monomial.Arg :=
  if exp = 0 then none
  else
    let r := powLoop exp m.mExponents [] 0
    createMonomial r.1 r.2

/-- The loop of Monomial::gcd (lines 258 to 278): the final values of newExps
and expsum. -/
def gcdLoop : Nat → List (Nat × Nat) → List (Nat × Nat) →
    List (Nat × Nat) → Nat → List (Nat × Nat) × Nat
  | _, [], _, newExps, expsum => (newExps, expsum)
  | _, _ :: _, [], newExps, expsum => (newExps, expsum)
  | 0, _ :: _, _ :: _, newExps, expsum => (newExps, expsum)
  | fuel + 1, itleft :: left, itright :: right, newExps, expsum =>
    if itleft.1 = itright.1 then
      let newExp := min itleft.2 itright.2
      gcdLoop fuel left right (newExps ++ [(itleft.1, newExp)]) (expsum + newExp)
    else if itleft.1 < itright.1 then
      gcdLoop fuel (itleft :: left) right newExps expsum
    else
      gcdLoop fuel left (itright :: right) newExps expsum

/-- Monomial::gcd (Monomial.cpp, lines 242 to 286). -/
def Monomial.gcd (lhs rhs : Monomial.Arg) : Monomial.Arg :=
  match lhs, rhs with
  | none, none => none
  | none, some rhs => some rhs
  | some lhs, none => some lhs
  | some lhs, some rhs =>
    let r := gcdLoop (lhs.mExponents.length + rhs.mExponents.length)
      lhs.mExponents rhs.mExponents [] 0
    if ¬ r.1.isEmpty then createMonomial r.1 r.2 else none

/-- The loop of Monomial::lcm together with the insertion of the remaining part
(lines 303 to 338): the final values of newExps and expsum. -/
def lcmLoop : Nat → List (Nat × Nat) → List (Nat × Nat) →
    List (Nat × Nat) → Nat → List (Nat × Nat) × Nat
  | _, [], itright, newExps, expsum => (newExps ++ itright, expsum)
  | _, itleft :: left, [], newExps, expsum => (newExps ++ itleft :: left, expsum)
  | 0, _ :: _, _ :: _, newExps, expsum => (newExps, expsum)
  | fuel + 1, itleft :: left, itright :: right, newExps, expsum =>
    if itleft.1 = itright.1 then
      let newExp := max itleft.2 itright.2
      lcmLoop fuel left right (newExps ++ [(itleft.1, newExp)])
        (expsum - min itleft.2 itright.2)
    else if itleft.1 < itright.1 then
      lcmLoop fuel (itleft :: left) right (newExps ++ [itright]) expsum
    else
      lcmLoop fuel left (itright :: right) (newExps ++ [itleft]) expsum

/-- Monomial::lcm (Monomial.cpp, lines 288 to 342). -/
def Monomial.lcm (lhs rhs : Monomial.Arg) : Monomial.Arg :=
  match lhs, rhs with
  | none, none => none
  | none, some rhs => some rhs
  | some lhs, none => some lhs
  | some lhs, some rhs =>
    let r := lcmLoop (lhs.mExponents.length + rhs.mExponents.length)
      lhs.mExponents rhs.mExponents [] (lhs.mTotalDegree + rhs.mTotalDegree)
    MonomialPool.create r.1 r.2

/-- The loop of Monomial::isConsistent (lines 350 to 358): none is the return of
false from inside the loop, some tdegree the sum accumulated when the loop
ends. NO_VARIABLE is the sentinel Variable::NO_VARIABLE, declared in Variable.h,
which is not among the sources at hand. -/
def isConsistentLoop (NO_VARIABLE : Nat) : List (Nat × Nat) → Nat → Nat →
    Option Nat
  | [], tdegree, _ => some tdegree
  | ve :: rest, tdegree, lastVar =>
    if ve.2 ≤ 0 then none
    else if lastVar ≠ NO_VARIABLE ∧ ve.1 > lastVar then none
    else isConsistentLoop NO_VARIABLE rest (tdegree + ve.2) ve.1

/-- Monomial::isConsistent (Monomial.cpp, lines 344 to 361), for any value of the
sentinel Variable::NO_VARIABLE. -/
def Monomial.isConsistent (NO_VARIABLE : Nat) (m : Monomial) : Bool :=
  if m.mTotalDegree < 1 then false
  else
    match isConsistentLoop NO_VARIABLE m.mExponents 0 NO_VARIABLE with
    | none => false
    | some tdegree => if tdegree ≠ m.mTotalDegree then false else true

/-- The loop of operator*(const Monomial::Arg&, const Monomial::Arg&) together
with the insertion of the remaining pairs (lines 409 to 435). -/
def mulLoop : Nat → List (Nat × Nat) → List (Nat × Nat) →
    List (Nat × Nat) → List (Nat × Nat)
  | _, [], itright, newExps => newExps ++ itright
  | _, itleft :: left, [], newExps => newExps ++ itleft :: left
  | 0, _ :: _, _ :: _, newExps => newExps
  | fuel + 1, itleft :: left, itright :: right, newExps =>
    if itleft.1 = itright.1 then
      mulLoop fuel left right (newExps ++ [(itleft.1, itleft.2 + itright.2)])
    else if itleft.1 < itright.1 then
      mulLoop fuel (itleft :: left) right (newExps ++ [(itright.1, itright.2)])
    else
      mulLoop fuel left (itright :: right) (newExps ++ [(itleft.1, itleft.2)])

/-- The product operator*(const Monomial::Arg&, const Monomial::Arg&)
(Monomial.cpp, lines 392 to 439). -/
def mul (lhs rhs : Monomial.Arg) : Monomial.Arg :=
  match lhs, rhs with
  | none, rhs => rhs
  | some lhs, none => some lhs
  | some lhs, some rhs =>
    createMonomial
      (mulLoop (lhs.mExponents.length + rhs.mExponents.length) lhs.mExponents rhs.mExponents [])
      (lhs.mTotalDegree + rhs.mTotalDegree)

/-- The loop of operator*(const Monomial::Arg&, Variable::Arg) (lines 449 to
460): the final values of newExps and inserted. -/
def mulVarLoop (rhs : Nat) : List (Nat × Nat) → Bool →
    List (Nat × Nat) → List (Nat × Nat) × Bool
  | [], inserted, newExps => (newExps, inserted)
  | p :: rest, inserted, newExps =>
    if inserted then mulVarLoop rhs rest inserted (newExps ++ [p])
    else if p.1 > rhs then mulVarLoop rhs rest inserted (newExps ++ [p])
    else if p.1 = rhs then mulVarLoop rhs rest true (newExps ++ [(rhs, p.2 + 1)])
    else if p.1 < rhs then mulVarLoop rhs rest true (newExps ++ [(rhs, 1), p])
    else mulVarLoop rhs rest inserted newExps

/-- The product operator*(const Monomial::Arg&, Variable::Arg) (Monomial.cpp,
lines 441 to 463). -/
def mulVar (lhs : Monomial.Arg) (rhs : Nat) : Monomial.Arg :=
  match lhs with
  | none => MonomialPool.createVar rhs 1
  | some lhs =>
    let r := mulVarLoop rhs lhs.mExponents false []
    let newExps := if ¬ r.2 then r.1 ++ [(rhs, 1)] else r.1
    MonomialPool.create newExps (lhs.mTotalDegree + 1)

/-- The product operator*(Variable::Arg, const Monomial::Arg&) (Monomial.cpp,
lines 465 to 468). -/
def varMul (lhs : Nat) (rhs : Monomial.Arg) : Monomial.Arg :=
  mulVar rhs lhs

/-- The enumeration CompareResult, declared in a header that is not among the
sources at hand; its three values are the ones Monomial::lexicalCompare
returns. -/
inductive CompareResult where
  | LESS
  | EQUAL
  | GREATER
deriving DecidableEq, Repr

/-- The loop of Monomial::lexicalCompare together with the statements after it
(lines 372 to 389). The value none is the failure of the final assertion
assert(rhsit != rhsend), reached when both iterators are at their ends. -/
def lexicalCompareLoop : List (Nat × Nat) → List (Nat × Nat) → Option CompareResult
  | [], [] => none
  | [], _ :: _ => some CompareResult.LESS
  | _ :: _, [] => some CompareResult.GREATER
  | lhsit :: lhs, rhsit :: rhs =>
    if lhsit.1 = rhsit.1 then
      if lhsit.2 < rhsit.2 then some CompareResult.LESS
      else if lhsit.2 > rhsit.2 then some CompareResult.GREATER
      else lexicalCompareLoop lhs rhs
    else
      some (if lhsit.1 < rhsit.1 then CompareResult.LESS else CompareResult.GREATER)

/-- Monomial::lexicalCompare (Monomial.cpp, lines 363 to 390). Modelled from the
spec: the identifier id() of a pooled monomial, assigned by the pool, which is
not among the sources at hand: "equality of two Monomial references can be
tested by identity (or by a stable numeric id assigned at creation)", so the two
identifiers are equal exactly when the two monomials have the same content. The
value none is the failure of the final assertion. -/
def Monomial.lexicalCompare (lhs rhs : Monomial) : Option CompareResult :=
  if lhs = rhs then some CompareResult.EQUAL
  else lexicalCompareLoop lhs.mExponents rhs.mExponents

/-! ## The subresultant chain (`src/carl/core/polynomialfunctions/Resultant.h`)

The functions of Resultant.h are templates over the coefficient type Coeff and
work on UnivariatePolynomial<Coeff>. Both types and their operations are
declared in headers that are not among the sources at hand, so the embedding
takes them as parameters: P is the type of the polynomials in the one main
variable that all arguments share (the assertions on equal main variables are
therefore left out), C the type of the coefficients. A chain is a list whose
head is the front of the std::list. -/

/-- The enumeration SubresultantStrategy (Resultant.h, lines 20 to 25). -/
inductive SubresultantStrategy where
  | Generic
  | Lazard
  | Ducos
deriving DecidableEq, Repr

/-- The enumerator Default = Lazard of SubresultantStrategy (line 24). -/
def SubresultantStrategy.Default : SubresultantStrategy := SubresultantStrategy.Lazard

/-- The ways in which a run of the functions of Resultant.h does not return a
value: an assertion fails (named by its line in Resultant.h), front() is called
on an empty chain, a loop has not come to its end when the fuel given to the
embedding is used up, or a vector is accessed at an index that it does not have
(named by the line of the access; the behaviour of the source is undefined
there). -/
inductive SubresError where
  | assertion (line : Nat)
  | emptyFront
  | fuel
  | outOfBounds (line : Nat)
deriving DecidableEq, Repr

/-- The operations on Coeff and on UnivariatePolynomial<Coeff> that Resultant.h
uses; they are declared in headers that are not among the sources at hand and
are parameters of the embedding. The names are those of the calls in the
source; mulC, smul, mul and mulPC are operator* on two coefficients, on a
coefficient and a polynomial, on two polynomials and on a polynomial and a
coefficient; constant is the constructor UnivariatePolynomial(variable, c) and
zero the constructor UnivariatePolynomial(variable); try_divide returns the
quotient when the division succeeds and none when it fails, in which case the
source leaves the variable that should receive the quotient as it is. -/
structure PolyOps (P C : Type) where
  isZero : P → Bool
  is_constant : P → Bool
  degree : P → Nat
  lcoeff : P → C
  neg : P → P
  pseudo_remainder : P → P → P
  pow : C → Nat → C
  mulC : C → C → C
  smul : C → P → P
  mul : P → P → P
  mulPC : P → C → P
  try_divide : P → C → Option P
  constant : C → P
  zero : P
  highestPower : Nat → Nat

/-- The loop "while (exponent != 1)" of the Lazard and Ducos branch of part 2
(lines 180 to 188): the final value of reductionCoeff, or none when the loop has
not ended within the fuel (the caller passes the start value of exponent, which
the loop halves in every round). -/
def lazardLoop {P C : Type} (ops : PolyOps P C) (subresLcoeff lcoeffQ : C) :
    Nat → Nat → Nat → P → Option P
  | 0, exponent, _, reductionCoeff => if exponent ≠ 1 then none else some reductionCoeff
  | fuel + 1, exponent, deltaReduced, reductionCoeff =>
    if exponent ≠ 1 then
      let exponent := exponent / 2
      let res := ops.try_divide (ops.mul reductionCoeff reductionCoeff) subresLcoeff
      let reductionCoeff := res.getD reductionCoeff
      if res.isSome ∧ deltaReduced ≥ exponent then
        let reductionCoeff :=
          (ops.try_divide (ops.mulPC reductionCoeff lcoeffQ) subresLcoeff).getD reductionCoeff
        lazardLoop ops subresLcoeff lcoeffQ fuel exponent (deltaReduced - exponent) reductionCoeff
      else
        lazardLoop ops subresLcoeff lcoeffQ fuel exponent deltaReduced reductionCoeff
    else some reductionCoeff

/-- Part 2 of the main loop of subresultants (lines 141 to 207): from q,
subresLcoeff, delta, the degree qDeg of q and the chain, the polynomial c, the
new value of qDeg and the new chain. -/
def subresultantsPart2 {P C : Type} (ops : PolyOps P C) (strategy : SubresultantStrategy)
    (q : P) (subresLcoeff : C) (delta qDeg : Nat) (subresultants : List P) :
    Except SubresError (P × Nat × List P) :=
  if delta > 1 then
    match strategy with
    | SubresultantStrategy.Generic =>
      let reductionCoeff := ops.smul (ops.pow (ops.lcoeff q) (delta - 1)) q
      let dividant := ops.pow subresLcoeff (delta - 1)
      match ops.try_divide reductionCoeff dividant with
      | some c =>
        if ops.isZero c then Except.error (SubresError.assertion 153)
        else Except.ok (c, ops.degree c, c :: subresultants)
      | none => Except.ok (q, qDeg, subresultants)
    | _ =>
      let deltaReduced := delta - 1
      if ¬ deltaReduced > 0 then Except.error (SubresError.assertion 167)
      else
        let lcoeffQ := ops.lcoeff q
        let reductionCoeff := ops.constant lcoeffQ
        let exponent := ops.highestPower deltaReduced
        let deltaReduced := deltaReduced - exponent
        match lazardLoop ops subresLcoeff lcoeffQ exponent exponent deltaReduced reductionCoeff with
        | none => Except.error SubresError.fuel
        | some reductionCoeff =>
          let reductionCoeff := ops.mul reductionCoeff q
          match ops.try_divide reductionCoeff subresLcoeff with
          | some c =>
            if ops.isZero c then Except.error (SubresError.assertion 195)
            else Except.ok (c, ops.degree c, c :: subresultants)
          | none => Except.ok (q, qDeg, subresultants)
  else Except.ok (q, qDeg, subresultants)

/-- The main loop of subresultants (lines 120 to 273), with p, q, subresLcoeff
and the chain as its state. The first argument after the strategy is the fuel:
the number of rounds the loop may start. The parameter part3Ducos stands for
the Ducos branch of part 3 (lines 231 to 269), a function of p, q, c, pDeg, qDeg
and delta that gives the new q; that branch works on coefficients that hold the
main variable themselves (Coeff(variable), to_univariate_polynomial), which is
outside the operations of PolyOps. The function part3Ducos below embeds the
branch over the additional operations DucosOps and is what the parameter is
instantiated with. -/
def subresultantsLoop {P C : Type} (ops : PolyOps P C)
    (part3Ducos : P → P → P → Nat → Nat → Nat → Except SubresError P)
    (strategy : SubresultantStrategy) :
    Nat → P → P → C → List P → Except SubresError (List P)
  | 0, _, _, _, _ => Except.error SubresError.fuel
  | fuel + 1, p, q, subresLcoeff, subresultants =>
    if ops.isZero q then Except.ok subresultants
    else
      let pDeg := ops.degree p
      let qDeg := ops.degree q
      let subresultants := q :: subresultants
      if ¬ pDeg ≥ qDeg then Except.error (SubresError.assertion 130)
      else
        let delta := pDeg - qDeg
        match subresultantsPart2 ops strategy q subresLcoeff delta qDeg subresultants with
        | Except.error e => Except.error e
        | Except.ok (c, qDeg, subresultants) =>
          if qDeg = 0 then Except.ok subresultants
          else
            match strategy with
            | SubresultantStrategy.Ducos =>
              match part3Ducos p q c pDeg qDeg delta with
              | Except.error e => Except.error e
              | Except.ok q =>
                subresultantsLoop ops part3Ducos strategy fuel c q (ops.lcoeff c) subresultants
            | _ =>
              if ops.isZero p then Except.ok subresultants
              else
                let reducedNewB := ops.pseudo_remainder p (ops.neg q)
                match ops.try_divide reducedNewB
                    (ops.mulC (ops.pow subresLcoeff delta) (ops.lcoeff p)) with
                | none => Except.error (SubresError.assertion 228)
                | some q =>
                  subresultantsLoop ops part3Ducos strategy fuel c q (ops.lcoeff c) subresultants

/-- The function subresultants (Resultant.h, lines 51 to 274). The argument fuel
bounds the number of rounds of the main loop. -/
def subresultants {P C : Type} (ops : PolyOps P C)
    (part3Ducos : P → P → P → Nat → Nat → Nat → Except SubresError P)
    (strategy : SubresultantStrategy) (fuel : Nat) (pol1 pol2 : P) :
    Except SubresError (List P) :=
  if ops.isZero pol1 then Except.error (SubresError.assertion 73)
  else if ops.isZero pol2 then Except.error (SubresError.assertion 74)
  else
    let p := if ops.degree pol1 < ops.degree pol2 then pol2 else pol1
    let q := if ops.degree pol1 < ops.degree pol2 then pol1 else pol2
    let subresultants := [p]
    if ops.isZero q then Except.ok subresultants
    else
      let subresultants := q :: subresultants
      if ops.is_constant q then Except.ok subresultants
      else if ¬ ops.degree p ≥ ops.degree q then Except.error (SubresError.assertion 99)
      else if ¬ ops.degree q ≥ 1 then Except.error (SubresError.assertion 100)
      else
        let subresLcoeff := ops.pow (ops.lcoeff q) (ops.degree p - ops.degree q)
        let tmp := q
        let q := ops.pseudo_remainder p (ops.neg q)
        let p := tmp
        subresultantsLoop ops part3Ducos strategy fuel p q subresLcoeff subresultants

/-- The function resultant_calculate (Resultant.h, lines 292 to 298). The
parameter normalized is the method normalized() of UnivariatePolynomial, which
is declared in a header that is not among the sources at hand. -/
def resultant_calculate {P C : Type} (ops : PolyOps P C) (normalized : P → P)
    (part3Ducos : P → P → P → Nat → Nat → Nat → Except SubresError P)
    (strategy : SubresultantStrategy) (fuel : Nat) (p q : P) : Except SubresError P :=
  match subresultants ops part3Ducos strategy fuel (normalized p) (normalized q) with
  | Except.error e => Except.error e
  | Except.ok [] => Except.error SubresError.emptyFront
  | Except.ok (front :: _) => Except.ok front

/-- The function resultant (Resultant.h, lines 300 to 335), in the configuration
without USE_LIBPOLY, where it calls resultant_calculate. -/
def resultant {P C : Type} (ops : PolyOps P C) (normalized : P → P)
    (part3Ducos : P → P → P → Nat → Nat → Nat → Except SubresError P)
    (strategy : SubresultantStrategy) (fuel : Nat) (p q : P) : Except SubresError P :=
  if ops.isZero p ∨ ops.isZero q then Except.ok ops.zero
  else
    match resultant_calculate ops normalized part3Ducos strategy fuel p q with
    | Except.error e => Except.error e
    | Except.ok res => if ops.is_constant res then Except.ok res else Except.ok ops.zero

/-- The operations that only the Ducos branch of part 3 (lines 231 to 269)
uses. There the coefficients hold the main variable themselves. The operations
are declared in headers that are not among the sources at hand and are
parameters of the embedding: ofVariable is the conversion Coeff(variable),
mulVariable the product of a coefficient and the variable, subToCoeff a p the
conversion Coeff(a - p) of the difference of a coefficient and a polynomial,
to_univariate_polynomial the function of that name for the main variable,
coefficients the method coefficients(), addPC the operator += of a polynomial
and a coefficient, ofCoefficients the constructor of a polynomial from a list
of coefficients, zeroC the coefficient 0, add and sub the sum and the
difference of two polynomials. -/
structure DucosOps (P C : Type) where
  ofVariable : C
  mulVariable : C → C
  subToCoeff : C → P → C
  to_univariate_polynomial : C → P
  coefficients : P → List C
  addPC : P → C → P
  ofCoefficients : List C → P
  zeroC : C
  add : P → P → P
  sub : P → P → P

/-- The read access v[i] to a vector, at the given line of Resultant.h. -/
def vectorGet {C : Type} (line : Nat) (v : List C) (i : Nat) : Except SubresError C :=
  match v.get? i with
  | some x => Except.ok x
  | none => Except.error (SubresError.outOfBounds line)

/-- The write access v[i] = x to a vector, at the given line of Resultant.h. -/
def vectorSet {C : Type} (line : Nat) (v : List C) (i : Nat) (x : C) :
    Except SubresError (List C) :=
  if i < v.length then Except.ok (v.set i x) else Except.error (SubresError.outOfBounds line)

/-- The loop of lines 238 to 240, from the index d on; the fuel is the number
of rounds, the caller passes qDeg. -/
def ducosInitLoop {P C : Type} (ops : PolyOps P C) (dops : DucosOps P C) (lcoeffC : C)
    (qDeg : Nat) : Nat → Nat → List C → Except SubresError (List C)
  | 0, d, h => if d < qDeg then Except.error SubresError.fuel else Except.ok h
  | fuel + 1, d, h =>
    if d < qDeg then
      match vectorSet 239 h d (ops.mulC lcoeffC (ops.pow dops.ofVariable d)) with
      | Except.error e => Except.error e
      | Except.ok h => ducosInitLoop ops dops lcoeffC qDeg fuel (d + 1) h
    else Except.ok h

/-- The loop of lines 244 to 250, from the index d on; the fuel is the number
of rounds, the caller passes pDeg. -/
def ducosReduceLoop {P C : Type} (ops : PolyOps P C) (dops : DucosOps P C) (q : P)
    (lcoeffQ : C) (pDeg qDeg : Nat) : Nat → Nat → List C → Except SubresError (List C)
  | 0, d, h => if d < pDeg then Except.error SubresError.fuel else Except.ok h
  | fuel + 1, d, h =>
    if d < pDeg then
      match vectorGet 245 h (d - 1) with
      | Except.error e => Except.error e
      | Except.ok hd =>
        let t := dops.mulVariable hd
        match vectorGet 246 (dops.coefficients (dops.to_univariate_polynomial t)) qDeg with
        | Except.error e => Except.error e
        | Except.ok coeff =>
          let reducedNewB := ops.smul coeff q
          let res := ops.try_divide reducedNewB lcoeffQ
          let reducedNewB := res.getD reducedNewB
          if ¬ (res.isSome ∨ ops.is_constant reducedNewB) then
            Except.error (SubresError.assertion 248)
          else
            match vectorSet 249 h d (dops.subToCoeff t reducedNewB) with
            | Except.error e => Except.error e
            | Except.ok h => ducosReduceLoop ops dops q lcoeffQ pDeg qDeg fuel (d + 1) h
    else Except.ok h

/-- The loop of lines 253 to 255, from the index d on; the fuel is the number
of rounds, the caller passes pDeg. -/
def ducosSumLoop {P C : Type} (ops : PolyOps P C) (dops : DucosOps P C) (p : P)
    (h : List C) (pDeg : Nat) : Nat → Nat → P → Except SubresError P
  | 0, d, sum => if d < pDeg then Except.error SubresError.fuel else Except.ok sum
  | fuel + 1, d, sum =>
    if d < pDeg then
      match vectorGet 254 h d with
      | Except.error e => Except.error e
      | Except.ok hd =>
        match vectorGet 254 (dops.coefficients p) d with
        | Except.error e => Except.error e
        | Except.ok pd =>
          ducosSumLoop ops dops p h pDeg fuel (d + 1) (dops.addPC sum (ops.mulC hd pd))
    else Except.ok sum

/-- The Ducos branch of part 3 of the main loop of subresultants (lines 231 to
269): from p, q, c, pDeg, the value of qDeg after part 2 and delta, the new
value of q. The vector h has pDeg entries, which are zero at first; front() and
back() are the accesses at the index 0 and at the last index. -/
def part3Ducos {P C : Type} (ops : PolyOps P C) (dops : DucosOps P C)
    (p q c : P) (pDeg qDeg delta : Nat) : Except SubresError P :=
  let lcoeffQ := ops.lcoeff q
  let lcoeffC := ops.lcoeff c
  let h := List.replicate pDeg dops.zeroC
  match ducosInitLoop ops dops lcoeffC qDeg qDeg 0 h with
  | Except.error e => Except.error e
  | Except.ok h =>
    match (if pDeg ≠ qDeg then
        vectorSet 242 h qDeg
          (dops.subToCoeff (ops.mulC lcoeffC (ops.pow dops.ofVariable qDeg)) c)
      else Except.ok h) with
    | Except.error e => Except.error e
    | Except.ok h =>
      match ducosReduceLoop ops dops q lcoeffQ pDeg qDeg pDeg (qDeg + 1) h with
      | Except.error e => Except.error e
      | Except.ok h =>
        match vectorGet 252 h 0 with
        | Except.error e => Except.error e
        | Except.ok hfront =>
          match vectorGet 252 (dops.coefficients p) 0 with
          | Except.error e => Except.error e
          | Except.ok p0 =>
            match ducosSumLoop ops dops p h pDeg pDeg 1 (ops.constant (ops.mulC hfront p0)) with
            | Except.error e => Except.error e
            | Except.ok sum =>
              let res := ops.try_divide sum (ops.lcoeff p)
              let normalizedSum := res.getD ops.zero
              if ¬ (res.isSome ∨ ops.is_constant sum) then
                Except.error (SubresError.assertion 258)
              else
                match vectorGet 260 h (h.length - 1) with
                | Except.error e => Except.error e
                | Except.ok hback =>
                  let t := dops.ofCoefficients [dops.zeroC, hback]
                  match vectorGet 261 (dops.coefficients t) qDeg with
                  | Except.error e => Except.error e
                  | Except.ok tq =>
                    let reducedNewB :=
                      dops.sub (ops.mulPC (dops.add t normalizedSum) lcoeffQ)
                        (dops.to_univariate_polynomial tq)
                    let reducedNewB :=
                      (ops.try_divide reducedNewB (ops.lcoeff p)).getD reducedNewB
                    if delta % 2 = 0 then Except.ok (ops.neg reducedNewB)
                    else Except.ok reducedNewB

/-- The value of the variable reducedNewB of the Ducos branch of part 3 after
line 262, that is the statements of lines 234 to 262 without the choice of the
sign that follows them (lines 263 to 267). -/
def ducosReducedNewB {P C : Type} (ops : PolyOps P C) (dops : DucosOps P C)
    (p q c : P) (pDeg qDeg : Nat) : Except SubresError P :=
  let lcoeffQ := ops.lcoeff q
  let lcoeffC := ops.lcoeff c
  let h := List.replicate pDeg dops.zeroC
  match ducosInitLoop ops dops lcoeffC qDeg qDeg 0 h with
  | Except.error e => Except.error e
  | Except.ok h =>
    match (if pDeg ≠ qDeg then
        vectorSet 242 h qDeg
          (dops.subToCoeff (ops.mulC lcoeffC (ops.pow dops.ofVariable qDeg)) c)
      else Except.ok h) with
    | Except.error e => Except.error e
    | Except.ok h =>
      match ducosReduceLoop ops dops q lcoeffQ pDeg qDeg pDeg (qDeg + 1) h with
      | Except.error e => Except.error e
      | Except.ok h =>
        match vectorGet 252 h 0 with
        | Except.error e => Except.error e
        | Except.ok hfront =>
          match vectorGet 252 (dops.coefficients p) 0 with
          | Except.error e => Except.error e
          | Except.ok p0 =>
            match ducosSumLoop ops dops p h pDeg pDeg 1 (ops.constant (ops.mulC hfront p0)) with
            | Except.error e => Except.error e
            | Except.ok sum =>
              let res := ops.try_divide sum (ops.lcoeff p)
              let normalizedSum := res.getD ops.zero
              if ¬ (res.isSome ∨ ops.is_constant sum) then
                Except.error (SubresError.assertion 258)
              else
                match vectorGet 260 h (h.length - 1) with
                | Except.error e => Except.error e
                | Except.ok hback =>
                  let t := dops.ofCoefficients [dops.zeroC, hback]
                  match vectorGet 261 (dops.coefficients t) qDeg with
                  | Except.error e => Except.error e
                  | Except.ok tq =>
                    let reducedNewB :=
                      dops.sub (ops.mulPC (dops.add t normalizedSum) lcoeffQ)
                        (dops.to_univariate_polynomial tq)
                    let reducedNewB :=
                      (ops.try_divide reducedNewB (ops.lcoeff p)).getD reducedNewB
                    Except.ok reducedNewB

/-- The loop of principalSubresultantsCoefficients over the chain (lines 285 to
288): the assertion of line 286 on every element, and emplace_back of the
polynomial UnivariatePolynomial(s.mainVar(), s.lcoeff()) at the end of the
vector subresCoeffs. -/
def principalSubresultantsCoefficientsLoop {P C : Type} (ops : PolyOps P C) :
    List P → List P → Except SubresError (List P)
  | [], subresCoeffs => Except.ok subresCoeffs
  | s :: subres, subresCoeffs =>
    if ops.isZero s then Except.error (SubresError.assertion 286)
    else
      principalSubresultantsCoefficientsLoop ops subres
        (subresCoeffs ++ [ops.constant (ops.lcoeff s)])

/-- The function principalSubresultantsCoefficients (Resultant.h, lines 276 to
290). -/
def principalSubresultantsCoefficients {P C : Type} (ops : PolyOps P C)
    (part3Ducos : P → P → P → Nat → Nat → Nat → Except SubresError P)
    (strategy : SubresultantStrategy) (fuel : Nat) (p q : P) :
    Except SubresError (List P) :=
  match subresultants ops part3Ducos strategy fuel p q with
  | Except.error e => Except.error e
  | Except.ok subres => principalSubresultantsCoefficientsLoop ops subres []

/-- The function discriminant (Resultant.h, lines 337 to 350). The parameters
derivative and isNumber are the function derivative of Derivative.h and the
method isNumber() of UnivariatePolynomial, and ofInt is the conversion of the
literals 1 and -1 to Coeff; none of them is among the sources at hand. The
degree d is the length of a coefficient vector less one, so d * (d - 1) is
computed on natural numbers (for d = 0 the product is 0 in the source too). -/
def discriminant {P C : Type} (ops : PolyOps P C) (normalized : P → P)
    (part3Ducos : P → P → P → Nat → Nat → Nat → Except SubresError P)
    (derivative : P → P) (isNumber : P → Bool) (ofInt : Int → C)
    (strategy : SubresultantStrategy) (fuel : Nat) (p : P) : Except SubresError P :=
  match resultant ops normalized part3Ducos strategy fuel p (derivative p) with
  | Except.error e => Except.error e
  | Except.ok res =>
    if isNumber res then Except.ok res
    else
      let d := ops.degree p
      let sign := if (d * (d - 1) / 2) % 2 = 0 then ofInt 1 else ofInt (-1)
      let redCoeff := ops.mulC sign (ops.lcoeff p)
      match ops.try_divide res redCoeff with
      | none => Except.error (SubresError.assertion 347)
      | some res => Except.ok res

/-! ### Polynomials over the integers

The coefficient vector of a polynomial over the integers: the entry at index i
is the coefficient of the power i of the main variable, and the last entry is
not zero; the zero polynomial is the empty vector. -/

/-- The coefficient vector without the zero entries at its end (the method
stripLeadingZeroes of UnivariatePolynomial). -/
def IntPoly.strip (p : List Int) : List Int :=
  (p.reverse.dropWhile (fun c => c == 0)).reverse

/-- Modelled from the spec: isZero, "a polynomial is zero if it has no non-zero
coefficients". -/
def IntPoly.isZero (p : List Int) : Bool := (IntPoly.strip p).isEmpty

/-- Modelled from the spec: degree, "the index of the highest non-zero
coefficient" (0 for the zero polynomial). -/
def IntPoly.degree (p : List Int) : Nat := (IntPoly.strip p).length - 1

/-- Modelled from the spec: is_constant, a polynomial is "constant if degree
0". -/
def IntPoly.is_constant (p : List Int) : Bool := decide ((IntPoly.strip p).length ≤ 1)

/-- Modelled from the spec: lcoeff, the leading coefficient, the highest
non-zero coefficient (0 for the zero polynomial). -/
def IntPoly.lcoeff (p : List Int) : Int := (IntPoly.strip p).getLastD 0

/-- Modelled from the spec: the negation of a polynomial (subtract is an
operation of the coefficient ring). -/
def IntPoly.neg (p : List Int) : List Int := p.map (fun c => -c)

/-- Modelled from the spec: the product of a coefficient and a polynomial. -/
def IntPoly.smul (c : Int) (p : List Int) : List Int := IntPoly.strip (p.map (fun a => c * a))

/-- Modelled from the spec: the sum of two polynomials. -/
def IntPoly.add : List Int → List Int → List Int
  | [], q => q
  | p, [] => p
  | a :: p, b :: q => (a + b) :: IntPoly.add p q

/-- Modelled from the spec: the product of two polynomials. -/
def IntPoly.mul : List Int → List Int → List Int
  | [], _ => []
  | a :: p, q => IntPoly.strip (IntPoly.add (q.map (fun b => a * b)) (0 :: IntPoly.mul p q))

/-- Modelled from the spec: try_divide, "an exact-or-failing division operator
returning a success flag": the quotient of a polynomial by a coefficient when
the coefficient is not zero and divides every coefficient of the polynomial,
and none otherwise. -/
def IntPoly.try_divide (p : List Int) (c : Int) : Option (List Int) :=
  if c = 0 then none
  else if p.all (fun a => decide (a % c = 0)) then some (p.map (fun a => a / c))
  else none

/-- The division rounds of the pseudo-remainder: while the remainder r is not
zero and has at least the degree of the divisor b, the multiple of b that
cancels the leading coefficient of r is subtracted. The fuel is the number of
rounds; the caller passes the length of the dividend. -/
def IntPoly.remLoop (b : List Int) : Nat → List Int → List Int
  | 0, r => r
  | fuel + 1, r =>
    if IntPoly.isZero r ∨ IntPoly.degree r < IntPoly.degree b then IntPoly.strip r
    else
      let k := IntPoly.degree r - IntPoly.degree b
      let f := IntPoly.lcoeff r / IntPoly.lcoeff b
      IntPoly.remLoop b fuel
        (IntPoly.strip (IntPoly.add r
          (IntPoly.neg (List.replicate k 0 ++ (IntPoly.strip b).map (fun c => f * c)))))

/-- Modelled from the spec: pseudo_remainder, "the remainder of polynomial
division after scaling the dividend by the divisor's leading coefficient raised
to a suitable power, keeping results in the same coefficient ring without
requiring division"; the power is deg(dividend) - deg(divisor) + 1, and the
dividend is returned when the divisor is zero or has the larger degree. -/
def IntPoly.pseudo_remainder (a b : List Int) : List Int :=
  if IntPoly.isZero b ∨ IntPoly.degree a < IntPoly.degree b then a
  else
    IntPoly.remLoop b a.length
      (IntPoly.smul (IntPoly.lcoeff b ^ (IntPoly.degree a - IntPoly.degree b + 1)) a)

/-- The doubling rounds of highestPower. -/
def IntPoly.highestPowerLoop (n : Nat) : Nat → Nat → Nat
  | 0, r => r
  | fuel + 1, r => if r * 2 ≤ n then IntPoly.highestPowerLoop n fuel (r * 2) else r

/-- Modelled from the spec: highestPower, the power of two from which the
"dichotomous (binary-exponentiation-style) computation" starts: the highest
power of two that is at most n (1 for n = 0). -/
def IntPoly.highestPower (n : Nat) : Nat := IntPoly.highestPowerLoop n n 1

/-- Modelled from the spec: the operations of the coefficient ring of the
integers and of the univariate polynomials over it. -/
def intOps : PolyOps (List Int) Int where
  isZero := IntPoly.isZero
  is_constant := IntPoly.is_constant
  degree := IntPoly.degree
  lcoeff := IntPoly.lcoeff
  neg := IntPoly.neg
  pseudo_remainder := IntPoly.pseudo_remainder
  pow := fun c n => c ^ n
  mulC := fun a b => a * b
  smul := IntPoly.smul
  mul := IntPoly.mul
  mulPC := fun p c => IntPoly.smul c p
  try_divide := IntPoly.try_divide
  constant := fun c => IntPoly.strip [c]
  zero := []
  highestPower := IntPoly.highestPower

/-- Modelled from the spec: normalized on polynomials over the integers ("make
monic/primitive per ring convention"), the polynomial divided by its unit part,
the sign of its leading coefficient. -/
def IntPoly.normalized (p : List Int) : List Int :=
  if IntPoly.lcoeff p < 0 then IntPoly.neg p else p

/-- The rounds of the derivative: the coefficient of the power k is multiplied
by k and moves one place down. -/
def IntPoly.derivativeLoop : Nat → List Int → List Int
  | _, [] => []
  | k, a :: p => ((k : Int) * a) :: IntPoly.derivativeLoop (k + 1) p

/-- Modelled from the spec: derivative, the derivative of a polynomial over the
integers by its main variable (the discriminant is the "resultant of a
polynomial and its derivative"). -/
def IntPoly.derivative (p : List Int) : List Int :=
  IntPoly.strip (IntPoly.derivativeLoop 1 p.tail)

/-- Modelled from the spec: the method isNumber() of UnivariatePolynomial on
polynomials whose coefficients are integers, where a polynomial is a number
when it is constant, the "notion of constant / degree-0" that the derived
operations use. -/
def IntPoly.isNumber (p : List Int) : Bool := IntPoly.is_constant p

/-! ### Shared instances

The embedding above takes a shared instance to be its content. To tell the
instance of the pool from another object of the same content, the functions
below work on addresses: an object is named by its index in the list of all
Monomial objects. -/

/-- The Monomial objects that exist and the pool: objects holds the content of
every object, the address of an object being its index; pool holds the
addresses of the objects that the pool owns. -/
structure MonomialHeap where
  objects : List Monomial
  pool : List Nat
deriving DecidableEq, Repr

/-- Modelled from the spec: MonomialPool::create as a function on addresses
(MonomialPool.h and MonomialPool.cpp are not among the sources at hand), "either
finds or inserts": the address of the object of the pool with the given content
when there is one, and otherwise the address of a new object with that content,
which the pool then owns. -/
def MonomialPool.createShared (heap : MonomialHeap) (exps : List (Nat × Nat)) (tdeg : Nat) :
    Nat × MonomialHeap :=
  match heap.pool.find? (fun a => decide (heap.objects.get? a = some ⟨exps, tdeg⟩)) with
  | some a => (a, heap)
  | none =>
    (heap.objects.length,
      ⟨heap.objects ++ [⟨exps, tdeg⟩], heap.pool ++ [heap.objects.length]⟩)

/-- The call std::make_shared<const Monomial>(mHash, exps, tdeg) of the standard
library: a new object with the given content, at a new address; the pool is not
told of it. -/
def make_shared (heap : MonomialHeap) (exps : List (Nat × Nat)) (tdeg : Nat) :
    Nat × MonomialHeap :=
  (heap.objects.length, ⟨heap.objects ++ [⟨exps, tdeg⟩], heap.pool⟩)

/-- Monomial::divide(const Monomial::Arg&, Monomial::Arg&) (Monomial.cpp, lines
58 to 129) on addresses. The value none is the return value false; some
(res, heap) is the return value true with the address assigned to res (none
for nullptr) and the objects that exist afterwards. The content of the result
is the one that Monomial.divide computes; with a null argument the object comes
from std::make_shared (line 62), in all other places from
MonomialPool::create (lines 77 and 126). -/
def Monomial.divideShared (heap : MonomialHeap) (self : Monomial) (m : Monomial.Arg) :
    Option (Option Nat × MonomialHeap) :=
  match m with
  | none =>
    let res := make_shared heap self.mExponents self.mTotalDegree
    some (some res.1, res.2)
  | some m =>
    match self.divide (some m) with
    | none => none
    | some none => some (none, heap)
    | some (some r) =>
      let res := MonomialPool.createShared heap r.mExponents r.mTotalDegree
      some (some res.1, res.2)

/-- The value of a polynomial over the integers at the point x. -/
def IntPoly.eval (x : Int) (p : List Int) : Int := p.foldr (fun a acc => a + x * acc) 0

/-- Every division that the loop "while (exponent != 1)" of part 2 performs
succeeds: the division of every round (line 183) and, in the rounds where it is
made, the second division (line 185). The arguments are those of lazardLoop. -/
def lazardLoopDivides {P C : Type} (ops : PolyOps P C) (subresLcoeff lcoeffQ : C) :
    Nat → Nat → Nat → P → Bool
  | 0, _, _, _ => true
  | fuel + 1, exponent, deltaReduced, reductionCoeff =>
    if exponent ≠ 1 then
      match ops.try_divide (ops.mul reductionCoeff reductionCoeff) subresLcoeff with
      | none => false
      | some r =>
        if deltaReduced ≥ exponent / 2 then
          match ops.try_divide (ops.mulPC r lcoeffQ) subresLcoeff with
          | none => false
          | some r2 =>
            lazardLoopDivides ops subresLcoeff lcoeffQ fuel (exponent / 2)
              (deltaReduced - exponent / 2) r2
        else lazardLoopDivides ops subresLcoeff lcoeffQ fuel (exponent / 2) deltaReduced r
    else true

/-! ### Polynomials whose coefficients are polynomials over the integers

The Ducos branch needs coefficients that hold the main variable. The smallest
such coefficient type is that of the polynomials over the integers in the main
variable itself; a coefficient is then a coefficient vector over the integers
(as above, without zero entries at its end) and a polynomial is a vector of such
coefficients whose last entry is not zero. A polynomial with integer
coefficients has the constant coefficients [a]. -/

/-- The rounds of the exact division of two polynomials over the integers: the
quotient collected so far and the rest of the dividend; the fuel is the number
of rounds, the caller passes the length of the dividend. -/
def IntPoly.divExactLoop (b : List Int) : Nat → List Int → List Int → Option (List Int)
  | 0, quot, r => if IntPoly.isZero r then some (IntPoly.strip quot) else none
  | fuel + 1, quot, r =>
    if IntPoly.isZero r then some (IntPoly.strip quot)
    else if IntPoly.degree r < IntPoly.degree b then none
    else if IntPoly.lcoeff r % IntPoly.lcoeff b ≠ 0 then none
    else
      let k := IntPoly.degree r - IntPoly.degree b
      let f := IntPoly.lcoeff r / IntPoly.lcoeff b
      let term := List.replicate k 0 ++ [f]
      IntPoly.divExactLoop b fuel (IntPoly.add quot term)
        (IntPoly.strip (IntPoly.add r (IntPoly.neg (IntPoly.mul term (IntPoly.strip b)))))

/-- Modelled from the spec: "an exact-or-failing division operator" on the
coefficients, here polynomials over the integers: the quotient when the divisor
is not zero and divides the dividend, and none otherwise. -/
def IntPoly.divExact (a b : List Int) : Option (List Int) :=
  if IntPoly.isZero b then none else IntPoly.divExactLoop b a.length [] (IntPoly.strip a)

/-- The coefficient vector without the zero coefficients at its end. -/
def ZxPoly.strip (p : List (List Int)) : List (List Int) :=
  (p.reverse.dropWhile IntPoly.isZero).reverse

/-- Modelled from the spec: isZero, "a polynomial is zero if it has no non-zero
coefficients". -/
def ZxPoly.isZero (p : List (List Int)) : Bool := (ZxPoly.strip p).isEmpty

/-- Modelled from the spec: degree, the index of the highest non-zero
coefficient (0 for the zero polynomial). -/
def ZxPoly.degree (p : List (List Int)) : Nat := (ZxPoly.strip p).length - 1

/-- Modelled from the spec: is_constant, a polynomial is constant if it has
degree 0. -/
def ZxPoly.is_constant (p : List (List Int)) : Bool := decide ((ZxPoly.strip p).length ≤ 1)

/-- Modelled from the spec: lcoeff, the highest non-zero coefficient (0 for the
zero polynomial). -/
def ZxPoly.lcoeff (p : List (List Int)) : List Int := (ZxPoly.strip p).getLastD []

/-- Modelled from the spec: the negation of a polynomial. -/
def ZxPoly.neg (p : List (List Int)) : List (List Int) := p.map IntPoly.neg

/-- Modelled from the spec: the product of a coefficient and a polynomial. -/
def ZxPoly.smul (c : List Int) (p : List (List Int)) : List (List Int) :=
  ZxPoly.strip (p.map (fun a => IntPoly.mul c a))

/-- The sum of two coefficient vectors, entry by entry. -/
def ZxPoly.addRaw : List (List Int) → List (List Int) → List (List Int)
  | [], q => q
  | p, [] => p
  | a :: p, b :: q => IntPoly.strip (IntPoly.add a b) :: ZxPoly.addRaw p q

/-- Modelled from the spec: the sum of two polynomials. -/
def ZxPoly.add (p q : List (List Int)) : List (List Int) := ZxPoly.strip (ZxPoly.addRaw p q)

/-- Modelled from the spec: the difference of two polynomials. -/
def ZxPoly.sub (p q : List (List Int)) : List (List Int) := ZxPoly.add p (ZxPoly.neg q)

/-- Modelled from the spec: the product of two polynomials. -/
def ZxPoly.mul : List (List Int) → List (List Int) → List (List Int)
  | [], _ => []
  | a :: p, q => ZxPoly.add (q.map (fun b => IntPoly.mul a b)) ([] :: ZxPoly.mul p q)

/-- The quotients of the entries of a coefficient vector by a coefficient, when
all the divisions are exact. -/
def ZxPoly.divAll (c : List Int) : List (List Int) → Option (List (List Int))
  | [] => some []
  | a :: p =>
    match IntPoly.divExact a c, ZxPoly.divAll c p with
    | some x, some r => some (x :: r)
    | _, _ => none

/-- Modelled from the spec: try_divide, "an exact-or-failing division operator
returning a success flag", of a polynomial by a coefficient. -/
def ZxPoly.try_divide (p : List (List Int)) (c : List Int) : Option (List (List Int)) :=
  if IntPoly.isZero c then none else ZxPoly.divAll c p

/-- The rounds of the pseudo-remainder: in every round the remainder is
multiplied by the leading coefficient of the divisor b and, when it has at
least the degree of b, the multiple of b that cancels its leading coefficient
is subtracted. -/
def ZxPoly.remLoop (b : List (List Int)) : Nat → List (List Int) → List (List Int)
  | 0, r => r
  | fuel + 1, r =>
    if ZxPoly.isZero r ∨ ZxPoly.degree r < ZxPoly.degree b then
      ZxPoly.remLoop b fuel (ZxPoly.smul (ZxPoly.lcoeff b) r)
    else
      let k := ZxPoly.degree r - ZxPoly.degree b
      ZxPoly.remLoop b fuel
        (ZxPoly.sub (ZxPoly.smul (ZxPoly.lcoeff b) r)
          (List.replicate k [] ++ ZxPoly.smul (ZxPoly.lcoeff r) b))

/-- Modelled from the spec: pseudo_remainder, "the remainder of polynomial
division after scaling the dividend by the divisor's leading coefficient raised
to a suitable power", the power deg(dividend) - deg(divisor) + 1; the dividend
is returned when the divisor is zero or has the larger degree. -/
def ZxPoly.pseudo_remainder (a b : List (List Int)) : List (List Int) :=
  if ZxPoly.isZero b ∨ ZxPoly.degree a < ZxPoly.degree b then a
  else ZxPoly.remLoop b (ZxPoly.degree a - ZxPoly.degree b + 1) (ZxPoly.strip a)

/-- The power of a coefficient. -/
def IntPoly.pow (c : List Int) : Nat → List Int
  | 0 => [1]
  | n + 1 => IntPoly.mul c (IntPoly.pow c n)

/-- Modelled from the spec: the operations of the polynomials whose
coefficients are polynomials over the integers. -/
def zxOps : PolyOps (List (List Int)) (List Int) where
  isZero := ZxPoly.isZero
  is_constant := ZxPoly.is_constant
  degree := ZxPoly.degree
  lcoeff := ZxPoly.lcoeff
  neg := ZxPoly.neg
  pseudo_remainder := ZxPoly.pseudo_remainder
  pow := IntPoly.pow
  mulC := IntPoly.mul
  smul := ZxPoly.smul
  mul := ZxPoly.mul
  mulPC := fun p c => ZxPoly.smul c p
  try_divide := ZxPoly.try_divide
  constant := fun c => ZxPoly.strip [c]
  zero := []
  highestPower := IntPoly.highestPower

/-- The polynomial over the integers that a polynomial in the main variable
with such polynomials as coefficients stands for: the sum of the products of
the coefficients and the powers of the variable. -/
def ZxPoly.flatten : List (List Int) → List Int
  | [] => []
  | a :: p => IntPoly.strip (IntPoly.add a (0 :: ZxPoly.flatten p))

/-- Modelled from the spec: the operations of the Ducos branch on these
polynomials. The conversion of a polynomial to a coefficient is flatten; the
function to_univariate_polynomial makes of a coefficient the polynomial in the
main variable with integer coefficients. -/
def zxDucosOps : DucosOps (List (List Int)) (List Int) where
  ofVariable := [0, 1]
  mulVariable := fun c => IntPoly.strip (0 :: c)
  subToCoeff := fun a p => IntPoly.strip (IntPoly.add a (IntPoly.neg (ZxPoly.flatten p)))
  to_univariate_polynomial := fun c =>
    ZxPoly.strip ((IntPoly.strip c).map (fun a => IntPoly.strip [a]))
  coefficients := ZxPoly.strip
  addPC := fun p c => ZxPoly.add p [c]
  ofCoefficients := ZxPoly.strip
  zeroC := []
  add := ZxPoly.add
  sub := ZxPoly.sub


/-- Modelled from the spec: normalized on these polynomials ("make
monic/primitive per ring convention"), the polynomial divided by its unit part,
the sign of the leading integer of its leading coefficient. -/
def ZxPoly.normalized (p : List (List Int)) : List (List Int) :=
  if IntPoly.lcoeff (ZxPoly.lcoeff p) < 0 then ZxPoly.neg p else p

/-! ## The vocabulary of the specification -/

/-- The exponent of the variable v in an exponent vector: the exponent of the
first pair with that variable, and 0 when the variable does not occur. -/
def expOf : List (Nat × Nat) → Nat → Nat
  | [], _ => 0
  | p :: rest, v => if p.1 = v then p.2 else expOf rest v

/-- The variables of an exponent vector, in stored order. -/
def vars (l : List (Nat × Nat)) : List Nat := l.map Prod.fst

/-- The sum of the exponents of an exponent vector. -/
def degSum (l : List (Nat × Nat)) : Nat := (l.map Prod.snd).sum

/-- The pairs are sorted strictly descending by variable. -/
def Sorted (l : List (Nat × Nat)) : Prop := l.Pairwise (fun p q => q.1 < p.1)

/-- Every exponent is at least 1. -/
def Pos (l : List (Nat × Nat)) : Prop := ∀ p ∈ l, 1 ≤ p.2

/-- The four structural invariants that the data model lists for a monomial: no
variable appears twice, all exponents are at least 1, the pairs are sorted
strictly descending by variable, the cached total degree is the sum of the
exponents. -/
def Monomial.Invariants (m : Monomial) : Prop :=
  (vars m.mExponents).Nodup ∧ Pos m.mExponents ∧ Sorted m.mExponents ∧
    m.mTotalDegree = degSum m.mExponents

/-- A consistent monomial: a value of the data model, that is a monomial that
satisfies the four structural invariants and, being present, has at least one
pair (the constant 1 is the absence of a monomial). -/
def Monomial.Consistent (m : Monomial) : Prop :=
  m.Invariants ∧ m.mExponents ≠ []

/-- The exponent vector of a monomial that may be absent; "no monomial" has no
pair. -/
def Monomial.Arg.exps : Monomial.Arg → List (Nat × Nat)
  | none => []
  | some m => m.mExponents

/-- The total degree of a monomial that may be absent; "no monomial" has total
degree 0. -/
def Monomial.Arg.tdeg : Monomial.Arg → Nat
  | none => 0
  | some m => m.mTotalDegree

/-- The exponent of a variable in a monomial that may be absent. -/
def Monomial.Arg.exp (a : Monomial.Arg) (v : Nat) : Nat := expOf a.exps v

/-- The monomial that is the variable v to the power 1. -/
def Monomial.ofVar (v : Nat) : Monomial := ⟨[(v, 1)], 1⟩

instance (l : List (Nat × Nat)) : Decidable (Sorted l) := by
  unfold Sorted; infer_instance

instance (l : List (Nat × Nat)) : Decidable (Pos l) := by
  unfold Pos; infer_instance

instance (m : Monomial) : Decidable m.Invariants := by
  unfold Monomial.Invariants; infer_instance

instance (m : Monomial) : Decidable m.Consistent := by
  unfold Monomial.Consistent; infer_instance

/-! ## Exponent vectors -/

theorem sorted_cons {p : Nat × Nat} {l : List (Nat × Nat)} :
    Sorted (p :: l) ↔ (∀ q ∈ l, q.1 < p.1) ∧ Sorted l := by
  simp [Sorted, List.pairwise_cons]

theorem sorted_nil : Sorted [] := by simp [Sorted]

theorem pos_cons {p : Nat × Nat} {l : List (Nat × Nat)} :
    Pos (p :: l) ↔ 1 ≤ p.2 ∧ Pos l := by
  simp [Pos]

theorem pos_nil : Pos [] := by simp [Pos]

theorem degSum_cons (p : Nat × Nat) (l : List (Nat × Nat)) :
    degSum (p :: l) = p.2 + degSum l := by
  simp [degSum]

theorem degSum_nil : degSum [] = 0 := rfl

theorem degSum_append (l r : List (Nat × Nat)) :
    degSum (l ++ r) = degSum l + degSum r := by
  simp [degSum]

theorem expOf_cons (p : Nat × Nat) (l : List (Nat × Nat)) (v : Nat) :
    expOf (p :: l) v = if p.1 = v then p.2 else expOf l v := rfl

theorem expOf_nil (v : Nat) : expOf [] v = 0 := rfl

theorem expOf_eq_zero {l : List (Nat × Nat)} {v : Nat}
    (h : ∀ q ∈ l, q.1 ≠ v) : expOf l v = 0 := by
  induction l with
  | nil => rfl
  | cons p l ih =>
    have hp : p.1 ≠ v := h p (List.mem_cons_self _ _)
    rw [expOf_cons, if_neg hp]
    exact ih (fun q hq => h q (List.mem_cons_of_mem _ hq))

theorem expOf_eq_zero_of_lt {l : List (Nat × Nat)} {x v : Nat}
    (h : ∀ q ∈ l, q.1 < x) (hv : x ≤ v) : expOf l v = 0 :=
  expOf_eq_zero (fun q hq => by have := h q hq; omega)

theorem expOf_pos_of_mem {l : List (Nat × Nat)} (hp : Pos l) {v : Nat}
    (hv : v ∈ vars l) : 1 ≤ expOf l v := by
  induction l with
  | nil => simp [vars] at hv
  | cons p l ih =>
    rw [expOf_cons]
    by_cases h : p.1 = v
    · rw [if_pos h]; exact (pos_cons.1 hp).1
    · rw [if_neg h]
      refine ih (pos_cons.1 hp).2 ?_
      simp only [vars, List.map_cons, List.mem_cons] at hv
      rcases hv with hv | hv
      · exact absurd hv.symm h
      · exact hv

theorem expOf_eq_zero_iff {l : List (Nat × Nat)} (hp : Pos l) (v : Nat) :
    expOf l v = 0 ↔ v ∉ vars l := by
  constructor
  · intro h hv
    have := expOf_pos_of_mem hp hv
    omega
  · intro h
    refine expOf_eq_zero (fun q hq hqv => h ?_)
    exact List.mem_map.2 ⟨q, hq, hqv⟩

theorem mem_vars_iff {l : List (Nat × Nat)} (hp : Pos l) (v : Nat) :
    v ∈ vars l ↔ 1 ≤ expOf l v := by
  have := expOf_eq_zero_iff hp v
  constructor
  · exact expOf_pos_of_mem hp
  · intro h
    by_contra hv
    have := this.2 hv
    omega

theorem expOf_of_mem {l : List (Nat × Nat)} (hs : Sorted l) {p : Nat × Nat}
    (hp : p ∈ l) : expOf l p.1 = p.2 := by
  induction l with
  | nil => simp at hp
  | cons q l ih =>
    rw [expOf_cons]
    rcases List.mem_cons.1 hp with h | h
    · rw [h, if_pos rfl]
    · have hlt := (sorted_cons.1 hs).1 p h
      rw [if_neg (by omega)]
      exact ih (sorted_cons.1 hs).2 h

theorem sorted_nodup {l : List (Nat × Nat)} (hs : Sorted l) : (vars l).Nodup := by
  induction l with
  | nil => simp [vars]
  | cons p l ih =>
    simp only [vars, List.map_cons, List.nodup_cons]
    refine ⟨?_, ih (sorted_cons.1 hs).2⟩
    intro h
    obtain ⟨q, hq, hqp⟩ := List.mem_map.1 h
    have := (sorted_cons.1 hs).1 q hq
    omega

/-- Two sorted exponent vectors with positive exponents that give every variable
the same exponent are the same vector. -/
theorem exps_ext : ∀ {l₁ l₂ : List (Nat × Nat)}, Sorted l₁ → Pos l₁ → Sorted l₂ →
    Pos l₂ → (∀ v, expOf l₁ v = expOf l₂ v) → l₁ = l₂
  | [], [], _, _, _, _, _ => rfl
  | [], q :: l₂, _, _, _, hp₂, h => by
    have := h q.1
    rw [expOf_nil, expOf_cons, if_pos rfl] at this
    have := (pos_cons.1 hp₂).1
    omega
  | p :: l₁, [], _, hp₁, _, _, h => by
    have := h p.1
    rw [expOf_nil, expOf_cons, if_pos rfl] at this
    have := (pos_cons.1 hp₁).1
    omega
  | p :: l₁, q :: l₂, hs₁, hp₁, hs₂, hp₂, h => by
    have hb₁ := (sorted_cons.1 hs₁).1
    have hb₂ := (sorted_cons.1 hs₂).1
    have h1 := (pos_cons.1 hp₁).1
    have h2 := (pos_cons.1 hp₂).1
    have hv : p.1 = q.1 := by
      rcases Nat.lt_trichotomy p.1 q.1 with hlt | heq | hgt
      · have := h q.1
        rw [expOf_cons, if_neg (by omega), expOf_eq_zero_of_lt hb₁ (by omega), expOf_cons,
          if_pos rfl] at this
        omega
      · exact heq
      · have := h p.1
        rw [expOf_cons, if_pos rfl, expOf_cons, if_neg (by omega),
          expOf_eq_zero_of_lt hb₂ (by omega)] at this
        omega
    have he : p.2 = q.2 := by
      have := h p.1
      rw [expOf_cons, if_pos rfl, expOf_cons, if_pos hv.symm] at this
      exact this
    have ht : l₁ = l₂ := by
      refine exps_ext (sorted_cons.1 hs₁).2 (pos_cons.1 hp₁).2 (sorted_cons.1 hs₂).2
        (pos_cons.1 hp₂).2 (fun v => ?_)
      by_cases hvp : p.1 = v
      · rw [expOf_eq_zero_of_lt hb₁ (by omega), expOf_eq_zero_of_lt hb₂ (by omega)]
      · have := h v
        rw [expOf_cons, if_neg hvp, expOf_cons, if_neg (by omega)] at this
        exact this
    rw [ht, Prod.ext hv he]

/-- The sum of the exponents of a sorted vector is the sum, over any finite set
of variables that contains its variables, of the exponent of each variable. -/
theorem degSum_eq_sum {l : List (Nat × Nat)} (hs : Sorted l) (S : Finset Nat)
    (hS : ∀ v ∈ vars l, v ∈ S) : degSum l = ∑ v in S, expOf l v := by
  induction l generalizing S with
  | nil => simp [degSum, expOf]
  | cons p l ih =>
    have hb := (sorted_cons.1 hs).1
    have hpS : p.1 ∈ S := hS p.1 (by simp [vars])
    have hl : ∀ v ∈ vars l, v ∈ S := fun v hv => hS v (by
      simp only [vars, List.map_cons, List.mem_cons]; exact Or.inr hv)
    rw [degSum_cons, ih (sorted_cons.1 hs).2 S hl]
    have : ∀ v ∈ S, expOf (p :: l) v = (if p.1 = v then p.2 else 0) + expOf l v := by
      intro v _
      rw [expOf_cons]
      by_cases h : p.1 = v
      · rw [if_pos h, if_pos h, expOf_eq_zero_of_lt hb (by omega), Nat.add_zero]
      · rw [if_neg h, if_neg h, Nat.zero_add]
    rw [Finset.sum_congr rfl this, Finset.sum_add_distrib, Finset.sum_ite_eq S p.1, if_pos hpS]

/-! ## The product of two monomials -/

theorem mulLoop_acc : ∀ (fuel : Nat) (l r acc : List (Nat × Nat)),
    mulLoop fuel l r acc = acc ++ mulLoop fuel l r []
  | _, [], r, acc => by cases r <;> simp [mulLoop]
  | 0, a :: l, [], acc => by simp [mulLoop]
  | _ + 1, a :: l, [], acc => by simp [mulLoop]
  | 0, a :: l, b :: r, acc => by simp [mulLoop]
  | fuel + 1, a :: l, b :: r, acc => by
    simp only [mulLoop, List.nil_append]
    split_ifs
    · rw [mulLoop_acc fuel l r (acc ++ _), mulLoop_acc fuel l r [_], List.append_assoc]
    · rw [mulLoop_acc fuel (a :: l) r (acc ++ _), mulLoop_acc fuel (a :: l) r [_],
        List.append_assoc]
    · rw [mulLoop_acc fuel l (b :: r) (acc ++ _), mulLoop_acc fuel l (b :: r) [_],
        List.append_assoc]

theorem mulLoop_nil_left (fuel : Nat) (r : List (Nat × Nat)) : mulLoop fuel [] r [] = r := by
  cases fuel <;> simp [mulLoop]

theorem mulLoop_nil_right (fuel : Nat) (l : List (Nat × Nat)) : mulLoop fuel l [] [] = l := by
  cases fuel <;> cases l <;> simp [mulLoop]

theorem mulLoop_cons_cons (fuel : Nat) (a b : Nat × Nat) (l r : List (Nat × Nat)) :
    mulLoop (fuel + 1) (a :: l) (b :: r) [] =
      if a.1 = b.1 then (a.1, a.2 + b.2) :: mulLoop fuel l r []
      else if a.1 < b.1 then b :: mulLoop fuel (a :: l) r []
      else a :: mulLoop fuel l (b :: r) [] := by
  simp only [mulLoop, List.nil_append]
  split_ifs
  · rw [mulLoop_acc]; rfl
  · rw [mulLoop_acc]; rfl
  · rw [mulLoop_acc]; rfl

/-- With fuel for every pair of the two vectors, the merge of the product gives
every variable the sum of its two exponents, stays below every bound of the two
vectors, is sorted, keeps exponents positive and adds the exponent sums. -/
theorem mulLoop_spec : ∀ (fuel : Nat) (l r : List (Nat × Nat)),
    l.length + r.length ≤ fuel → Sorted l → Sorted r →
    (∀ v, expOf (mulLoop fuel l r []) v = expOf l v + expOf r v) ∧
    (∀ x, (∀ q ∈ l, q.1 < x) → (∀ q ∈ r, q.1 < x) → ∀ q ∈ mulLoop fuel l r [], q.1 < x) ∧
    Sorted (mulLoop fuel l r []) ∧
    (Pos l → Pos r → Pos (mulLoop fuel l r [])) ∧
    degSum (mulLoop fuel l r []) = degSum l + degSum r
  | fuel, [], r, _, _, hr => by
    rw [mulLoop_nil_left]
    simp [expOf_nil, degSum_nil, hr]
  | fuel, a :: l, [], _, hl, _ => by
    rw [mulLoop_nil_right]
    exact ⟨fun v => by simp [expOf_nil], fun x hx _ => hx, hl, fun h _ => h,
      by simp [degSum_nil]⟩
  | 0, a :: l, b :: r, hf, _, _ => by simp at hf
  | fuel + 1, a :: l, b :: r, hf, hl, hr => by
    have hal := (sorted_cons.1 hl).1
    have hbr := (sorted_cons.1 hr).1
    have hsl := (sorted_cons.1 hl).2
    have hsr := (sorted_cons.1 hr).2
    simp only [List.length_cons] at hf
    rw [mulLoop_cons_cons]
    split_ifs with h1 h2
    · obtain ⟨ihE, ihB, ihS, ihP, ihD⟩ := mulLoop_spec fuel l r (by omega) hsl hsr
      refine ⟨fun v => ?_, fun x hx hy q hq => ?_, ?_, fun hpl hpr => ?_, ?_⟩
      · rw [expOf_cons, expOf_cons, expOf_cons]
        by_cases hv : a.1 = v
        · rw [if_pos hv, if_pos hv, if_pos (h1 ▸ hv)]
        · rw [if_neg hv, if_neg hv, if_neg (h1 ▸ hv)]; exact ihE v
      · rcases List.mem_cons.1 hq with rfl | hq
        · exact hx a (List.mem_cons_self _ _)
        · exact ihB x (fun q hq => hx q (List.mem_cons_of_mem _ hq))
            (fun q hq => hy q (List.mem_cons_of_mem _ hq)) q hq
      · exact sorted_cons.2 ⟨ihB a.1 hal (h1 ▸ hbr), ihS⟩
      · refine pos_cons.2 ⟨?_, ihP (pos_cons.1 hpl).2 (pos_cons.1 hpr).2⟩
        have := (pos_cons.1 hpl).1
        show 1 ≤ a.2 + b.2
        omega
      · rw [degSum_cons, degSum_cons, degSum_cons, ihD]
        show a.2 + b.2 + _ = _
        omega
    · obtain ⟨ihE, ihB, ihS, ihP, ihD⟩ := mulLoop_spec fuel (a :: l) r (by simp; omega) hl hsr
      have hbl : ∀ q ∈ a :: l, q.1 < b.1 := by
        intro q hq
        rcases List.mem_cons.1 hq with rfl | hq
        · exact h2
        · exact Nat.lt_trans (hal q hq) h2
      refine ⟨fun v => ?_, fun x hx hy q hq => ?_, ?_, fun hpl hpr => ?_, ?_⟩
      · rw [expOf_cons b, expOf_cons b]
        by_cases hv : b.1 = v
        · rw [if_pos hv, if_pos hv, expOf_eq_zero_of_lt hbl (by omega)]; omega
        · rw [if_neg hv, if_neg hv]; exact ihE v
      · rcases List.mem_cons.1 hq with rfl | hq
        · exact hy _ (List.mem_cons_self _ _)
        · exact ihB x hx (fun q hq => hy q (List.mem_cons_of_mem _ hq)) q hq
      · exact sorted_cons.2 ⟨ihB b.1 hbl hbr, ihS⟩
      · exact pos_cons.2 ⟨(pos_cons.1 hpr).1, ihP hpl (pos_cons.1 hpr).2⟩
      · rw [degSum_cons b, degSum_cons b, ihD]; omega
    · obtain ⟨ihE, ihB, ihS, ihP, ihD⟩ := mulLoop_spec fuel l (b :: r) (by simp; omega) hsl hr
      have hab : b.1 < a.1 := by omega
      have hbr2 : ∀ q ∈ b :: r, q.1 < a.1 := by
        intro q hq
        rcases List.mem_cons.1 hq with rfl | hq
        · exact hab
        · exact Nat.lt_trans (hbr q hq) hab
      refine ⟨fun v => ?_, fun x hx hy q hq => ?_, ?_, fun hpl hpr => ?_, ?_⟩
      · rw [expOf_cons a, expOf_cons a]
        by_cases hv : a.1 = v
        · rw [if_pos hv, if_pos hv, expOf_eq_zero_of_lt hbr2 (by omega)]; omega
        · rw [if_neg hv, if_neg hv]; exact ihE v
      · rcases List.mem_cons.1 hq with rfl | hq
        · exact hx _ (List.mem_cons_self _ _)
        · exact ihB x (fun q hq => hx q (List.mem_cons_of_mem _ hq)) hy q hq
      · exact sorted_cons.2 ⟨ihB a.1 hal hbr2, ihS⟩
      · exact pos_cons.2 ⟨(pos_cons.1 hpl).1, ihP (pos_cons.1 hpl).2 hpr⟩
      · rw [degSum_cons a, degSum_cons a, ihD]; omega

/-! ## Division by a monomial -/

theorem divideLoop_nil_nil (tdeg : Nat) (acc : List (Nat × Nat)) :
    divideLoop tdeg [] [] acc =
      if acc.isEmpty then some none else some (MonomialPool.create acc tdeg) := by
  simp [divideLoop]

theorem divideLoop_nil_cons (tdeg : Nat) (b : Nat × Nat) (r acc : List (Nat × Nat)) :
    divideLoop tdeg [] (b :: r) acc = none := by
  simp [divideLoop]

theorem divideLoop_cons_nil (tdeg : Nat) (a : Nat × Nat) (l acc : List (Nat × Nat)) :
    divideLoop tdeg (a :: l) [] acc = some (MonomialPool.create (acc ++ a :: l) tdeg) := by
  simp [divideLoop]

theorem divideLoop_cons_cons (tdeg : Nat) (a b : Nat × Nat) (l r acc : List (Nat × Nat)) :
    divideLoop tdeg (a :: l) (b :: r) acc =
      if a.1 = b.1 then
        if a.2 < b.2 then none
        else if a.2 - b.2 > 0 then divideLoop tdeg l r (acc ++ [(a.1, a.2 - b.2)])
        else divideLoop tdeg l r acc
      else if a.1 < b.1 then none
      else divideLoop tdeg l (b :: r) (acc ++ [a]) := by
  simp only [divideLoop]

/-- The loop of the division returns true exactly when the divisor gives no
variable a larger exponent than the dividend does. -/
theorem divideLoop_isSome (tdeg : Nat) : ∀ (l r acc : List (Nat × Nat)),
    Sorted l → Sorted r → Pos r →
    ((divideLoop tdeg l r acc).isSome = true ↔ ∀ v, expOf r v ≤ expOf l v)
  | [], [], acc, _, _, _ => by
    rw [divideLoop_nil_nil]
    split_ifs <;> simp
  | [], b :: r, acc, _, _, hp => by
    rw [divideLoop_nil_cons]
    simp only [Option.isSome_none, Bool.false_eq_true, false_iff, not_forall]
    refine ⟨b.1, ?_⟩
    rw [expOf_cons, if_pos rfl, expOf_nil]
    have := (pos_cons.1 hp).1
    omega
  | a :: l, [], acc, _, _, _ => by
    rw [divideLoop_cons_nil]
    simp [expOf_nil]
  | a :: l, b :: r, acc, hl, hr, hp => by
    have hal := (sorted_cons.1 hl).1
    have hbr := (sorted_cons.1 hr).1
    have hsl := (sorted_cons.1 hl).2
    have hsr := (sorted_cons.1 hr).2
    have hb1 := (pos_cons.1 hp).1
    have hpr := (pos_cons.1 hp).2
    rw [divideLoop_cons_cons]
    split_ifs with h1 h2 h3 h4
    · simp only [Option.isSome_none, Bool.false_eq_true, false_iff, not_forall]
      refine ⟨a.1, ?_⟩
      rw [expOf_cons, if_pos h1.symm, expOf_cons, if_pos rfl]
      omega
    · rw [divideLoop_isSome tdeg l r _ hsl hsr hpr]
      constructor
      · intro h v
        rw [expOf_cons, expOf_cons]
        by_cases hv : a.1 = v
        · rw [if_pos (h1 ▸ hv), if_pos hv]; omega
        · rw [if_neg (h1 ▸ hv), if_neg hv]; exact h v
      · intro h v
        by_cases hv : a.1 = v
        · rw [expOf_eq_zero_of_lt hbr (by omega)]; omega
        · have := h v
          rw [expOf_cons, expOf_cons, if_neg (h1 ▸ hv), if_neg hv] at this
          exact this
    · rw [divideLoop_isSome tdeg l r _ hsl hsr hpr]
      constructor
      · intro h v
        rw [expOf_cons, expOf_cons]
        by_cases hv : a.1 = v
        · rw [if_pos (h1 ▸ hv), if_pos hv]; omega
        · rw [if_neg (h1 ▸ hv), if_neg hv]; exact h v
      · intro h v
        by_cases hv : a.1 = v
        · rw [expOf_eq_zero_of_lt hbr (by omega)]; omega
        · have := h v
          rw [expOf_cons, expOf_cons, if_neg (h1 ▸ hv), if_neg hv] at this
          exact this
    · simp only [Option.isSome_none, Bool.false_eq_true, false_iff, not_forall]
      refine ⟨b.1, ?_⟩
      have hbl : ∀ q ∈ a :: l, q.1 < b.1 := by
        intro q hq
        rcases List.mem_cons.1 hq with rfl | hq
        · exact h4
        · exact Nat.lt_trans (hal q hq) h4
      rw [expOf_cons, if_pos rfl, expOf_eq_zero_of_lt hbl (Nat.le_refl _)]
      omega
    · rw [divideLoop_isSome tdeg l (b :: r) _ hsl hr hp]
      have hab : b.1 < a.1 := by omega
      have hbr2 : ∀ q ∈ b :: r, q.1 < a.1 := by
        intro q hq
        rcases List.mem_cons.1 hq with rfl | hq
        · exact hab
        · exact Nat.lt_trans (hbr q hq) hab
      constructor
      · intro h v
        rw [expOf_cons a]
        by_cases hv : a.1 = v
        · rw [if_pos hv, expOf_eq_zero_of_lt hbr2 (by omega)]; omega
        · rw [if_neg hv]; exact h v
      · intro h v
        by_cases hv : a.1 = v
        · rw [expOf_eq_zero_of_lt hbr2 (by omega)]; omega
        · have := h v
          rw [expOf_cons a, if_neg hv] at this
          exact this

/-- When the loop of the division returns true, the monomial assigned to the
result consists of the pairs collected before followed by a sorted vector with
positive exponents that gives every variable the difference of its two
exponents; the result is "no monomial" when there is no pair at all. -/
theorem divideLoop_result (tdeg : Nat) : ∀ (l r acc : List (Nat × Nat)) (res : Monomial.Arg),
    Sorted l → Sorted r → Pos l → divideLoop tdeg l r acc = some res →
    ∃ q, (∀ v, expOf q v = expOf l v - expOf r v) ∧ Sorted q ∧ Pos q ∧
      (∀ x, (∀ p ∈ l, p.1 < x) → ∀ p ∈ q, p.1 < x) ∧
      res = if (acc ++ q).isEmpty then none else some ⟨acc ++ q, tdeg⟩
  | [], [], acc, res, _, _, _, h => by
    rw [divideLoop_nil_nil] at h
    refine ⟨[], fun v => by simp [expOf_nil], sorted_nil, pos_nil, fun x _ p hp => by simp at hp,
      ?_⟩
    rw [List.append_nil]
    split_ifs at h ⊢ <;> simp_all [MonomialPool.create]
  | [], b :: r, acc, res, _, _, _, h => by
    rw [divideLoop_nil_cons] at h
    exact absurd h (by simp)
  | a :: l, [], acc, res, hl, _, hp, h => by
    rw [divideLoop_cons_nil] at h
    refine ⟨a :: l, fun v => by simp [expOf_nil], hl, hp, fun x hx => hx, ?_⟩
    rw [if_neg (by simp)]
    simpa [MonomialPool.create] using h.symm
  | a :: l, b :: r, acc, res, hl, hr, hp, h => by
    have hal := (sorted_cons.1 hl).1
    have hbr := (sorted_cons.1 hr).1
    have hsl := (sorted_cons.1 hl).2
    have hsr := (sorted_cons.1 hr).2
    have ha1 := (pos_cons.1 hp).1
    have hpl := (pos_cons.1 hp).2
    rw [divideLoop_cons_cons] at h
    split_ifs at h with h1 h2 h3 h4
    · obtain ⟨q, hE, hS, hP, hB, hres⟩ := divideLoop_result tdeg l r _ res hsl hsr hpl h
      refine ⟨(a.1, a.2 - b.2) :: q, fun v => ?_, sorted_cons.2 ⟨hB a.1 hal, hS⟩,
        pos_cons.2 ⟨by show 1 ≤ a.2 - b.2; omega, hP⟩, fun x hx p hp => ?_, ?_⟩
      · rw [expOf_cons, expOf_cons, expOf_cons]
        by_cases hv : a.1 = v
        · rw [if_pos hv, if_pos hv, if_pos (h1 ▸ hv)]
        · rw [if_neg hv, if_neg hv, if_neg (h1 ▸ hv)]; exact hE v
      · rcases List.mem_cons.1 hp with rfl | hp
        · exact hx a (List.mem_cons_self _ _)
        · exact hB x (fun p hp => hx p (List.mem_cons_of_mem _ hp)) p hp
      · rw [hres]
        simp
    · obtain ⟨q, hE, hS, hP, hB, hres⟩ := divideLoop_result tdeg l r _ res hsl hsr hpl h
      refine ⟨q, fun v => ?_, hS, hP,
        fun x hx p hp => hB x (fun p hp => hx p (List.mem_cons_of_mem _ hp)) p hp, hres⟩
      rw [expOf_cons, expOf_cons]
      by_cases hv : a.1 = v
      · rw [if_pos hv, if_pos (h1 ▸ hv), hE v, expOf_eq_zero_of_lt hal (by omega)]
        omega
      · rw [if_neg hv, if_neg (h1 ▸ hv)]; exact hE v
    · obtain ⟨q, hE, hS, hP, hB, hres⟩ := divideLoop_result tdeg l (b :: r) _ res hsl hr hpl h
      have hab : b.1 < a.1 := by omega
      have hbr2 : ∀ q ∈ b :: r, q.1 < a.1 := by
        intro q hq
        rcases List.mem_cons.1 hq with rfl | hq
        · exact hab
        · exact Nat.lt_trans (hbr q hq) hab
      refine ⟨a :: q, fun v => ?_, sorted_cons.2 ⟨hB a.1 hal, hS⟩,
        pos_cons.2 ⟨ha1, hP⟩, fun x hx p hp => ?_, ?_⟩
      · rw [expOf_cons a, expOf_cons a]
        by_cases hv : a.1 = v
        · rw [if_pos hv, if_pos hv, expOf_eq_zero_of_lt hbr2 (by omega)]; omega
        · rw [if_neg hv, if_neg hv]; exact hE v
      · rcases List.mem_cons.1 hp with rfl | hp
        · exact hx _ (List.mem_cons_self _ _)
        · exact hB x (fun p hp => hx p (List.mem_cons_of_mem _ hp)) p hp
      · rw [hres]
        simp

theorem degSum_eq_of_expOf_add {q o m : List (Nat × Nat)} (hq : Sorted q) (ho : Sorted o)
    (hm : Sorted m) (h : ∀ v, expOf q v + expOf o v = expOf m v) :
    degSum q + degSum o = degSum m := by
  have hS : ∀ l : List (Nat × Nat), ∀ v ∈ vars l, l = q ∨ l = o ∨ l = m →
      v ∈ (vars q ++ vars o ++ vars m).toFinset := by
    intro l v hv hl
    rw [List.mem_toFinset]
    rcases hl with rfl | rfl | rfl <;> simp [hv]
  rw [degSum_eq_sum hq _ (fun v hv => hS q v hv (Or.inl rfl)),
    degSum_eq_sum ho _ (fun v hv => hS o v hv (Or.inr (Or.inl rfl))),
    degSum_eq_sum hm _ (fun v hv => hS m v hv (Or.inr (Or.inr rfl))),
    ← Finset.sum_add_distrib]
  exact Finset.sum_congr rfl (fun v _ => h v)

theorem degSum_le_of_expOf_le {l r : List (Nat × Nat)} (hl : Sorted l) (hr : Sorted r)
    (h : ∀ v, expOf r v ≤ expOf l v) : degSum r ≤ degSum l := by
  have hS : ∀ k : List (Nat × Nat), ∀ v ∈ vars k, k = l ∨ k = r →
      v ∈ (vars l ++ vars r).toFinset := by
    intro k v hv hk
    rw [List.mem_toFinset]
    rcases hk with rfl | rfl <;> simp [hv]
  rw [degSum_eq_sum hr _ (fun v hv => hS r v hv (Or.inr rfl)),
    degSum_eq_sum hl _ (fun v hv => hS l v hv (Or.inl rfl))]
  exact Finset.sum_le_sum (fun v _ => h v)

theorem length_le_of_expOf_le {l r : List (Nat × Nat)} (hr : Sorted r) (hp : Pos r)
    (h : ∀ v, expOf r v ≤ expOf l v) : r.length ≤ l.length := by
  have hsub : vars r ⊆ vars l := by
    intro v hv
    have h1 := expOf_pos_of_mem hp hv
    have h2 := h v
    by_contra hn
    have h3 : expOf l v = 0 := expOf_eq_zero (fun q hq hqv => hn (List.mem_map.2 ⟨q, hq, hqv⟩))
    omega
  have := ((sorted_nodup hr).subperm hsub).length_le
  simpa [vars] using this

theorem eq_nil_of_expOf_eq_zero {q : List (Nat × Nat)} (hp : Pos q) (h : ∀ v, expOf q v = 0) :
    q = [] := by
  cases q with
  | nil => rfl
  | cons p q =>
    have := h p.1
    rw [expOf_cons, if_pos rfl] at this
    have := (pos_cons.1 hp).1
    omega

theorem Monomial.Consistent.sorted {m : Monomial} (h : m.Consistent) : Sorted m.mExponents :=
  h.1.2.2.1

theorem Monomial.Consistent.pos {m : Monomial} (h : m.Consistent) : Pos m.mExponents :=
  h.1.2.1

theorem Monomial.Consistent.tdeg_eq {m : Monomial} (h : m.Consistent) :
    m.mTotalDegree = degSum m.mExponents :=
  h.1.2.2.2

theorem Monomial.Consistent.ne_nil {m : Monomial} (h : m.Consistent) : m.mExponents ≠ [] :=
  h.2

theorem consistent_mk {l : List (Nat × Nat)} {t : Nat} (hs : Sorted l) (hp : Pos l)
    (ht : t = degSum l) (hn : l ≠ []) : Monomial.Consistent ⟨l, t⟩ :=
  ⟨⟨sorted_nodup hs, hp, hs, ht⟩, hn⟩

theorem monomial_eq_of_expOf_eq {a b : Monomial} (ha : a.Consistent) (hb : b.Consistent)
    (h : ∀ v, expOf a.mExponents v = expOf b.mExponents v) : a = b := by
  have he : a.mExponents = b.mExponents := exps_ext ha.sorted ha.pos hb.sorted hb.pos h
  have ht : a.mTotalDegree = b.mTotalDegree := by rw [ha.tdeg_eq, hb.tdeg_eq, he]
  cases a; cases b; simp_all

theorem mem_vars_of_expOf_pos {l : List (Nat × Nat)} {v : Nat} (h : 1 ≤ expOf l v) :
    v ∈ vars l := by
  by_contra hn
  have := expOf_eq_zero (l := l) (v := v) (fun q hq hqv => hn (List.mem_map.2 ⟨q, hq, hqv⟩))
  omega

/-- Every variable of o occurs in m with an exponent at least as large exactly
when o gives no variable a larger exponent than m does. -/
theorem dominated_iff {m o : List (Nat × Nat)} (ho : Sorted o) (hp : Pos o) :
    (∀ p ∈ o, p.1 ∈ vars m ∧ p.2 ≤ expOf m p.1) ↔ ∀ v, expOf o v ≤ expOf m v := by
  constructor
  · intro h v
    by_cases hv : v ∈ vars o
    · obtain ⟨p, hpo, hpv⟩ := List.mem_map.1 hv
      have := (h p hpo).2
      rw [← hpv, expOf_of_mem ho hpo]
      exact this
    · rw [(expOf_eq_zero_iff hp v).2 hv]
      exact Nat.zero_le _
  · intro h p hpo
    have h1 := h p.1
    rw [expOf_of_mem ho hpo] at h1
    have h2 := hp p hpo
    exact ⟨mem_vars_of_expOf_pos (by omega), h1⟩

theorem divide_some_eq (m other : Monomial) :
    m.divide (some other) =
      if other.mTotalDegree > m.mTotalDegree ∨ other.mExponents.length > m.mExponents.length
      then none
      else divideLoop (m.mTotalDegree - other.mTotalDegree) m.mExponents other.mExponents [] :=
  rfl

theorem divide_isSome_iff {m other : Monomial} (hm : m.Consistent) (ho : other.Consistent) :
    (m.divide (some other)).isSome = true ↔
      ∀ v, expOf other.mExponents v ≤ expOf m.mExponents v := by
  rw [divide_some_eq]
  split_ifs with hg
  · simp only [Option.isSome_none, Bool.false_eq_true, false_iff]
    intro h
    have h1 := degSum_le_of_expOf_le hm.sorted ho.sorted h
    have h2 := length_le_of_expOf_le ho.sorted ho.pos h
    rw [← hm.tdeg_eq, ← ho.tdeg_eq] at h1
    omega
  · exact divideLoop_isSome _ _ _ _ hm.sorted ho.sorted ho.pos

/-- The result of a division that returns true, described by its exponent
vector q. -/
theorem divide_result {m other : Monomial} (hm : m.Consistent) (ho : other.Consistent)
    {res : Monomial.Arg} (h : m.divide (some other) = some res) :
    ∃ q, (∀ v, expOf q v + expOf other.mExponents v = expOf m.mExponents v) ∧ Sorted q ∧ Pos q ∧
      degSum q + other.mTotalDegree = m.mTotalDegree ∧
      res = if q.isEmpty then none else some ⟨q, m.mTotalDegree - other.mTotalDegree⟩ := by
  have hdom := (divide_isSome_iff hm ho).1 (by rw [h]; rfl)
  rw [divide_some_eq] at h
  split_ifs at h with hg
  obtain ⟨q, hE, hS, hP, _, hres⟩ := divideLoop_result _ _ _ _ _ hm.sorted ho.sorted hm.pos h
  have hE2 : ∀ v, expOf q v + expOf other.mExponents v = expOf m.mExponents v := by
    intro v
    have := hE v
    have := hdom v
    omega
  refine ⟨q, hE2, hS, hP, ?_, by simpa using hres⟩
  rw [hm.tdeg_eq, ho.tdeg_eq]
  exact degSum_eq_of_expOf_add hS ho.sorted hm.sorted hE2

theorem mul_some_some (a b : Monomial) :
    mul (some a) (some b) =
      some ⟨mulLoop (a.mExponents.length + b.mExponents.length) a.mExponents b.mExponents [],
        a.mTotalDegree + b.mTotalDegree⟩ :=
  rfl

/-- The product of two consistent monomials is consistent and gives every
variable the sum of its two exponents. -/
theorem mul_consistent {a b : Monomial} (ha : a.Consistent) (hb : b.Consistent) :
    ∃ r, mul (some a) (some b) = some r ∧ r.Consistent ∧
      (∀ v, expOf r.mExponents v = expOf a.mExponents v + expOf b.mExponents v) ∧
      r.mTotalDegree = a.mTotalDegree + b.mTotalDegree := by
  obtain ⟨hE, _, hS, hP, hD⟩ := mulLoop_spec _ _ _ (Nat.le_refl _) ha.sorted hb.sorted
  refine ⟨_, mul_some_some a b, consistent_mk hS (hP ha.pos hb.pos) ?_ ?_, hE, rfl⟩
  · rw [hD, ha.tdeg_eq, hb.tdeg_eq]
  · intro hnil
    have h0 := hE
    rw [hnil] at h0
    have := eq_nil_of_expOf_eq_zero ha.pos (fun v => by have := h0 v; rw [expOf_nil] at this; omega)
    exact ha.ne_nil this

/-! ## Searching a variable, division by a variable, product with a variable -/

theorem find_nil (v : Nat) : find [] v = ([], []) := rfl

theorem find_cons (p : Nat × Nat) (l : List (Nat × Nat)) (v : Nat) :
    find (p :: l) v = if p.1 = v then ([], p :: l) else (p :: (find l v).1, (find l v).2) := rfl

/-- The search splits the vector in two: no pair of the first part has the
variable searched for, and the second part, when it is not empty, starts with a
pair of that variable. -/
theorem find_spec (l : List (Nat × Nat)) (v : Nat) :
    l = (find l v).1 ++ (find l v).2 ∧ (∀ p ∈ (find l v).1, p.1 ≠ v) ∧
      (∀ it after, (find l v).2 = it :: after → it.1 = v) := by
  induction l with
  | nil => simp [find_nil]
  | cons p l ih =>
    rw [find_cons]
    split_ifs with h
    · refine ⟨rfl, by simp, ?_⟩
      intro it after he
      simp only [List.cons.injEq] at he
      rw [← he.1]; exact h
    · obtain ⟨h1, h2, h3⟩ := ih
      refine ⟨?_, ?_, h3⟩
      · show p :: l = p :: ((find l v).1 ++ (find l v).2)
        rw [← h1]
      · intro q hq
        rcases List.mem_cons.1 hq with rfl | hq
        · exact h
        · exact h2 q hq

theorem find_snd_eq_nil_iff (l : List (Nat × Nat)) (v : Nat) :
    (find l v).2 = [] ↔ v ∉ vars l := by
  induction l with
  | nil => simp [find_nil, vars]
  | cons p l ih =>
    rw [find_cons]
    split_ifs with h
    · simp [vars, h]
    · simp only [vars, List.map_cons, List.mem_cons, not_or] at ih ⊢
      rw [ih]
      constructor
      · exact fun hn => ⟨fun hv => h hv.symm, hn⟩
      · exact fun hn => hn.2

theorem sorted_append_cons {before after : List (Nat × Nat)} {it : Nat × Nat}
    (h : Sorted (before ++ it :: after)) :
    (∀ p ∈ before, it.1 < p.1) ∧ (∀ p ∈ after, p.1 < it.1) ∧ Sorted (before ++ after) ∧
      Sorted before ∧ Sorted after := by
  unfold Sorted at h ⊢
  rw [List.pairwise_append] at h
  obtain ⟨h1, h2, h3⟩ := h
  rw [List.pairwise_cons] at h2
  refine ⟨fun p hp => h3 p hp it (List.mem_cons_self _ _), h2.1, ?_, h1, h2.2⟩
  rw [List.pairwise_append]
  exact ⟨h1, h2.2, fun p hp q hq => h3 p hp q (List.mem_cons_of_mem _ hq)⟩

theorem mulVarLoop_inserted (rhs : Nat) : ∀ (l acc : List (Nat × Nat)),
    mulVarLoop rhs l true acc = (acc ++ l, true)
  | [], acc => by simp [mulVarLoop]
  | p :: l, acc => by
    simp only [mulVarLoop, if_true]
    rw [mulVarLoop_inserted rhs l]
    simp

theorem mulVarLoop_above (rhs : Nat) : ∀ (before rest acc : List (Nat × Nat)),
    (∀ p ∈ before, rhs < p.1) →
    mulVarLoop rhs (before ++ rest) false acc = mulVarLoop rhs rest false (acc ++ before)
  | [], rest, acc, _ => by simp
  | p :: before, rest, acc, h => by
    have hp : p.1 > rhs := h p (List.mem_cons_self _ _)
    have hstep : mulVarLoop rhs (p :: (before ++ rest)) false acc =
        mulVarLoop rhs (before ++ rest) false (acc ++ [p]) := by
      simp [mulVarLoop, hp]
    rw [List.cons_append, hstep,
      mulVarLoop_above rhs before rest _ (fun q hq => h q (List.mem_cons_of_mem _ hq))]
    simp

theorem mulVarLoop_eq (rhs : Nat) (p : Nat × Nat) (l acc : List (Nat × Nat)) (h : p.1 = rhs) :
    mulVarLoop rhs (p :: l) false acc = (acc ++ (rhs, p.2 + 1) :: l, true) := by
  have h1 : ¬ p.1 > rhs := by omega
  simp only [mulVarLoop, Bool.false_eq_true, if_false, if_neg h1, if_pos h]
  rw [mulVarLoop_inserted]
  simp

theorem mulVarLoop_below (rhs : Nat) (p : Nat × Nat) (l acc : List (Nat × Nat)) (h : p.1 < rhs) :
    mulVarLoop rhs (p :: l) false acc = (acc ++ (rhs, 1) :: p :: l, true) := by
  have h1 : ¬ p.1 > rhs := by omega
  have h2 : ¬ p.1 = rhs := by omega
  simp only [mulVarLoop, Bool.false_eq_true, if_false, if_neg h1, if_neg h2, if_pos h]
  rw [mulVarLoop_inserted]
  simp

theorem mulVar_some (m : Monomial) (v : Nat) :
    mulVar (some m) v =
      some ⟨if ¬ (mulVarLoop v m.mExponents false []).2 = true
          then (mulVarLoop v m.mExponents false []).1 ++ [(v, 1)]
          else (mulVarLoop v m.mExponents false []).1,
        m.mTotalDegree + 1⟩ :=
  rfl

/-- The product of a monomial whose vector is before ++ after, with the pairs
of before above v and those of after below v, and the variable v inserts the
pair (v, 1) between the two parts. -/
theorem mulVar_insert (before after : List (Nat × Nat)) (t v : Nat)
    (hb : ∀ p ∈ before, v < p.1) (ha : ∀ p ∈ after, p.1 < v) :
    mulVar (some ⟨before ++ after, t⟩) v = some ⟨before ++ (v, 1) :: after, t + 1⟩ := by
  rw [mulVar_some]
  show some (Monomial.mk (if ¬ (mulVarLoop v (before ++ after) false []).2 = true
          then (mulVarLoop v (before ++ after) false []).1 ++ [(v, 1)]
          else (mulVarLoop v (before ++ after) false []).1) (t + 1)) = _
  rw [mulVarLoop_above v before after [] hb]
  cases after with
  | nil => simp [mulVarLoop]
  | cons p after =>
    rw [mulVarLoop_below v p after _ (ha p (List.mem_cons_self _ _))]
    simp

/-- The product of a monomial whose vector is before ++ (v, e) :: after, with
the pairs of before above v, and the variable v raises the exponent e by 1. -/
theorem mulVar_raise (before after : List (Nat × Nat)) (t v e : Nat)
    (hb : ∀ p ∈ before, v < p.1) :
    mulVar (some ⟨before ++ (v, e) :: after, t⟩) v =
      some ⟨before ++ (v, e + 1) :: after, t + 1⟩ := by
  rw [mulVar_some]
  show some (Monomial.mk (if ¬ (mulVarLoop v (before ++ (v, e) :: after) false []).2 = true
          then (mulVarLoop v (before ++ (v, e) :: after) false []).1 ++ [(v, 1)]
          else (mulVarLoop v (before ++ (v, e) :: after) false []).1) (t + 1)) = _
  rw [mulVarLoop_above v before _ [] hb, mulVarLoop_eq v _ after _ rfl]
  simp

theorem divideVar_of_find {m : Monomial} {v : Nat} {before after : List (Nat × Nat)}
    {it : Nat × Nat} (h : find m.mExponents v = (before, it :: after)) :
    m.divideVar v = some (some ⟨if it.2 = 1 then (if before ≠ [] then before else []) ++ after
      else before ++ (it.1, it.2 - 1) :: after, m.mTotalDegree - 1⟩) := by
  unfold Monomial.divideVar
  rw [h]
  rfl

theorem divideVar_of_not_mem {m : Monomial} {v : Nat} (h : v ∉ vars m.mExponents) :
    m.divideVar v = none := by
  have h2 := (find_snd_eq_nil_iff m.mExponents v).2 h
  unfold Monomial.divideVar
  rw [show find m.mExponents v = ((find m.mExponents v).1, []) from Prod.ext rfl h2]

/-! ## Greatest common divisor -/

theorem gcdLoop_acc : ∀ (fuel : Nat) (l r acc : List (Nat × Nat)) (s : Nat),
    gcdLoop fuel l r acc s =
      (acc ++ (gcdLoop fuel l r [] 0).1, s + (gcdLoop fuel l r [] 0).2)
  | _, [], r, acc, s => by simp [gcdLoop]
  | 0, a :: l, [], acc, s => by simp [gcdLoop]
  | _ + 1, a :: l, [], acc, s => by simp [gcdLoop]
  | 0, a :: l, b :: r, acc, s => by simp [gcdLoop]
  | fuel + 1, a :: l, b :: r, acc, s => by
    simp only [gcdLoop, List.nil_append, Nat.zero_add]
    split_ifs
    · rw [gcdLoop_acc fuel l r (acc ++ _) (s + _), gcdLoop_acc fuel l r [_] (min a.2 b.2)]
      simp [Nat.add_assoc]
    · exact gcdLoop_acc fuel (a :: l) r acc s
    · exact gcdLoop_acc fuel l (b :: r) acc s

theorem gcdLoop_nil_left (fuel : Nat) (r : List (Nat × Nat)) :
    gcdLoop fuel [] r [] 0 = ([], 0) := by
  simp [gcdLoop]

theorem gcdLoop_nil_right (fuel : Nat) (l : List (Nat × Nat)) :
    gcdLoop fuel l [] [] 0 = ([], 0) := by
  cases fuel <;> cases l <;> simp [gcdLoop]

theorem gcdLoop_cons_cons (fuel : Nat) (a b : Nat × Nat) (l r : List (Nat × Nat)) :
    gcdLoop (fuel + 1) (a :: l) (b :: r) [] 0 =
      if a.1 = b.1 then
        ((a.1, min a.2 b.2) :: (gcdLoop fuel l r [] 0).1, min a.2 b.2 + (gcdLoop fuel l r [] 0).2)
      else if a.1 < b.1 then gcdLoop fuel (a :: l) r [] 0
      else gcdLoop fuel l (b :: r) [] 0 := by
  simp only [gcdLoop, List.nil_append, Nat.zero_add]
  split_ifs
  · rw [gcdLoop_acc]; rfl
  · rfl
  · rfl

/-- With fuel for every pair of the two vectors, the loop of the greatest common
divisor collects a sorted vector that gives every variable the minimum of its
two exponents, with positive exponents, and the sum of its exponents. -/
theorem gcdLoop_spec : ∀ (fuel : Nat) (l r : List (Nat × Nat)),
    l.length + r.length ≤ fuel → Sorted l → Sorted r →
    (∀ v, expOf (gcdLoop fuel l r [] 0).1 v = min (expOf l v) (expOf r v)) ∧
    (∀ x, (∀ q ∈ l, q.1 < x) → ∀ q ∈ (gcdLoop fuel l r [] 0).1, q.1 < x) ∧
    Sorted (gcdLoop fuel l r [] 0).1 ∧
    (Pos l → Pos r → Pos (gcdLoop fuel l r [] 0).1) ∧
    (gcdLoop fuel l r [] 0).2 = degSum (gcdLoop fuel l r [] 0).1
  | fuel, [], r, _, _, _ => by
    rw [gcdLoop_nil_left]
    exact ⟨fun v => by simp [expOf_nil], fun x _ q hq => by simp at hq, sorted_nil,
      fun _ _ => pos_nil, rfl⟩
  | fuel, a :: l, [], _, _, _ => by
    rw [gcdLoop_nil_right]
    exact ⟨fun v => by simp [expOf_nil], fun x _ q hq => by simp at hq, sorted_nil,
      fun _ _ => pos_nil, rfl⟩
  | 0, a :: l, b :: r, hf, _, _ => by simp at hf
  | fuel + 1, a :: l, b :: r, hf, hl, hr => by
    have hal := (sorted_cons.1 hl).1
    have hbr := (sorted_cons.1 hr).1
    have hsl := (sorted_cons.1 hl).2
    have hsr := (sorted_cons.1 hr).2
    simp only [List.length_cons] at hf
    rw [gcdLoop_cons_cons]
    split_ifs with h1 h2
    · obtain ⟨ihE, ihB, ihS, ihP, ihD⟩ := gcdLoop_spec fuel l r (by omega) hsl hsr
      refine ⟨fun v => ?_, fun x hx q hq => ?_, ?_, fun hpl hpr => ?_, ?_⟩
      · rw [expOf_cons, expOf_cons, expOf_cons]
        by_cases hv : a.1 = v
        · rw [if_pos hv, if_pos hv, if_pos (h1 ▸ hv)]
        · rw [if_neg hv, if_neg hv, if_neg (h1 ▸ hv)]; exact ihE v
      · rcases List.mem_cons.1 hq with rfl | hq
        · exact hx a (List.mem_cons_self _ _)
        · exact ihB x (fun q hq => hx q (List.mem_cons_of_mem _ hq)) q hq
      · exact sorted_cons.2 ⟨ihB a.1 hal, ihS⟩
      · refine pos_cons.2 ⟨?_, ihP (pos_cons.1 hpl).2 (pos_cons.1 hpr).2⟩
        have := (pos_cons.1 hpl).1
        have := (pos_cons.1 hpr).1
        show 1 ≤ min a.2 b.2
        omega
      · show min a.2 b.2 + _ = _
        rw [degSum_cons, ihD]
    · obtain ⟨ihE, ihB, ihS, ihP, ihD⟩ := gcdLoop_spec fuel (a :: l) r (by simp; omega) hl hsr
      have hbl : ∀ q ∈ a :: l, q.1 < b.1 := by
        intro q hq
        rcases List.mem_cons.1 hq with rfl | hq
        · exact h2
        · exact Nat.lt_trans (hal q hq) h2
      refine ⟨fun v => ?_, ihB, ihS, fun hpl hpr => ihP hpl (pos_cons.1 hpr).2, ihD⟩
      rw [ihE v, expOf_cons b]
      by_cases hv : b.1 = v
      · rw [if_pos hv, expOf_eq_zero_of_lt hbl (by omega)]; simp
      · rw [if_neg hv]
    · obtain ⟨ihE, ihB, ihS, ihP, ihD⟩ := gcdLoop_spec fuel l (b :: r) (by simp; omega) hsl hr
      have hab : b.1 < a.1 := by omega
      have hbr2 : ∀ q ∈ b :: r, q.1 < a.1 := by
        intro q hq
        rcases List.mem_cons.1 hq with rfl | hq
        · exact hab
        · exact Nat.lt_trans (hbr q hq) hab
      refine ⟨fun v => ?_, fun x hx q hq => ihB x (fun q hq => hx q (List.mem_cons_of_mem _ hq)) q hq,
        ihS, fun hpl hpr => ihP (pos_cons.1 hpl).2 hpr, ihD⟩
      rw [ihE v, expOf_cons a]
      by_cases hv : a.1 = v
      · rw [if_pos hv, expOf_eq_zero_of_lt hal (by omega), expOf_eq_zero_of_lt hbr2 (by omega)]
        simp
      · rw [if_neg hv]

theorem gcd_some_some (a b : Monomial) :
    Monomial.gcd (some a) (some b) =
      if ¬ (gcdLoop (a.mExponents.length + b.mExponents.length)
          a.mExponents b.mExponents [] 0).1.isEmpty = true
      then some ⟨(gcdLoop (a.mExponents.length + b.mExponents.length)
          a.mExponents b.mExponents [] 0).1,
        (gcdLoop (a.mExponents.length + b.mExponents.length) a.mExponents b.mExponents [] 0).2⟩
      else none :=
  rfl

/-- The greatest common divisor of two consistent monomials: its vector gives
every variable the minimum of its two exponents, its total degree is the sum of
its exponents, and when it is present it is a consistent monomial. -/
theorem gcd_spec {a b : Monomial} (ha : a.Consistent) (hb : b.Consistent) :
    (∀ v, expOf (Monomial.gcd (some a) (some b)).exps v =
      min (expOf a.mExponents v) (expOf b.mExponents v)) ∧
    Sorted (Monomial.gcd (some a) (some b)).exps ∧ Pos (Monomial.gcd (some a) (some b)).exps ∧
    (Monomial.gcd (some a) (some b)).tdeg = degSum (Monomial.gcd (some a) (some b)).exps ∧
    (∀ g, Monomial.gcd (some a) (some b) = some g → g.Consistent) := by
  obtain ⟨hE, _, hS, hP, hD⟩ := gcdLoop_spec _ _ _ (Nat.le_refl _) ha.sorted hb.sorted
  rw [gcd_some_some]
  generalize gcdLoop (a.mExponents.length + b.mExponents.length)
    a.mExponents b.mExponents [] 0 = G at hE hS hP hD
  obtain ⟨G1, G2⟩ := G
  cases G1 with
  | nil =>
    simp only [List.isEmpty_nil, not_true_eq_false, if_false]
    exact ⟨hE, sorted_nil, pos_nil, rfl, fun g hg => by simp at hg⟩
  | cons p q =>
    simp only [List.isEmpty_cons, Bool.false_eq_true, not_false_eq_true, if_true]
    refine ⟨hE, hS, hP ha.pos hb.pos, hD, fun g hg => ?_⟩
    simp only [Option.some.injEq] at hg
    rw [← hg]
    exact consistent_mk hS (hP ha.pos hb.pos) hD (by simp)

/-! ## Least common multiple -/

theorem lcmLoop_fst : ∀ (fuel : Nat) (l r acc : List (Nat × Nat)) (s : Nat),
    (lcmLoop fuel l r acc s).1 = acc ++ (lcmLoop fuel l r [] 0).1
  | _, [], r, acc, s => by simp [lcmLoop]
  | 0, a :: l, [], acc, s => by simp [lcmLoop]
  | _ + 1, a :: l, [], acc, s => by simp [lcmLoop]
  | 0, a :: l, b :: r, acc, s => by simp [lcmLoop]
  | fuel + 1, a :: l, b :: r, acc, s => by
    simp only [lcmLoop, List.nil_append]
    split_ifs
    · rw [lcmLoop_fst fuel l r (acc ++ _) _, lcmLoop_fst fuel l r [_] _, List.append_assoc]
    · rw [lcmLoop_fst fuel (a :: l) r (acc ++ _) _, lcmLoop_fst fuel (a :: l) r [_] _,
        List.append_assoc]
    · rw [lcmLoop_fst fuel l (b :: r) (acc ++ _) _, lcmLoop_fst fuel l (b :: r) [_] _,
        List.append_assoc]

theorem lcmLoop_nil_left (fuel : Nat) (r : List (Nat × Nat)) :
    (lcmLoop fuel [] r [] 0).1 = r := by
  simp [lcmLoop]

theorem lcmLoop_nil_right (fuel : Nat) (l : List (Nat × Nat)) :
    (lcmLoop fuel l [] [] 0).1 = l := by
  cases fuel <;> cases l <;> simp [lcmLoop]

theorem lcmLoop_cons_cons (fuel : Nat) (a b : Nat × Nat) (l r : List (Nat × Nat)) :
    (lcmLoop (fuel + 1) (a :: l) (b :: r) [] 0).1 =
      if a.1 = b.1 then (a.1, max a.2 b.2) :: (lcmLoop fuel l r [] 0).1
      else if a.1 < b.1 then b :: (lcmLoop fuel (a :: l) r [] 0).1
      else a :: (lcmLoop fuel l (b :: r) [] 0).1 := by
  simp only [lcmLoop, List.nil_append]
  split_ifs
  · rw [lcmLoop_fst]; rfl
  · rw [lcmLoop_fst]; rfl
  · rw [lcmLoop_fst]; rfl

/-- With fuel for every pair of the two vectors, the loop of the least common
multiple collects a sorted vector that gives every variable the maximum of its
two exponents, with positive exponents. -/
theorem lcmLoop_spec : ∀ (fuel : Nat) (l r : List (Nat × Nat)),
    l.length + r.length ≤ fuel → Sorted l → Sorted r →
    (∀ v, expOf (lcmLoop fuel l r [] 0).1 v = max (expOf l v) (expOf r v)) ∧
    (∀ x, (∀ q ∈ l, q.1 < x) → (∀ q ∈ r, q.1 < x) → ∀ q ∈ (lcmLoop fuel l r [] 0).1, q.1 < x) ∧
    Sorted (lcmLoop fuel l r [] 0).1 ∧
    (Pos l → Pos r → Pos (lcmLoop fuel l r [] 0).1)
  | fuel, [], r, _, _, hr => by
    rw [lcmLoop_nil_left]
    exact ⟨fun v => by simp [expOf_nil], fun x _ hx => hx, hr, fun _ h => h⟩
  | fuel, a :: l, [], _, hl, _ => by
    rw [lcmLoop_nil_right]
    exact ⟨fun v => by simp [expOf_nil], fun x hx _ => hx, hl, fun h _ => h⟩
  | 0, a :: l, b :: r, hf, _, _ => by simp at hf
  | fuel + 1, a :: l, b :: r, hf, hl, hr => by
    have hal := (sorted_cons.1 hl).1
    have hbr := (sorted_cons.1 hr).1
    have hsl := (sorted_cons.1 hl).2
    have hsr := (sorted_cons.1 hr).2
    simp only [List.length_cons] at hf
    rw [lcmLoop_cons_cons]
    split_ifs with h1 h2
    · obtain ⟨ihE, ihB, ihS, ihP⟩ := lcmLoop_spec fuel l r (by omega) hsl hsr
      refine ⟨fun v => ?_, fun x hx hy q hq => ?_, ?_, fun hpl hpr => ?_⟩
      · rw [expOf_cons, expOf_cons, expOf_cons]
        by_cases hv : a.1 = v
        · rw [if_pos hv, if_pos hv, if_pos (h1 ▸ hv)]
        · rw [if_neg hv, if_neg hv, if_neg (h1 ▸ hv)]; exact ihE v
      · rcases List.mem_cons.1 hq with rfl | hq
        · exact hx a (List.mem_cons_self _ _)
        · exact ihB x (fun q hq => hx q (List.mem_cons_of_mem _ hq))
            (fun q hq => hy q (List.mem_cons_of_mem _ hq)) q hq
      · exact sorted_cons.2 ⟨ihB a.1 hal (h1 ▸ hbr), ihS⟩
      · refine pos_cons.2 ⟨?_, ihP (pos_cons.1 hpl).2 (pos_cons.1 hpr).2⟩
        have := (pos_cons.1 hpl).1
        show 1 ≤ max a.2 b.2
        omega
    · obtain ⟨ihE, ihB, ihS, ihP⟩ := lcmLoop_spec fuel (a :: l) r (by simp; omega) hl hsr
      have hbl : ∀ q ∈ a :: l, q.1 < b.1 := by
        intro q hq
        rcases List.mem_cons.1 hq with rfl | hq
        · exact h2
        · exact Nat.lt_trans (hal q hq) h2
      refine ⟨fun v => ?_, fun x hx hy q hq => ?_, ?_, fun hpl hpr => ?_⟩
      · rw [expOf_cons b, expOf_cons b]
        by_cases hv : b.1 = v
        · rw [if_pos hv, if_pos hv, expOf_eq_zero_of_lt hbl (by omega)]; simp
        · rw [if_neg hv, if_neg hv]; exact ihE v
      · rcases List.mem_cons.1 hq with rfl | hq
        · exact hy _ (List.mem_cons_self _ _)
        · exact ihB x hx (fun q hq => hy q (List.mem_cons_of_mem _ hq)) q hq
      · exact sorted_cons.2 ⟨ihB b.1 hbl hbr, ihS⟩
      · exact pos_cons.2 ⟨(pos_cons.1 hpr).1, ihP hpl (pos_cons.1 hpr).2⟩
    · obtain ⟨ihE, ihB, ihS, ihP⟩ := lcmLoop_spec fuel l (b :: r) (by simp; omega) hsl hr
      have hab : b.1 < a.1 := by omega
      have hbr2 : ∀ q ∈ b :: r, q.1 < a.1 := by
        intro q hq
        rcases List.mem_cons.1 hq with rfl | hq
        · exact hab
        · exact Nat.lt_trans (hbr q hq) hab
      refine ⟨fun v => ?_, fun x hx hy q hq => ?_, ?_, fun hpl hpr => ?_⟩
      · rw [expOf_cons a, expOf_cons a]
        by_cases hv : a.1 = v
        · rw [if_pos hv, if_pos hv, expOf_eq_zero_of_lt hbr2 (by omega)]; simp
        · rw [if_neg hv, if_neg hv]; exact ihE v
      · rcases List.mem_cons.1 hq with rfl | hq
        · exact hx _ (List.mem_cons_self _ _)
        · exact ihB x (fun q hq => hx q (List.mem_cons_of_mem _ hq)) hy q hq
      · exact sorted_cons.2 ⟨ihB a.1 hal hbr2, ihS⟩
      · exact pos_cons.2 ⟨(pos_cons.1 hpl).1, ihP (pos_cons.1 hpl).2 hpr⟩

/-- The sum kept by the loop of the least common multiple: started at a value
that is at least the two exponent sums, it ends at the start value minus the two
exponent sums plus the exponent sum of the vector collected. -/
theorem lcmLoop_snd : ∀ (fuel : Nat) (l r acc : List (Nat × Nat)) (s : Nat),
    l.length + r.length ≤ fuel → degSum l + degSum r ≤ s →
    (lcmLoop fuel l r acc s).2 + degSum l + degSum r = s + degSum (lcmLoop fuel l r [] 0).1
  | fuel, [], r, acc, s, _, _ => by
    simp [lcmLoop, degSum_nil]
  | 0, a :: l, [], acc, s, _, _ => by
    simp [lcmLoop, degSum_nil]
  | _ + 1, a :: l, [], acc, s, _, _ => by
    simp [lcmLoop, degSum_nil]
  | 0, a :: l, b :: r, acc, s, hf, _ => by simp at hf
  | fuel + 1, a :: l, b :: r, acc, s, hf, hs => by
    simp only [List.length_cons] at hf
    rw [degSum_cons, degSum_cons] at hs
    rw [lcmLoop_cons_cons]
    simp only [lcmLoop]
    split_ifs with h1 h2
    · have ih := lcmLoop_snd fuel l r (acc ++ [(a.1, max a.2 b.2)]) (s - min a.2 b.2)
        (by omega) (by omega)
      rw [degSum_cons, degSum_cons, degSum_cons]
      show _ = s + (max a.2 b.2 + _)
      omega
    · have ih := lcmLoop_snd fuel (a :: l) r (acc ++ [b]) s (by simp; omega)
        (by rw [degSum_cons]; omega)
      rw [degSum_cons] at ih
      rw [degSum_cons, degSum_cons, degSum_cons]
      omega
    · have ih := lcmLoop_snd fuel l (b :: r) (acc ++ [a]) s (by simp; omega)
        (by rw [degSum_cons]; omega)
      rw [degSum_cons] at ih
      rw [degSum_cons, degSum_cons, degSum_cons]
      omega

theorem lcm_some_some (a b : Monomial) :
    Monomial.lcm (some a) (some b) =
      some ⟨(lcmLoop (a.mExponents.length + b.mExponents.length) a.mExponents b.mExponents []
          (a.mTotalDegree + b.mTotalDegree)).1,
        (lcmLoop (a.mExponents.length + b.mExponents.length) a.mExponents b.mExponents []
          (a.mTotalDegree + b.mTotalDegree)).2⟩ :=
  rfl

/-- The least common multiple of two consistent monomials is a consistent
monomial that gives every variable the maximum of its two exponents. -/
theorem lcm_spec {a b : Monomial} (ha : a.Consistent) (hb : b.Consistent) :
    ∃ r, Monomial.lcm (some a) (some b) = some r ∧ r.Consistent ∧
      (∀ v, expOf r.mExponents v = max (expOf a.mExponents v) (expOf b.mExponents v)) ∧
      r.mTotalDegree + degSum (Monomial.gcd (some a) (some b)).exps =
        a.mTotalDegree + b.mTotalDegree := by
  obtain ⟨hE, _, hS, hP⟩ := lcmLoop_spec _ _ _ (Nat.le_refl _) ha.sorted hb.sorted
  have hD := lcmLoop_snd _ a.mExponents b.mExponents [] (a.mTotalDegree + b.mTotalDegree)
    (Nat.le_refl _) (by rw [ha.tdeg_eq, hb.tdeg_eq])
  have hF := lcmLoop_fst (a.mExponents.length + b.mExponents.length) a.mExponents b.mExponents []
    (a.mTotalDegree + b.mTotalDegree)
  rw [List.nil_append] at hF
  obtain ⟨gE, gS, -, -, -⟩ := gcd_spec ha hb
  have hsum : degSum (Monomial.gcd (some a) (some b)).exps +
      degSum (lcmLoop (a.mExponents.length + b.mExponents.length)
        a.mExponents b.mExponents [] 0).1 = degSum a.mExponents + degSum b.mExponents := by
    have key : ∀ (g m : List (Nat × Nat)), Sorted g → Sorted m →
        (∀ v, expOf g v = min (expOf a.mExponents v) (expOf b.mExponents v)) →
        (∀ v, expOf m v = max (expOf a.mExponents v) (expOf b.mExponents v)) →
        degSum g + degSum m = degSum a.mExponents + degSum b.mExponents := by
      intro g m hg hm hgE hmE
      have hU : ∀ k : List (Nat × Nat), ∀ v ∈ vars k, k = g ∨ k = m ∨ k = a.mExponents ∨
          k = b.mExponents →
          v ∈ (vars g ++ vars m ++ vars a.mExponents ++ vars b.mExponents).toFinset := by
        intro k v hv hk
        rw [List.mem_toFinset]
        rcases hk with rfl | rfl | rfl | rfl <;> simp [hv]
      rw [degSum_eq_sum hg _ (fun v hv => hU g v hv (Or.inl rfl)),
        degSum_eq_sum hm _ (fun v hv => hU m v hv (Or.inr (Or.inl rfl))),
        degSum_eq_sum ha.sorted _ (fun v hv => hU _ v hv (Or.inr (Or.inr (Or.inl rfl)))),
        degSum_eq_sum hb.sorted _ (fun v hv => hU _ v hv (Or.inr (Or.inr (Or.inr rfl)))),
        ← Finset.sum_add_distrib, ← Finset.sum_add_distrib]
      refine Finset.sum_congr rfl (fun v _ => ?_)
      rw [hgE v, hmE v]
      omega
    exact key _ _ gS hS gE hE
  refine ⟨_, lcm_some_some a b, ?_, ?_, ?_⟩
  · refine consistent_mk (by rw [hF]; exact hS) (by rw [hF]; exact hP ha.pos hb.pos) ?_ ?_
    · rw [hF]
      rw [ha.tdeg_eq, hb.tdeg_eq] at hD ⊢
      omega
    · rw [hF]
      intro hnil
      have h0 := hE
      rw [hnil] at h0
      refine ha.ne_nil (eq_nil_of_expOf_eq_zero ha.pos (fun v => ?_))
      have := h0 v
      rw [expOf_nil] at this
      omega
  · intro v
    show expOf (lcmLoop _ _ _ _ _).1 v = _
    rw [hF]; exact hE v
  · show (lcmLoop _ _ _ _ _).2 + _ = _
    rw [ha.tdeg_eq, hb.tdeg_eq] at hD ⊢
    omega

/-! ## The product overloads -/

/-- On consistent monomials the degree of gcd(a, b) * lcm(a, b) is the degree of
a * b. -/
theorem gcd_mul_lcm_tdeg {a b : Monomial} (ha : a.Consistent) (hb : b.Consistent) :
    (mul (Monomial.gcd (some a) (some b)) (Monomial.lcm (some a) (some b))).tdeg =
      (mul (some a) (some b)).tdeg := by
  obtain ⟨r, hr, -, -, hD⟩ := lcm_spec ha hb
  obtain ⟨-, -, -, gD, -⟩ := gcd_spec ha hb
  rw [hr, mul_some_some]
  rw [← gD] at hD
  cases hg : Monomial.gcd (some a) (some b) with
  | none =>
    rw [hg] at hD
    show r.mTotalDegree = a.mTotalDegree + b.mTotalDegree
    simpa [Monomial.Arg.tdeg] using hD
  | some g =>
    rw [hg] at hD
    rw [mul_some_some]
    show g.mTotalDegree + r.mTotalDegree = a.mTotalDegree + b.mTotalDegree
    have : r.mTotalDegree + g.mTotalDegree = a.mTotalDegree + b.mTotalDegree := hD
    omega

/-! ## The consistency check -/

theorem powLoop_eq (k : Nat) : ∀ (l acc : List (Nat × Nat)) (s : Nat),
    powLoop k l acc s = (acc ++ l.map (fun p => (p.1, p.2 * k)), s + degSum l * k)
  | [], acc, s => by simp [powLoop, degSum_nil]
  | p :: l, acc, s => by
    rw [powLoop, powLoop_eq k l, degSum_cons]
    simp only [List.map_cons, List.append_assoc, List.singleton_append, Prod.mk.injEq, true_and]
    rw [Nat.add_mul, Nat.add_assoc]

theorem pow_eq (m : Monomial) {k : Nat} (hk : k ≠ 0) :
    m.pow k = some ⟨m.mExponents.map (fun p => (p.1, p.2 * k)), degSum m.mExponents * k⟩ := by
  unfold Monomial.pow
  rw [if_neg hk, powLoop_eq]
  simp [createMonomial, MonomialPool.create]

theorem expOf_map_mul (k : Nat) : ∀ (l : List (Nat × Nat)) (v : Nat),
    expOf (l.map (fun p => (p.1, p.2 * k))) v = expOf l v * k
  | [], v => by simp [expOf_nil]
  | p :: l, v => by
    rw [List.map_cons, expOf_cons, expOf_cons, expOf_map_mul k l v]
    split_ifs <;> rfl

theorem sorted_map_snd (f : Nat → Nat) {l : List (Nat × Nat)} (h : Sorted l) :
    Sorted (l.map (fun p => (p.1, f p.2))) := by
  unfold Sorted at h ⊢
  rw [List.pairwise_map]
  exact h

theorem vars_map_snd (f : Nat → Nat) (l : List (Nat × Nat)) :
    vars (l.map (fun p => (p.1, f p.2))) = vars l := by
  simp [vars, Function.comp_def]

theorem degSum_map_mul (k : Nat) : ∀ l : List (Nat × Nat),
    degSum (l.map (fun p => (p.1, p.2 * k))) = degSum l * k
  | [] => by simp [degSum_nil]
  | p :: l => by
    rw [List.map_cons, degSum_cons, degSum_cons, degSum_map_mul k l, Nat.add_mul]

/-- The power of a consistent monomial with a positive exponent is consistent. -/
theorem pow_consistent {m : Monomial} (hm : m.Consistent) {k : Nat} (hk : 1 ≤ k) :
    Monomial.Consistent ⟨m.mExponents.map (fun p => (p.1, p.2 * k)), degSum m.mExponents * k⟩ := by
  refine consistent_mk (sorted_map_snd (fun e => e * k) hm.sorted) ?_ (degSum_map_mul k _).symm ?_
  · intro q hq
    obtain ⟨p, hp, rfl⟩ := List.mem_map.1 hq
    have := hm.pos p hp
    show 1 ≤ p.2 * k
    exact Nat.mul_pos (by omega) (by omega)
  · intro h
    exact hm.ne_nil (List.map_eq_nil_iff.1 h)

theorem sqrtLoop_some : ∀ (l acc : List (Nat × Nat)), (∀ p ∈ l, p.2 % 2 = 0) →
    sqrtLoop l acc = some (acc ++ l.map (fun p => (p.1, p.2 / 2)))
  | [], acc, _ => by simp [sqrtLoop]
  | p :: l, acc, h => by
    have hp : ¬ p.2 % 2 = 1 := by have := h p (List.mem_cons_self _ _); omega
    rw [sqrtLoop, if_neg hp, sqrtLoop_some l _ (fun q hq => h q (List.mem_cons_of_mem _ hq))]
    simp

theorem sqrtLoop_none : ∀ (l acc : List (Nat × Nat)), (∃ p ∈ l, p.2 % 2 = 1) →
    sqrtLoop l acc = none
  | [], acc, h => by simp at h
  | p :: l, acc, h => by
    rw [sqrtLoop]
    split_ifs with hp
    · rfl
    · refine sqrtLoop_none l _ ?_
      obtain ⟨q, hq, hodd⟩ := h
      rcases List.mem_cons.1 hq with rfl | hq
      · exact absurd hodd hp
      · exact ⟨q, hq, hodd⟩

theorem degSum_map_half : ∀ l : List (Nat × Nat), (∀ p ∈ l, p.2 % 2 = 0) →
    degSum (l.map (fun p => (p.1, p.2 / 2))) * 2 = degSum l
  | [], _ => by simp [degSum_nil]
  | p :: l, h => by
    have hp := h p (List.mem_cons_self _ _)
    have ih := degSum_map_half l (fun q hq => h q (List.mem_cons_of_mem _ hq))
    rw [List.map_cons, degSum_cons, degSum_cons]
    show (p.2 / 2 + _) * 2 = _
    omega

theorem map_double_half : ∀ l : List (Nat × Nat), (∀ p ∈ l, p.2 % 2 = 0) →
    (l.map (fun p => (p.1, p.2 / 2))).map (fun p => (p.1, p.2 * 2)) = l
  | [], _ => rfl
  | p :: l, h => by
    have hp := h p (List.mem_cons_self _ _)
    rw [List.map_cons, List.map_cons,
      map_double_half l (fun q hq => h q (List.mem_cons_of_mem _ hq))]
    congr 1
    exact Prod.ext rfl (by show p.2 / 2 * 2 = p.2; omega)

/-- The square root of a monomial whose cached total degree is the sum of its
exponents, when every exponent is even. -/
theorem sqrt_of_even {m : Monomial} (ht : m.mTotalDegree = degSum m.mExponents)
    (h : ∀ p ∈ m.mExponents, p.2 % 2 = 0) :
    m.sqrt = some ⟨m.mExponents.map (fun p => (p.1, p.2 / 2)), m.mTotalDegree / 2⟩ := by
  have hd := degSum_map_half m.mExponents h
  have heven : ¬ m.mTotalDegree % 2 = 1 := by omega
  unfold Monomial.sqrt
  rw [if_neg heven, sqrtLoop_some _ _ h]
  simp [createMonomial, MonomialPool.create]

theorem sqrt_of_odd (m : Monomial) (h : ∃ p ∈ m.mExponents, p.2 % 2 = 1) : m.sqrt = none := by
  unfold Monomial.sqrt
  split_ifs
  · rfl
  · rw [sqrtLoop_none _ _ h]

/-! ## The quotient of the least common multiple -/

theorem separablePartLoop_eq : ∀ (l acc : List (Nat × Nat)),
    separablePartLoop l acc = acc ++ l.map (fun p => (p.1, 1))
  | [], acc => by simp [separablePartLoop]
  | p :: l, acc => by
    rw [separablePartLoop, separablePartLoop_eq l]
    simp

theorem separablePart_eq (m : Monomial) :
    m.separablePart = some ⟨m.mExponents.map (fun p => (p.1, 1)), m.mExponents.length⟩ := by
  unfold Monomial.separablePart
  rw [separablePartLoop_eq]
  simp [MonomialPool.create]

theorem degSum_map_one : ∀ l : List (Nat × Nat),
    degSum (l.map (fun p => (p.1, 1))) = l.length
  | [] => rfl
  | p :: l => by
    rw [List.map_cons, degSum_cons, degSum_map_one l, List.length_cons]
    show 1 + l.length = l.length + 1
    omega

theorem filter_ne_of_forall_ne {l : List (Nat × Nat)} {v : Nat} (h : ∀ p ∈ l, p.1 ≠ v) :
    l.filter (fun p => decide (p.1 ≠ v)) = l := by
  rw [List.filter_eq_self]
  intro p hp
  simpa using h p hp

/-- On a sorted vector that holds the variable v at the pair it, between the
parts before and after, removing the pairs of v leaves before ++ after, and the
exponent of v is the exponent of it. -/
theorem filter_of_split {before after : List (Nat × Nat)} {it : Nat × Nat}
    (hs : Sorted (before ++ it :: after)) :
    (before ++ it :: after).filter (fun p => decide (p.1 ≠ it.1)) = before ++ after ∧
      expOf (before ++ it :: after) it.1 = it.2 := by
  obtain ⟨hb, ha, -, -, -⟩ := sorted_append_cons hs
  refine ⟨?_, expOf_of_mem hs (by simp)⟩
  rw [List.filter_append, List.filter_cons]
  simp only [ne_eq, not_true_eq_false, decide_False, Bool.false_eq_true, if_false]
  have h1 := filter_ne_of_forall_ne (l := before) (v := it.1)
    (fun p hp => by have := hb p hp; omega)
  have h2 := filter_ne_of_forall_ne (l := after) (v := it.1)
    (fun p hp => by have := ha p hp; omega)
  simp only [ne_eq] at h1 h2
  rw [h1, h2]

/-! ## The lexical comparison -/

theorem lexicalCompareLoop_cons_cons (x y : Nat × Nat) (l r : List (Nat × Nat)) :
    lexicalCompareLoop (x :: l) (y :: r) =
      if x.1 = y.1 then
        if x.2 < y.2 then some CompareResult.LESS
        else if x.2 > y.2 then some CompareResult.GREATER
        else lexicalCompareLoop l r
      else some (if x.1 < y.1 then CompareResult.LESS else CompareResult.GREATER) := rfl

theorem lexicalCompareLoop_append : ∀ (pre l r : List (Nat × Nat)),
    lexicalCompareLoop (pre ++ l) (pre ++ r) = lexicalCompareLoop l r
  | [], l, r => rfl
  | x :: pre, l, r => by
    rw [List.cons_append, List.cons_append, lexicalCompareLoop_cons_cons, if_pos rfl,
      if_neg (Nat.lt_irrefl _), if_neg (Nat.lt_irrefl _), lexicalCompareLoop_append pre l r]

/-- The loop of the comparison never returns EQUAL, and it violates its final
assertion only on two equal vectors. -/
theorem lexicalCompareLoop_ne : ∀ (l r : List (Nat × Nat)), l ≠ r →
    lexicalCompareLoop l r = some CompareResult.LESS ∨
      lexicalCompareLoop l r = some CompareResult.GREATER
  | [], [], h => absurd rfl h
  | [], _ :: _, _ => Or.inl rfl
  | _ :: _, [], _ => Or.inr rfl
  | x :: l, y :: r, h => by
    rw [lexicalCompareLoop_cons_cons]
    split_ifs with h1 h2 h3 h4
    · exact Or.inl rfl
    · exact Or.inr rfl
    · refine lexicalCompareLoop_ne l r (fun hlr => h ?_)
      rw [hlr, Prod.ext h1 (by omega : x.2 = y.2)]
    · exact Or.inl rfl
    · exact Or.inr rfl

/-! ## The shape of the subresultant chain -/

theorem subresultantsPart2_chain {P C : Type} (ops : PolyOps P C)
    (strategy : SubresultantStrategy) (q : P) (subresLcoeff : C) (delta qDeg : Nat)
    (chain : List P) (c : P) (qDeg2 : Nat) (chain2 : List P)
    (h : subresultantsPart2 ops strategy q subresLcoeff delta qDeg chain =
      Except.ok (c, qDeg2, chain2)) :
    chain2 = chain ∨ chain2 = c :: chain := by
  unfold subresultantsPart2 at h
  split_ifs at h with h1
  · cases strategy <;> simp only at h
    all_goals
      first
      | (split at h
         · split_ifs at h
           simp only [Except.ok.injEq, Prod.mk.injEq] at h
           obtain ⟨rfl, -, rfl⟩ := h
           exact Or.inr rfl
         · simp only [Except.ok.injEq, Prod.mk.injEq] at h
           exact Or.inl h.2.2.symm)
      | (split_ifs at h
         split at h
         · cases h
         · split at h
           · split_ifs at h
             simp only [Except.ok.injEq, Prod.mk.injEq] at h
             obtain ⟨rfl, -, rfl⟩ := h
             exact Or.inr rfl
           · simp only [Except.ok.injEq, Prod.mk.injEq] at h
             exact Or.inl h.2.2.symm)
  · simp only [Except.ok.injEq, Prod.mk.injEq] at h
    exact Or.inl h.2.2.symm

theorem subresultantsLoop_suffix {P C : Type} (ops : PolyOps P C)
    (part3Ducos : P → P → P → Nat → Nat → Nat → Except SubresError P)
    (strategy : SubresultantStrategy) (fuel : Nat) :
    ∀ (p q : P) (s : C) (chain result : List P),
      subresultantsLoop ops part3Ducos strategy fuel p q s chain = Except.ok result →
      ∃ pre, result = pre ++ chain := by
  induction fuel with
  | zero => intro p q s chain result h; simp [subresultantsLoop] at h
  | succ n ih =>
    intro p q s chain result h
    unfold subresultantsLoop at h
    by_cases h1 : ops.isZero q = true
    · rw [if_pos h1] at h
      simp only [Except.ok.injEq] at h
      exact ⟨[], by simp [h]⟩
    · rw [if_neg h1] at h
      simp only at h
      by_cases h2 : ¬ ops.degree p ≥ ops.degree q
      · rw [if_pos h2] at h
        cases h
      · rw [if_neg h2] at h
        cases hp2 : subresultantsPart2 ops strategy q s (ops.degree p - ops.degree q)
            (ops.degree q) (q :: chain) with
        | error e => rw [hp2] at h; cases h
        | ok r =>
          obtain ⟨c, qDeg2, chain2⟩ := r
          rw [hp2] at h
          simp only at h
          have hc := subresultantsPart2_chain ops strategy q s _ _ _ c qDeg2 chain2 hp2
          have hsuf : ∃ pre, chain2 = pre ++ chain := by
            rcases hc with hc | hc
            · exact ⟨[q], by simp [hc]⟩
            · exact ⟨[c, q], by simp [hc]⟩
          obtain ⟨pre2, hpre2⟩ := hsuf
          by_cases h3 : qDeg2 = 0
          · rw [if_pos h3] at h
            simp only [Except.ok.injEq] at h
            exact ⟨pre2, by rw [← h, hpre2]⟩
          · rw [if_neg h3] at h
            have key : ∀ q2, subresultantsLoop ops part3Ducos strategy n c q2 (ops.lcoeff c)
                chain2 = Except.ok result → ∃ pre, result = pre ++ chain := by
              intro q2 hq2
              obtain ⟨pre, hpre⟩ := ih _ _ _ _ _ hq2
              exact ⟨pre ++ pre2, by rw [hpre, hpre2, List.append_assoc]⟩
            cases strategy
            · simp only at h
              by_cases h4 : ops.isZero p = true
              · rw [if_pos h4] at h
                simp only [Except.ok.injEq] at h
                exact ⟨pre2, by rw [← h, hpre2]⟩
              · rw [if_neg h4] at h
                split at h
                · cases h
                · exact key _ h
            · simp only at h
              by_cases h4 : ops.isZero p = true
              · rw [if_pos h4] at h
                simp only [Except.ok.injEq] at h
                exact ⟨pre2, by rw [← h, hpre2]⟩
              · rw [if_neg h4] at h
                split at h
                · cases h
                · exact key _ h
            · simp only at h
              split at h
              · cases h
              · exact key _ h

theorem subresultants_suffix {P C : Type} (ops : PolyOps P C)
    (part3Ducos : P → P → P → Nat → Nat → Nat → Except SubresError P)
    (strategy : SubresultantStrategy) (fuel : Nat) (pol1 pol2 : P) (chain : List P)
    (h : subresultants ops part3Ducos strategy fuel pol1 pol2 = Except.ok chain) :
    ops.isZero pol1 = false ∧ ops.isZero pol2 = false ∧
    ((ops.isZero (if ops.degree pol1 < ops.degree pol2 then pol1 else pol2) = true ∧
        chain = [if ops.degree pol1 < ops.degree pol2 then pol2 else pol1]) ∨
      ∃ pre, chain = pre ++ [if ops.degree pol1 < ops.degree pol2 then pol1 else pol2,
        if ops.degree pol1 < ops.degree pol2 then pol2 else pol1]) := by
  unfold subresultants at h
  by_cases h1 : ops.isZero pol1 = true
  · rw [if_pos h1] at h; cases h
  rw [if_neg h1] at h
  by_cases h2 : ops.isZero pol2 = true
  · rw [if_pos h2] at h; cases h
  rw [if_neg h2] at h
  simp only at h
  refine ⟨by simpa using h1, by simpa using h2, ?_⟩
  generalize (if ops.degree pol1 < ops.degree pol2 then pol1 else pol2) = q at h ⊢
  generalize (if ops.degree pol1 < ops.degree pol2 then pol2 else pol1) = p at h ⊢
  by_cases h3 : ops.isZero q = true
  · rw [if_pos h3] at h
    simp only [Except.ok.injEq] at h
    exact Or.inl ⟨h3, h.symm⟩
  rw [if_neg h3] at h
  right
  by_cases h4 : ops.is_constant q = true
  · rw [if_pos h4] at h
    simp only [Except.ok.injEq] at h
    exact ⟨[], by simp [h]⟩
  rw [if_neg h4] at h
  split_ifs at h
  exact subresultantsLoop_suffix ops part3Ducos strategy fuel _ _ _ _ _ h

theorem principalSubresultantsCoefficientsLoop_eq {P C : Type} (ops : PolyOps P C) :
    ∀ (subres acc : List P), (∀ s ∈ subres, ops.isZero s = false) →
      principalSubresultantsCoefficientsLoop ops subres acc =
        Except.ok (acc ++ subres.map (fun s => ops.constant (ops.lcoeff s))) := by
  intro subres
  induction subres with
  | nil => intro acc _; simp [principalSubresultantsCoefficientsLoop]
  | cons s subres ih =>
    intro acc h
    have hs : ops.isZero s = false := h s (List.mem_cons_self _ _)
    unfold principalSubresultantsCoefficientsLoop
    rw [if_neg (by simp [hs]), ih _ (fun t ht => h t (List.mem_cons_of_mem _ ht))]
    simp

/-! ## Polynomials over the integers: evaluation with a parameter -/

theorem strip_append_ne (l : List Int) (c : Int) (hc : c ≠ 0) :
    IntPoly.strip (l ++ [c]) = l ++ [c] := by
  simp [IntPoly.strip, List.dropWhile, hc]

theorem strip_append_zero (l : List Int) :
    IntPoly.strip (l ++ [0]) = IntPoly.strip l := by
  simp [IntPoly.strip, List.dropWhile]

theorem strip_three (x y z : Int) (hz : z ≠ 0) : IntPoly.strip [x, y, z] = [x, y, z] :=
  strip_append_ne [x, y] z hz

theorem strip_two (x y : Int) (hy : y ≠ 0) : IntPoly.strip [x, y] = [x, y] :=
  strip_append_ne [x] y hy

theorem strip_zero_zero : IntPoly.strip [0, 0] = [] := by decide

theorem remLoop_succ (b : List Int) (n : Nat) (r : List Int) :
    IntPoly.remLoop b (n + 1) r =
      if IntPoly.isZero r ∨ IntPoly.degree r < IntPoly.degree b then IntPoly.strip r
      else IntPoly.remLoop b n
        (IntPoly.strip (IntPoly.add r
          (IntPoly.neg (List.replicate (IntPoly.degree r - IntPoly.degree b) 0 ++
            (IntPoly.strip b).map (fun c => IntPoly.lcoeff r / IntPoly.lcoeff b * c))))) := rfl

theorem pseudo_remainder_square (a : Int) :
    IntPoly.pseudo_remainder [a ^ 2, -2 * a, 1] (IntPoly.neg [-2 * a, 2]) = [] := by
  rcases eq_or_ne a 0 with rfl | ha
  · decide
  have hb : IntPoly.neg [-2 * a, 2] = [2 * a, -2] := by simp [IntPoly.neg]
  have sb : IntPoly.strip [2 * a, -2] = [2 * a, -2] := strip_two _ _ (by norm_num)
  have sp : IntPoly.strip [a ^ 2, -2 * a, 1] = [a ^ 2, -2 * a, 1] := strip_three _ _ _ (by norm_num)
  have zb : IntPoly.isZero [2 * a, -2] = false := by rw [IntPoly.isZero, sb]; rfl
  have db : IntPoly.degree [2 * a, -2] = 1 := by rw [IntPoly.degree, sb]; rfl
  have lb : IntPoly.lcoeff [2 * a, -2] = -2 := by rw [IntPoly.lcoeff, sb]; rfl
  have dp : IntPoly.degree [a ^ 2, -2 * a, 1] = 2 := by rw [IntPoly.degree, sp]; rfl
  have s0 : IntPoly.strip [4 * a ^ 2, -(8 * a), 4] = [4 * a ^ 2, -(8 * a), 4] :=
    strip_three _ _ _ (by norm_num)
  have r0 : IntPoly.smul ((-2 : Int) ^ (2 - 1 + 1)) [a ^ 2, -2 * a, 1] =
      [4 * a ^ 2, -(8 * a), 4] := by
    rw [← s0]
    simp only [IntPoly.smul, List.map]
    congr 1
    norm_num
    ring
  have z0 : IntPoly.isZero [4 * a ^ 2, -(8 * a), 4] = false := by rw [IntPoly.isZero, s0]; rfl
  have d0 : IntPoly.degree [4 * a ^ 2, -(8 * a), 4] = 2 := by rw [IntPoly.degree, s0]; rfl
  have l0 : IntPoly.lcoeff [4 * a ^ 2, -(8 * a), 4] = 4 := by rw [IntPoly.lcoeff, s0]; rfl
  have s1 : IntPoly.strip [4 * a ^ 2, -(4 * a)] = [4 * a ^ 2, -(4 * a)] :=
    strip_two _ _ (by simpa using ha)
  have r1 : IntPoly.strip (IntPoly.add [4 * a ^ 2, -(8 * a), 4]
      (IntPoly.neg (List.replicate (2 - 1) 0 ++ [2 * a, -2].map (fun c => 4 / -2 * c)))) =
      [4 * a ^ 2, -(4 * a)] := by
    have e : IntPoly.add [4 * a ^ 2, -(8 * a), 4]
        (IntPoly.neg (List.replicate (2 - 1) 0 ++ [2 * a, -2].map (fun c => 4 / -2 * c))) =
        [4 * a ^ 2, -(4 * a)] ++ [0] := by
      simp only [IntPoly.neg, IntPoly.add, List.map, List.replicate, List.cons_append,
        List.nil_append, List.singleton_append]
      have h42 : (4 : Int) / -2 = -2 := by decide
      rw [h42]
      congr 1
      · ring
      congr 1
      · ring
    rw [e, strip_append_zero, s1]
  have z1 : IntPoly.isZero [4 * a ^ 2, -(4 * a)] = false := by rw [IntPoly.isZero, s1]; rfl
  have d1 : IntPoly.degree [4 * a ^ 2, -(4 * a)] = 1 := by rw [IntPoly.degree, s1]; rfl
  have l1 : IntPoly.lcoeff [4 * a ^ 2, -(4 * a)] = -(4 * a) := by rw [IntPoly.lcoeff, s1]; rfl
  have r2 : IntPoly.strip (IntPoly.add [4 * a ^ 2, -(4 * a)]
      (IntPoly.neg (List.replicate (1 - 1) 0 ++ [2 * a, -2].map (fun c => -(4 * a) / -2 * c)))) =
      [] := by
    have e : IntPoly.add [4 * a ^ 2, -(4 * a)]
        (IntPoly.neg (List.replicate (1 - 1) 0 ++ [2 * a, -2].map (fun c => -(4 * a) / -2 * c))) =
        [0, 0] := by
      simp only [IntPoly.neg, IntPoly.add, List.map, List.replicate, List.cons_append,
        List.nil_append, List.singleton_append]
      have h42 : -(4 * a) / (-2 : Int) = 2 * a := by omega
      rw [h42]
      congr 1
      · ring
      congr 1
      · ring
    rw [e, strip_zero_zero]
  rw [hb, IntPoly.pseudo_remainder, zb, dp, db, lb]
  rw [if_neg (by decide)]
  rw [r0]
  show IntPoly.remLoop [2 * a, -2] (2 + 1) [4 * a ^ 2, -(8 * a), 4] = []
  rw [remLoop_succ, z0, d0, db, l0, lb, sb, if_neg (by decide), r1]
  rw [remLoop_succ, z1, d1, db, l1, lb, sb, if_neg (by decide), r2]
  rfl

theorem derivative_square (a : Int) : IntPoly.derivative [a ^ 2, -2 * a, 1] = [-2 * a, 2] := by
  have h := strip_two (1 * (-2 * a)) ((1 + 1 : Nat) * 1) (by norm_num)
  rw [IntPoly.derivative]
  simp only [List.tail, IntPoly.derivativeLoop]
  rw [show ((1 : Nat) : Int) * (-2 * a) = 1 * (-2 * a) by norm_num, h]
  norm_num

/-! ## The lexical comparison as an order -/

theorem lexicalCompareLoop_swap : ∀ (l r : List (Nat × Nat)),
    (lexicalCompareLoop l r = some CompareResult.LESS ↔
      lexicalCompareLoop r l = some CompareResult.GREATER) ∧
    (lexicalCompareLoop l r = some CompareResult.GREATER ↔
      lexicalCompareLoop r l = some CompareResult.LESS)
  | [], [] => by simp [lexicalCompareLoop]
  | [], _ :: _ => by simp [lexicalCompareLoop]
  | _ :: _, [] => by simp [lexicalCompareLoop]
  | x :: l, y :: r => by
    have ih := lexicalCompareLoop_swap l r
    rw [lexicalCompareLoop_cons_cons, lexicalCompareLoop_cons_cons]
    by_cases h1 : x.1 = y.1
    · rw [if_pos h1, if_pos h1.symm]
      by_cases h2 : x.2 < y.2
      · rw [if_pos h2, if_neg (by omega), if_pos (by omega)]
        simp
      · rw [if_neg h2]
        by_cases h3 : x.2 > y.2
        · rw [if_pos h3, if_pos (by omega)]
          simp
        · rw [if_neg h3, if_neg (by omega), if_neg (by omega)]
          exact ih
    · have h1r : ¬ y.1 = x.1 := fun h => h1 h.symm
      rw [if_neg h1, if_neg h1r]
      by_cases h2 : x.1 < y.1
      · have h2r : ¬ y.1 < x.1 := by omega
        rw [if_pos h2, if_neg h2r]
        simp
      · have h2r : y.1 < x.1 := by omega
        rw [if_neg h2, if_pos h2r]
        simp

theorem lexicalCompareLoop_trans : ∀ (a b c : List (Nat × Nat)),
    lexicalCompareLoop a b = some CompareResult.LESS →
    lexicalCompareLoop b c = some CompareResult.LESS →
    lexicalCompareLoop a c = some CompareResult.LESS
  | [], [], _, h, _ => by simp [lexicalCompareLoop] at h
  | _ :: _, [], _, h, _ => by simp [lexicalCompareLoop] at h
  | _, _ :: _, [], _, h => by simp [lexicalCompareLoop] at h
  | [], _ :: _, _ :: _, _, _ => rfl
  | x :: a, y :: b, z :: c, h1, h2 => by
    have ih := lexicalCompareLoop_trans a b c
    rw [lexicalCompareLoop_cons_cons] at h1 h2 ⊢
    by_cases e1 : x.1 = y.1
    · rw [if_pos e1] at h1
      by_cases e2 : y.1 = z.1
      · rw [if_pos e2] at h2
        rw [if_pos (e1.trans e2)]
        by_cases l1 : x.2 < y.2
        · by_cases l2 : y.2 < z.2
          · rw [if_pos (by omega)]
          · rw [if_neg l2] at h2
            by_cases g2 : y.2 > z.2
            · rw [if_pos g2] at h2; simp at h2
            · rw [if_pos (by omega)]
        · rw [if_neg l1] at h1
          by_cases g1 : x.2 > y.2
          · rw [if_pos g1] at h1; simp at h1
          · rw [if_neg g1] at h1
            by_cases l2 : y.2 < z.2
            · rw [if_pos (by omega)]
            · rw [if_neg l2] at h2
              by_cases g2 : y.2 > z.2
              · rw [if_pos g2] at h2; simp at h2
              · rw [if_neg g2] at h2
                rw [if_neg (by omega), if_neg (by omega)]
                exact ih h1 h2
      · rw [if_neg e2] at h2
        by_cases l2 : y.1 < z.1
        · rw [if_neg (by omega), if_pos (by omega)]
        · rw [if_neg l2] at h2; simp at h2
    · rw [if_neg e1] at h1
      by_cases l1 : x.1 < y.1
      · by_cases e2 : y.1 = z.1
        · rw [if_neg (by omega), if_pos (by omega)]
        · rw [if_neg e2] at h2
          by_cases l2 : y.1 < z.1
          · rw [if_neg (by omega), if_pos (by omega)]
          · rw [if_neg l2] at h2; simp at h2
      · rw [if_neg l1] at h1; simp at h1

theorem exps_ne_of_consistent_ne {a b : Monomial} (ha : a.Consistent) (hb : b.Consistent)
    (h : a ≠ b) : a.mExponents ≠ b.mExponents := by
  intro he
  apply h
  have h1 := ha.tdeg_eq
  have h2 := hb.tdeg_eq
  cases a
  cases b
  simp only [Monomial.mk.injEq] at he h1 h2 ⊢
  exact ⟨he, by rw [h1, h2, he]⟩

theorem lexicalCompare_of_ne {a b : Monomial} (h : a ≠ b) :
    a.lexicalCompare b = lexicalCompareLoop a.mExponents b.mExponents := by
  unfold Monomial.lexicalCompare
  rw [if_neg h]

/-! ## The dichotomous computation of part 2 -/

theorem eval_nil (x : Int) : IntPoly.eval x [] = 0 := rfl

theorem eval_cons (x a : Int) (p : List Int) :
    IntPoly.eval x (a :: p) = a + x * IntPoly.eval x p := rfl

theorem eval_append (x : Int) (p q : List Int) :
    IntPoly.eval x (p ++ q) = IntPoly.eval x p + x ^ p.length * IntPoly.eval x q := by
  induction p with
  | nil => simp [eval_nil]
  | cons a p ih =>
    rw [List.cons_append, eval_cons, eval_cons, ih, List.length_cons]
    ring

theorem eval_reverse_dropWhile (x : Int) (l : List Int) :
    IntPoly.eval x (l.dropWhile (fun c => c == 0)).reverse = IntPoly.eval x l.reverse := by
  induction l with
  | nil => rfl
  | cons a l ih =>
    by_cases ha : a = 0
    · subst ha
      rw [List.dropWhile_cons_of_pos (by simp), ih, List.reverse_cons, eval_append]
      simp [eval_cons, eval_nil]
    · rw [List.dropWhile_cons_of_neg (by simpa using ha)]

theorem eval_strip (x : Int) (p : List Int) :
    IntPoly.eval x (IntPoly.strip p) = IntPoly.eval x p := by
  rw [IntPoly.strip, eval_reverse_dropWhile, List.reverse_reverse]

theorem eval_map_mul (x c : Int) (p : List Int) :
    IntPoly.eval x (p.map (fun a => c * a)) = c * IntPoly.eval x p := by
  induction p with
  | nil => simp [eval_nil]
  | cons a p ih =>
    rw [List.map_cons, eval_cons, eval_cons, ih]
    ring

theorem eval_add (x : Int) : ∀ (p q : List Int),
    IntPoly.eval x (IntPoly.add p q) = IntPoly.eval x p + IntPoly.eval x q
  | [], q => by simp [IntPoly.add, eval_nil]
  | a :: p, [] => by simp [IntPoly.add, eval_nil]
  | a :: p, b :: q => by
    rw [IntPoly.add, eval_cons, eval_cons, eval_cons, eval_add x p q]
    ring

theorem eval_mul (x : Int) (q : List Int) : ∀ (p : List Int),
    IntPoly.eval x (IntPoly.mul p q) = IntPoly.eval x p * IntPoly.eval x q
  | [] => by simp [IntPoly.mul, eval_nil]
  | a :: p => by
    rw [IntPoly.mul, eval_strip, eval_add, eval_map_mul, eval_cons, eval_cons, eval_mul x q p]
    ring

theorem eval_smul (x c : Int) (p : List Int) :
    IntPoly.eval x (IntPoly.smul c p) = c * IntPoly.eval x p := by
  rw [IntPoly.smul, eval_strip, eval_map_mul]

theorem eval_map_div (x c : Int) (p : List Int)
    (h : ∀ a ∈ p, a % c = 0) :
    IntPoly.eval x (p.map (fun a => a / c)) * c = IntPoly.eval x p := by
  induction p with
  | nil => simp [eval_nil]
  | cons a p ih =>
    rw [List.map_cons, eval_cons, eval_cons, add_mul, mul_assoc,
      ih (fun b hb => h b (List.mem_cons_of_mem _ hb)),
      Int.ediv_mul_cancel (Int.dvd_of_emod_eq_zero (h a (List.mem_cons_self _ _)))]

theorem eval_try_divide (x c : Int) (p r : List Int) (h : IntPoly.try_divide p c = some r) :
    IntPoly.eval x r * c = IntPoly.eval x p := by
  unfold IntPoly.try_divide at h
  split_ifs at h with h1 h2
  simp only [Option.some.injEq] at h
  subst h
  exact eval_map_div x c p (fun a ha => by simpa using (List.all_eq_true.1 h2) a ha)

theorem lazardLoop_invariant {P C R : Type} [CommRing R] (ops : PolyOps P C)
    (sem : P → R) (semC : C → R) (s lc : C)
    (hmul : ∀ a b, sem (ops.mul a b) = sem a * sem b)
    (hmulPC : ∀ a c, sem (ops.mulPC a c) = sem a * semC c)
    (hdiv : ∀ a c r, ops.try_divide a c = some r → sem r * semC c = sem a) :
    ∀ (j fuel dR k : Nat) (r : P), j ≤ fuel → dR < 2 ^ j → 1 ≤ k →
      sem r * semC s ^ (k - 1) = semC lc ^ k →
      lazardLoopDivides ops s lc fuel (2 ^ j) dR r = true →
      ∃ r2, lazardLoop ops s lc fuel (2 ^ j) dR r = some r2 ∧
        sem r2 * semC s ^ (k * 2 ^ j + dR - 1) = semC lc ^ (k * 2 ^ j + dR) := by
  intro j
  induction j with
  | zero =>
    intro fuel dR k r _ hdR hk hinv _
    have h0 : dR = 0 := by simpa using hdR
    subst h0
    refine ⟨r, ?_, by simpa using hinv⟩
    cases fuel with
    | zero => simp [lazardLoop]
    | succ f => simp [lazardLoop]
  | succ j ih =>
    intro fuel dR k r hfuel hdR hk hinv hall
    obtain ⟨f, rfl⟩ : ∃ f, fuel = f + 1 := ⟨fuel - 1, by omega⟩
    have hne : (2 : Nat) ^ (j + 1) ≠ 1 := by
      have : 0 < 2 ^ j := Nat.two_pow_pos j
      rw [pow_succ]; omega
    have hhalf : (2 : Nat) ^ (j + 1) / 2 = 2 ^ j := by
      rw [pow_succ]; omega
    rw [lazardLoopDivides, if_pos hne, hhalf] at hall
    rw [lazardLoop, if_pos hne]
    simp only [hhalf]
    cases h1 : ops.try_divide (ops.mul r r) s with
    | none => rw [h1] at hall; simp at hall
    | some r1 =>
      rw [h1] at hall
      simp only at hall
      have e1 : sem r1 * semC s = sem r * sem r := by rw [hdiv _ _ _ h1, hmul]
      have inv1 : sem r1 * semC s ^ (2 * k - 1) = semC lc ^ (2 * k) := by
        have hk2 : 2 * k - 1 = (k - 1) + (k - 1) + 1 := by omega
        rw [hk2, pow_succ, ← mul_assoc, mul_right_comm, e1, pow_add, two_mul, pow_add, ← hinv]
        ring
      by_cases h2 : dR ≥ 2 ^ j
      · rw [if_pos h2] at hall
        cases h3 : ops.try_divide (ops.mulPC r1 lc) s with
        | none => rw [h3] at hall; simp at hall
        | some r2 =>
          rw [h3] at hall
          simp only at hall
          have e2 : sem r2 * semC s = sem r1 * semC lc := by rw [hdiv _ _ _ h3, hmulPC]
          have inv2 : sem r2 * semC s ^ (2 * k + 1 - 1) = semC lc ^ (2 * k + 1) := by
            have hk2 : 2 * k + 1 - 1 = (2 * k - 1) + 1 := by omega
            rw [hk2, pow_succ, ← mul_assoc, mul_right_comm, e2, mul_right_comm, inv1, pow_succ]
          obtain ⟨r3, hr3, hinv3⟩ := ih f (dR - 2 ^ j) (2 * k + 1) r2 (by omega)
            (by rw [pow_succ] at hdR; omega) (by omega) inv2 hall
          refine ⟨r3, ?_, ?_⟩
          · simp only [Option.isSome_some, true_and, Option.getD_some, h2, if_true, h3]
            exact hr3
          · have hsum : k * 2 ^ (j + 1) + dR = (2 * k + 1) * 2 ^ j + (dR - 2 ^ j) := by
              rw [pow_succ]
              have : (2 * k + 1) * 2 ^ j = k * (2 ^ j * 2) + 2 ^ j := by ring
              omega
            rw [hsum]
            exact hinv3
      · rw [if_neg h2] at hall
        obtain ⟨r3, hr3, hinv3⟩ := ih f dR (2 * k) r1 (by omega) (by omega) (by omega) inv1 hall
        refine ⟨r3, ?_, ?_⟩
        · simp only [Option.isSome_some, true_and, Option.getD_some, h2, if_false]
          exact hr3
        · have hsum : k * 2 ^ (j + 1) + dR = (2 * k) * 2 ^ j + dR := by
            rw [pow_succ]; ring
          rw [hsum]
          exact hinv3

theorem subresultantsPart2_lazard_pushed {P C : Type} (ops : PolyOps P C)
    (strategy : SubresultantStrategy) (q : P) (s : C) (delta qDeg : Nat) (chain : List P)
    (hs : strategy ≠ SubresultantStrategy.Generic) (hd : delta > 1) (r c : P) (d : Nat)
    (hr : lazardLoop ops s (ops.lcoeff q) (ops.highestPower (delta - 1))
      (ops.highestPower (delta - 1)) (delta - 1 - ops.highestPower (delta - 1))
      (ops.constant (ops.lcoeff q)) = some r)
    (h : subresultantsPart2 ops strategy q s delta qDeg chain = Except.ok (c, d, c :: chain)) :
    ops.try_divide (ops.mul r q) s = some c := by
  have hpos : delta - 1 > 0 := by omega
  have hne : chain ≠ c :: chain := fun e => by
    have := congrArg List.length e
    simp at this
  unfold subresultantsPart2 at h
  rw [if_pos hd] at h
  have key : (match ops.try_divide (ops.mul r q) s with
      | some c => if ops.isZero c = true then Except.error (SubresError.assertion 195)
          else Except.ok (c, ops.degree c, c :: chain)
      | none => Except.ok (q, qDeg, chain)) = Except.ok (c, d, c :: chain) →
      ops.try_divide (ops.mul r q) s = some c := by
    intro h
    cases h2 : ops.try_divide (ops.mul r q) s with
    | none =>
      rw [h2] at h
      simp only [Except.ok.injEq, Prod.mk.injEq] at h
      exact absurd h.2.2 hne
    | some c2 =>
      rw [h2] at h
      simp only at h
      split_ifs at h
      simp only [Except.ok.injEq, Prod.mk.injEq] at h
      rw [h.1]
  cases strategy with
  | Generic => exact absurd rfl hs
  | Lazard =>
    simp only at h
    rw [if_neg (by simpa using hpos)] at h
    simp only [hr] at h
    exact key h
  | Ducos =>
    simp only at h
    rw [if_neg (by simpa using hpos)] at h
    simp only [hr] at h
    exact key h

/-! ## The Ducos branch of part 3 -/

theorem vectorGet_ok {C : Type} (line : Nat) (v : List C) (i : Nat) (x : C)
    (h : vectorGet line v i = Except.ok x) : i < v.length := by
  unfold vectorGet at h
  cases hg : v.get? i with
  | none => rw [hg] at h; cases h
  | some y => exact (List.get?_eq_some.1 hg).1

/-- Whenever the Ducos branch returns a polynomial, the access
t.coefficients()[qDeg] of line 261 was within the coefficient vector of the
polynomial t built from the two coefficients 0 and h.back(). -/
theorem part3Ducos_ok_index {P C : Type} (ops : PolyOps P C) (dops : DucosOps P C)
    (p q c : P) (pDeg qDeg delta : Nat) (r : P)
    (h : part3Ducos ops dops p q c pDeg qDeg delta = Except.ok r) :
    ∃ hback, qDeg < (dops.coefficients (dops.ofCoefficients [dops.zeroC, hback])).length := by
  unfold part3Ducos at h
  simp only at h
  split at h
  · cases h
  split at h
  · cases h
  split at h
  · cases h
  split at h
  · cases h
  split at h
  · cases h
  split at h
  · cases h
  split at h
  · cases h
  split at h
  · cases h
  rename_i hback _
  split at h
  · cases h
  rename_i tq htq
  exact ⟨hback, vectorGet_ok _ _ _ _ htq⟩

theorem part3Ducos_out_of_bounds {P C : Type} (ops : PolyOps P C) (dops : DucosOps P C)
    (hlen : ∀ x, (dops.coefficients (dops.ofCoefficients [dops.zeroC, x])).length ≤ 2)
    (p q c : P) (pDeg qDeg delta : Nat) (hq : 2 ≤ qDeg) (r : P) :
    part3Ducos ops dops p q c pDeg qDeg delta ≠ Except.ok r := by
  intro h
  obtain ⟨hback, hlt⟩ := part3Ducos_ok_index ops dops p q c pDeg qDeg delta r h
  have := hlen hback
  omega

theorem part3Ducos_sign {P C : Type} (ops : PolyOps P C) (dops : DucosOps P C)
    (p q c : P) (pDeg qDeg delta : Nat) (r : P)
    (h : part3Ducos ops dops p q c pDeg qDeg delta = Except.ok r) :
    ∃ reducedNewB, ∀ delta2, part3Ducos ops dops p q c pDeg qDeg delta2 =
      Except.ok (if delta2 % 2 = 0 then ops.neg reducedNewB else reducedNewB) := by
  unfold part3Ducos at h
  simp only at h
  split at h
  · cases h
  rename_i h1 e1
  split at h
  · cases h
  rename_i h2 e2
  split at h
  · cases h
  rename_i h3 e3
  split at h
  · cases h
  rename_i hfront e4
  split at h
  · cases h
  rename_i p0 e5
  split at h
  · cases h
  rename_i sum e6
  split at h
  · cases h
  rename_i e7
  split at h
  · cases h
  rename_i hback e8
  split at h
  · cases h
  rename_i tq e9
  refine ⟨(ops.try_divide (dops.sub (ops.mulPC (dops.add (dops.ofCoefficients [dops.zeroC, hback])
      ((ops.try_divide sum (ops.lcoeff p)).getD ops.zero)) (ops.lcoeff q))
      (dops.to_univariate_polynomial tq)) (ops.lcoeff p)).getD
      (dops.sub (ops.mulPC (dops.add (dops.ofCoefficients [dops.zeroC, hback])
      ((ops.try_divide sum (ops.lcoeff p)).getD ops.zero)) (ops.lcoeff q))
      (dops.to_univariate_polynomial tq)), ?_⟩
  intro delta2
  unfold part3Ducos
  simp only [e1, e2, e3, e4, e5, e6, e8, e9]
  rw [if_neg e7]
  split_ifs <;> rfl

/-- One round of the main loop under Ducos from p = -x + 1 and q = x + 2. -/
theorem ducos_round_one (n : Nat) (s : List Int) (chain : List (List (List Int))) :
    subresultantsLoop zxOps (part3Ducos zxOps zxDucosOps) SubresultantStrategy.Ducos (n + 1)
      [[1], [-1]] [[2], [1]] s chain =
    subresultantsLoop zxOps (part3Ducos zxOps zxDucosOps) SubresultantStrategy.Ducos n
      [[2], [1]] [[-2], [1]] [1] ([[2], [1]] :: chain) := by
  rfl

/-- One round of the main loop under Ducos from p = x + 2 and q = x - 2. -/
theorem ducos_round_two (n : Nat) (s : List Int) (chain : List (List (List Int))) :
    subresultantsLoop zxOps (part3Ducos zxOps zxDucosOps) SubresultantStrategy.Ducos (n + 1)
      [[2], [1]] [[-2], [1]] s chain =
    subresultantsLoop zxOps (part3Ducos zxOps zxDucosOps) SubresultantStrategy.Ducos n
      [[-2], [1]] [[-1], [-1]] [1] ([[-2], [1]] :: chain) := by
  rfl

/-- One round of the main loop under Ducos from p = x - 2 and q = -x - 1. -/
theorem ducos_round_three (n : Nat) (s : List Int) (chain : List (List (List Int))) :
    subresultantsLoop zxOps (part3Ducos zxOps zxDucosOps) SubresultantStrategy.Ducos (n + 1)
      [[-2], [1]] [[-1], [-1]] s chain =
    subresultantsLoop zxOps (part3Ducos zxOps zxDucosOps) SubresultantStrategy.Ducos n
      [[-1], [-1]] [[1], [-1]] [-1] ([[-1], [-1]] :: chain) := by
  rfl

/-- One round of the main loop under Ducos from p = -x - 1 and q = -x + 1. -/
theorem ducos_round_four (n : Nat) (s : List Int) (chain : List (List (List Int))) :
    subresultantsLoop zxOps (part3Ducos zxOps zxDucosOps) SubresultantStrategy.Ducos (n + 1)
      [[-1], [-1]] [[1], [-1]] s chain =
    subresultantsLoop zxOps (part3Ducos zxOps zxDucosOps) SubresultantStrategy.Ducos n
      [[1], [-1]] [[2], [1]] [-1] ([[1], [-1]] :: chain) := by
  rfl

/-- From each of the four states of the cycle the main loop under Ducos never
returns: whatever the fuel, it is used up. -/
theorem ducos_cycle (fuel : Nat) : ∀ (s : List Int) (chain : List (List (List Int))),
    subresultantsLoop zxOps (part3Ducos zxOps zxDucosOps) SubresultantStrategy.Ducos fuel
      [[1], [-1]] [[2], [1]] s chain = Except.error SubresError.fuel ∧
    subresultantsLoop zxOps (part3Ducos zxOps zxDucosOps) SubresultantStrategy.Ducos fuel
      [[2], [1]] [[-2], [1]] s chain = Except.error SubresError.fuel ∧
    subresultantsLoop zxOps (part3Ducos zxOps zxDucosOps) SubresultantStrategy.Ducos fuel
      [[-2], [1]] [[-1], [-1]] s chain = Except.error SubresError.fuel ∧
    subresultantsLoop zxOps (part3Ducos zxOps zxDucosOps) SubresultantStrategy.Ducos fuel
      [[-1], [-1]] [[1], [-1]] s chain = Except.error SubresError.fuel := by
  induction fuel with
  | zero => intro s chain; exact ⟨rfl, rfl, rfl, rfl⟩
  | succ n ih =>
    intro s chain
    refine ⟨?_, ?_, ?_, ?_⟩
    · rw [ducos_round_one]; exact (ih _ _).2.1
    · rw [ducos_round_two]; exact (ih _ _).2.2.1
    · rw [ducos_round_three]; exact (ih _ _).2.2.2
    · rw [ducos_round_four]; exact (ih _ _).1

/-- The first round of the main loop under Ducos for the inputs x^3 + 1 and
x^2 + 1. -/
theorem ducos_first_round (n : Nat) :
    subresultants zxOps (part3Ducos zxOps zxDucosOps) SubresultantStrategy.Ducos (n + 1)
      [[1], [], [], [1]] [[1], [], [1]] =
    subresultantsLoop zxOps (part3Ducos zxOps zxDucosOps) SubresultantStrategy.Ducos n
      [[1], [-1]] [[2], [1]] [-1] [[[1], [-1]], [[1], [], [1]], [[1], [], [], [1]]] := by
  rfl

/-- The Ducos branch of part 3 returns the value of reducedNewB with the sign
chosen by the parity of delta, and fails where the computation of reducedNewB
fails. -/
theorem part3Ducos_eq {P C : Type} (ops : PolyOps P C) (dops : DucosOps P C)
    (p q c : P) (pDeg qDeg delta : Nat) :
    part3Ducos ops dops p q c pDeg qDeg delta =
      match ducosReducedNewB ops dops p q c pDeg qDeg with
      | Except.error e => Except.error e
      | Except.ok r => Except.ok (if delta % 2 = 0 then ops.neg r else r) := by
  unfold part3Ducos ducosReducedNewB
  simp only
  split
  · rfl
  split
  · rfl
  split
  · rfl
  split
  · rfl
  split
  · rfl
  split
  · rfl
  split
  · rfl
  split
  · rfl
  split
  · rfl
  split_ifs <;> rfl

/-! ## The claims -/

/-- C1: for consistent monomials m and other, m.divide(other) returns true exactly
when every variable of other occurs in m with an exponent at least as large, and
returns false otherwise. When it returns true, the result gives every variable
the exponent of m minus the exponent of other, it holds no pair with exponent
zero (a present result is a consistent monomial), it is "no monomial" exactly
when nothing remains, its total degree is tdeg(m) - tdeg(other), and
result * other == m. -/
theorem C1_divide_by_monomial (m other : Monomial) (hm : m.Consistent) (ho : other.Consistent) :
    ((m.divide (some other)).isSome = true ↔
      ∀ p ∈ other.mExponents, p.1 ∈ vars m.mExponents ∧ p.2 ≤ expOf m.mExponents p.1) ∧
    ((¬ ∀ p ∈ other.mExponents, p.1 ∈ vars m.mExponents ∧ p.2 ≤ expOf m.mExponents p.1) →
      m.divide (some other) = none) ∧
    ∀ res, m.divide (some other) = some res →
      (∀ v, res.exp v = expOf m.mExponents v - expOf other.mExponents v) ∧
      (∀ p ∈ res.exps, 1 ≤ p.2) ∧
      (∀ r, res = some r → r.Consistent) ∧
      (res = none ↔ ∀ v, expOf m.mExponents v = expOf other.mExponents v) ∧
      res.tdeg = m.mTotalDegree - other.mTotalDegree ∧
      mul res (some other) = some m := by
  have hiff := (divide_isSome_iff hm ho).trans (dominated_iff ho.sorted ho.pos).symm
  refine ⟨hiff, fun hn => ?_, fun res h => ?_⟩
  · have := hiff.not.2 hn
    simpa using this
  · obtain ⟨q, hE, hS, hP, hD, hres⟩ := divide_result hm ho h
    cases q with
    | nil =>
      have hres : res = none := by simpa using hres
      have heq : ∀ v, expOf m.mExponents v = expOf other.mExponents v := fun v => by
        have := hE v
        rw [expOf_nil] at this
        omega
      have hmo : other = m := monomial_eq_of_expOf_eq ho hm (fun v => (heq v).symm)
      subst hres
      refine ⟨fun v => ?_, fun p hp => by simp [Monomial.Arg.exps] at hp, fun r hr => by simp at hr,
        ⟨fun _ => heq, fun _ => rfl⟩, ?_, ?_⟩
      · show expOf [] v = _
        rw [expOf_nil, heq v]; omega
      · show 0 = _
        rw [hmo]; omega
      · show some other = some m
        rw [hmo]
    | cons p q =>
      have hres : res = some ⟨p :: q, m.mTotalDegree - other.mTotalDegree⟩ := by simpa using hres
      have hc : Monomial.Consistent ⟨p :: q, m.mTotalDegree - other.mTotalDegree⟩ :=
        consistent_mk hS hP (by omega) (by simp)
      subst hres
      refine ⟨fun v => ?_, hP, fun r hr => ?_, ⟨fun hnone => by simp at hnone, fun heq => ?_⟩,
        rfl, ?_⟩
      · show expOf (p :: q) v = _
        have := hE v
        omega
      · cases hr; exact hc
      · exfalso
        have := hE p.1
        rw [expOf_cons, if_pos rfl, heq p.1] at this
        have := (pos_cons.1 hP).1
        omega
      · obtain ⟨r, hr, hrc, hrE, _⟩ := mul_consistent hc ho
        rw [hr]
        exact congrArg some (monomial_eq_of_expOf_eq hrc hm (fun v => by rw [hrE v]; exact hE v))

/-- C1 at x5^2 * x3 and x5: the quotient is x5 * x3 and quotient * x5 is the dividend. -/
theorem C1_divide_by_monomial_witness :
    Monomial.Consistent ⟨[(5, 2), (3, 1)], 3⟩ ∧ Monomial.Consistent ⟨[(5, 1)], 1⟩ ∧
    Monomial.divide ⟨[(5, 2), (3, 1)], 3⟩ (some ⟨[(5, 1)], 1⟩) =
      some (some ⟨[(5, 1), (3, 1)], 2⟩) ∧
    mul (some ⟨[(5, 1), (3, 1)], 2⟩) (some ⟨[(5, 1)], 1⟩) = some ⟨[(5, 2), (3, 1)], 3⟩ :=
  ⟨by decide, by decide, by decide,
    ((C1_divide_by_monomial ⟨[(5, 2), (3, 1)], 3⟩ ⟨[(5, 1)], 1⟩ (by decide) (by decide)).2.2
      (some ⟨[(5, 1), (3, 1)], 2⟩) (by decide)).2.2.2.2.2⟩

/-- C2: for a consistent monomial m, when the variable v occurs in m (its
exponent is at least 1) m.divide(v) returns true and the result r satisfies
r * v == m; when v does not occur in m, m.divide(v) returns false and produces
no result. -/
theorem C2_divide_by_variable (m : Monomial) (v : Nat) (hm : m.Consistent) :
    (v ∈ vars m.mExponents → 1 ≤ expOf m.mExponents v ∧
      ∃ r, m.divideVar v = some r ∧ mulVar r v = some m) ∧
    (v ∉ vars m.mExponents → m.divideVar v = none) := by
  refine ⟨fun hv => ⟨expOf_pos_of_mem hm.pos hv, ?_⟩, divideVar_of_not_mem⟩
  obtain ⟨hsplit, -, hit⟩ := find_spec m.mExponents v
  have hne : (find m.mExponents v).2 ≠ [] := fun h => (find_snd_eq_nil_iff _ _).1 h hv
  obtain ⟨it, after, hcons⟩ := List.exists_cons_of_ne_nil hne
  have hitv := hit it after hcons
  have hfind : find m.mExponents v = ((find m.mExponents v).1, it :: after) :=
    Prod.ext rfl hcons
  generalize (find m.mExponents v).1 = before at hsplit hfind
  rw [hcons] at hsplit
  have hs := hm.sorted
  rw [hsplit] at hs
  obtain ⟨hb, ha, -, -, -⟩ := sorted_append_cons hs
  rw [hitv] at hb ha
  have hit1 : 1 ≤ it.2 := hm.pos it (by rw [hsplit]; simp)
  have ht1 : 1 ≤ m.mTotalDegree := by
    rw [hm.tdeg_eq, hsplit, degSum_append, degSum_cons]; omega
  have hmk : m = ⟨before ++ it :: after, m.mTotalDegree⟩ := by
    cases m; simp only [Monomial.mk.injEq, and_true]; exact hsplit
  refine ⟨_, divideVar_of_find hfind, ?_⟩
  split_ifs with h1 h2
  · rw [mulVar_insert before after _ v hb ha, hmk]
    have : it = (v, 1) := Prod.ext hitv h1
    rw [this]
    simp only [Monomial.mk.injEq, Option.some.injEq, true_and]
    omega
  · have h2 : before = [] := by simpa using h2
    subst h2
    rw [← List.nil_append ([] ++ after), List.nil_append after,
      mulVar_insert [] after _ v (by simp) ha, hmk]
    have : it = (v, 1) := Prod.ext hitv h1
    rw [this]
    simp only [Monomial.mk.injEq, Option.some.injEq, List.nil_append, true_and]
    omega
  · rw [hitv, mulVar_raise before after _ v _ hb, hmk]
    have : it = (v, it.2 - 1 + 1) := Prod.ext hitv (by show it.2 = it.2 - 1 + 1; omega)
    rw [← this]
    simp only [Monomial.mk.injEq, Option.some.injEq, true_and]
    omega

/-- C2 at x5^2 * x3: dividing by the variable 3 succeeds and the product with 3 gives the monomial back; dividing by the variable 4 fails. -/
theorem C2_divide_by_variable_witness :
    Monomial.Consistent ⟨[(5, 2), (3, 1)], 3⟩ ∧
    (∃ r, Monomial.divideVar ⟨[(5, 2), (3, 1)], 3⟩ 3 = some r ∧
      mulVar r 3 = some ⟨[(5, 2), (3, 1)], 3⟩) ∧
    Monomial.divideVar ⟨[(5, 2), (3, 1)], 3⟩ 4 = none :=
  ⟨by decide,
    ((C2_divide_by_variable ⟨[(5, 2), (3, 1)], 3⟩ 3 (by decide)).1 (by decide)).2,
    (C2_divide_by_variable ⟨[(5, 2), (3, 1)], 3⟩ 4 (by decide)).2 (by decide)⟩

/-- C3: for consistent monomials a and b, Monomial::gcd(a, b) contains exactly
the variables that occur in both a and b, each with the minimum of its two
exponents; its total degree is the sum of those minima; it is "no monomial"
exactly when a and b share no variable; a present result is a consistent
monomial. -/
theorem C3_gcd (a b : Monomial) (ha : a.Consistent) (hb : b.Consistent) :
    (∀ v, v ∈ vars (Monomial.gcd (some a) (some b)).exps ↔
      v ∈ vars a.mExponents ∧ v ∈ vars b.mExponents) ∧
    (∀ v, (Monomial.gcd (some a) (some b)).exp v =
      min (expOf a.mExponents v) (expOf b.mExponents v)) ∧
    (Monomial.gcd (some a) (some b)).tdeg =
      ∑ v in (vars a.mExponents).toFinset ∩ (vars b.mExponents).toFinset,
        min (expOf a.mExponents v) (expOf b.mExponents v) ∧
    (Monomial.gcd (some a) (some b) = none ↔
      ∀ v, ¬ (v ∈ vars a.mExponents ∧ v ∈ vars b.mExponents)) ∧
    (∀ g, Monomial.gcd (some a) (some b) = some g → g.Consistent) := by
  obtain ⟨hE, hS, hP, hD, hC⟩ := gcd_spec ha hb
  have hV : ∀ v, v ∈ vars (Monomial.gcd (some a) (some b)).exps ↔
      v ∈ vars a.mExponents ∧ v ∈ vars b.mExponents := by
    intro v
    rw [mem_vars_iff hP, mem_vars_iff ha.pos, mem_vars_iff hb.pos, hE v]
    omega
  refine ⟨hV, hE, ?_, ?_, hC⟩
  · rw [hD, degSum_eq_sum hS ((vars a.mExponents).toFinset ∩ (vars b.mExponents).toFinset)
      (fun v hv => by
        rw [Finset.mem_inter, List.mem_toFinset, List.mem_toFinset]
        exact (hV v).1 hv)]
    exact Finset.sum_congr rfl (fun v _ => hE v)
  · constructor
    · intro hn v hv
      have := (hV v).2 hv
      rw [hn] at this
      simp [Monomial.Arg.exps, vars] at this
    · intro hn
      cases hg : Monomial.gcd (some a) (some b) with
      | none => rfl
      | some g =>
        exfalso
        have hne := (hC g hg).ne_nil
        obtain ⟨p, q, hpq⟩ := List.exists_cons_of_ne_nil hne
        refine hn p.1 ((hV p.1).1 ?_)
        rw [hg]
        show p.1 ∈ vars g.mExponents
        rw [hpq]
        simp [vars]

/-- C3 at x5^2 * x3 and x5 * x4: the greatest common divisor is x5. -/
theorem C3_gcd_witness :
    Monomial.Consistent ⟨[(5, 2), (3, 1)], 3⟩ ∧ Monomial.Consistent ⟨[(5, 1), (4, 1)], 2⟩ ∧
    Monomial.gcd (some ⟨[(5, 2), (3, 1)], 3⟩) (some ⟨[(5, 1), (4, 1)], 2⟩) = some ⟨[(5, 1)], 1⟩ ∧
    (Monomial.gcd (some ⟨[(5, 2), (3, 1)], 3⟩) (some ⟨[(5, 1), (4, 1)], 2⟩)).exp 5 =
      min (expOf [(5, 2), (3, 1)] 5) (expOf [(5, 1), (4, 1)] 5) :=
  ⟨by decide, by decide, by decide,
    (C3_gcd ⟨[(5, 2), (3, 1)], 3⟩ ⟨[(5, 1), (4, 1)], 2⟩ (by decide) (by decide)).2.1 5⟩

/-- C4: Monomial::gcd with a "no monomial" argument returns the other argument,
not the per-variable minimum of exponents: for the monomial x (the variable 1
to the power 1), gcd(no monomial, x) and gcd(x, no monomial) are x, in which the
variable 1 has exponent 1, while the minimum of its exponents in "no monomial"
and in x is 0. -/
theorem C4_gcd_no_monomial_returns_other :
    Monomial.gcd none (some (Monomial.ofVar 1)) = some (Monomial.ofVar 1) ∧
    Monomial.gcd (some (Monomial.ofVar 1)) none = some (Monomial.ofVar 1) ∧
    (Monomial.gcd none (some (Monomial.ofVar 1))).exp 1 = 1 ∧
    min (Monomial.Arg.exp none 1) (Monomial.Arg.exp (some (Monomial.ofVar 1)) 1) = 0 ∧
    (Monomial.ofVar 1).Consistent := by
  decide

/-- C6: with a = "no monomial" and b = x (the variable 1 to the power 1), the
code gives gcd(a, b) = x and lcm(a, b) = x, so gcd(a, b) * lcm(a, b) is x^2 of
total degree 2, while a * b is x of total degree 1. -/
theorem C6_gcd_times_lcm_degree_no_monomial :
    mul (Monomial.gcd none (some (Monomial.ofVar 1))) (Monomial.lcm none (some (Monomial.ofVar 1)))
      = some ⟨[(1, 2)], 2⟩ ∧
    (mul (Monomial.gcd none (some (Monomial.ofVar 1)))
      (Monomial.lcm none (some (Monomial.ofVar 1)))).tdeg = 2 ∧
    (mul none (some (Monomial.ofVar 1))).tdeg = 1 ∧
    (Monomial.ofVar 1).Consistent := by
  decide

/-- C7: for consistent monomials a and b, gcd(a, b) divides both:
a.divide(gcd(a, b)) and b.divide(gcd(a, b)) both return true. -/
theorem C7_gcd_divides_both (a b : Monomial) (ha : a.Consistent) (hb : b.Consistent) :
    (a.divide (Monomial.gcd (some a) (some b))).isSome = true ∧
    (b.divide (Monomial.gcd (some a) (some b))).isSome = true := by
  obtain ⟨hE, -, -, -, hC⟩ := gcd_spec ha hb
  cases hg : Monomial.gcd (some a) (some b) with
  | none => exact ⟨rfl, rfl⟩
  | some g =>
    rw [hg] at hE
    have hgc := hC g hg
    refine ⟨(divide_isSome_iff ha hgc).2 (fun v => ?_), (divide_isSome_iff hb hgc).2 (fun v => ?_)⟩
    · have : expOf g.mExponents v = _ := hE v
      omega
    · have : expOf g.mExponents v = _ := hE v
      omega

/-- C7 at x5^2 * x3 and x5 * x4: both divisions by the greatest common divisor succeed. -/
theorem C7_gcd_divides_both_witness :
    Monomial.Consistent ⟨[(5, 2), (3, 1)], 3⟩ ∧ Monomial.Consistent ⟨[(5, 1), (4, 1)], 2⟩ ∧
    (Monomial.divide ⟨[(5, 2), (3, 1)], 3⟩
      (Monomial.gcd (some ⟨[(5, 2), (3, 1)], 3⟩) (some ⟨[(5, 1), (4, 1)], 2⟩))).isSome = true ∧
    (Monomial.divide ⟨[(5, 1), (4, 1)], 2⟩
      (Monomial.gcd (some ⟨[(5, 2), (3, 1)], 3⟩) (some ⟨[(5, 1), (4, 1)], 2⟩))).isSome = true :=
  ⟨by decide, by decide,
    C7_gcd_divides_both ⟨[(5, 2), (3, 1)], 3⟩ ⟨[(5, 1), (4, 1)], 2⟩ (by decide) (by decide)⟩

/-- C9: dividing the consistent monomial x (the variable 1 to the power 1) by the
variable 1 returns true with a present monomial whose exponent vector is empty
and whose total degree is 0. This monomial fails isConsistent(), whatever the
sentinel NO_VARIABLE is. On the same input dropVariable returns "no monomial"
and so does the division by the monomial x. -/
theorem C9_divide_by_variable_returns_empty_monomial :
    (Monomial.ofVar 1).Consistent ∧
    Monomial.divideVar (Monomial.ofVar 1) 1 = some (some ⟨[], 0⟩) ∧
    (∀ NO_VARIABLE, Monomial.isConsistent NO_VARIABLE ⟨[], 0⟩ = false) ∧
    Monomial.dropVariable (Monomial.ofVar 1) 1 = none ∧
    Monomial.divide (Monomial.ofVar 1) (some (Monomial.ofVar 1)) = some none :=
  ⟨by decide, by decide, fun _ => rfl, by decide, by decide⟩

/-- C12: for a consistent monomial m and k at least 1, with exact arithmetic,
m.pow(k) has the pairs of m in the same order with every exponent multiplied by
k (so the same variables), total degree k * tdeg(m), and is consistent;
m.pow(0) is "no monomial". -/
theorem C12_pow (m : Monomial) (k : Nat) (hm : m.Consistent) (hk : 1 ≤ k) :
    (∃ r, m.pow k = some r ∧
      r.mExponents = m.mExponents.map (fun p => (p.1, p.2 * k)) ∧
      vars r.mExponents = vars m.mExponents ∧
      (∀ v, expOf r.mExponents v = k * expOf m.mExponents v) ∧
      r.mTotalDegree = k * m.mTotalDegree ∧
      r.Consistent) ∧
    m.pow 0 = none := by
  refine ⟨⟨_, pow_eq m (by omega), rfl, vars_map_snd (fun e => e * k) _, fun v => ?_, ?_,
    pow_consistent hm hk⟩, rfl⟩
  · show expOf (m.mExponents.map (fun p => (p.1, p.2 * k))) v = _
    rw [expOf_map_mul, Nat.mul_comm]
  · show degSum m.mExponents * k = _
    rw [hm.tdeg_eq, Nat.mul_comm]

/-- C12 at x5^2 * x3 and k = 3. -/
theorem C12_pow_witness :
    Monomial.Consistent ⟨[(5, 2), (3, 1)], 3⟩ ∧
    (∃ r, Monomial.pow ⟨[(5, 2), (3, 1)], 3⟩ 3 = some r ∧ r.mTotalDegree = 3 * 3) ∧
    Monomial.pow ⟨[(5, 2), (3, 1)], 3⟩ 3 = some ⟨[(5, 6), (3, 3)], 9⟩ :=
  ⟨by decide,
    (fun h => ⟨h.choose, h.choose_spec.1, h.choose_spec.2.2.2.2.1⟩)
      (C12_pow ⟨[(5, 2), (3, 1)], 3⟩ 3 (by decide) (by decide)).1,
    by decide⟩

/-- C13: for a consistent monomial m, m.sqrt() returns no result exactly when
some exponent of m is odd; otherwise it returns the monomial r that has the
pairs of m with every exponent halved, and r.pow(2) == m. -/
theorem C13_sqrt (m : Monomial) (hm : m.Consistent) :
    (m.sqrt = none ↔ ∃ p ∈ m.mExponents, p.2 % 2 = 1) ∧
    ((¬ ∃ p ∈ m.mExponents, p.2 % 2 = 1) →
      ∃ r, m.sqrt = some r ∧
        r.mExponents = m.mExponents.map (fun p => (p.1, p.2 / 2)) ∧
        r.pow 2 = some m) := by
  have hsucc : (¬ ∃ p ∈ m.mExponents, p.2 % 2 = 1) →
      ∃ r, m.sqrt = some r ∧
        r.mExponents = m.mExponents.map (fun p => (p.1, p.2 / 2)) ∧
        r.pow 2 = some m := by
    intro hn
    have heven : ∀ p ∈ m.mExponents, p.2 % 2 = 0 := by
      intro p hp
      by_contra hodd
      exact hn ⟨p, hp, by omega⟩
    refine ⟨_, sqrt_of_even hm.tdeg_eq heven, rfl, ?_⟩
    rw [pow_eq _ (by decide)]
    show some (Monomial.mk ((m.mExponents.map (fun p => (p.1, p.2 / 2))).map
      (fun p => (p.1, p.2 * 2))) (degSum (m.mExponents.map (fun p => (p.1, p.2 / 2))) * 2)) = _
    rw [map_double_half _ heven, degSum_map_half _ heven, ← hm.tdeg_eq]
  refine ⟨⟨fun hnone => ?_, sqrt_of_odd m⟩, hsucc⟩
  by_contra hn
  obtain ⟨r, hr, -⟩ := hsucc hn
  rw [hr] at hnone
  exact absurd hnone (by simp)

/-- C13 at x5^4 * x3^2, whose square root is x5^2 * x3, and at x5^2 * x3, which
has none. -/
theorem C13_sqrt_witness :
    Monomial.Consistent ⟨[(5, 2), (3, 1)], 3⟩ ∧
    Monomial.sqrt ⟨[(5, 2), (3, 1)], 3⟩ = none ∧
    Monomial.sqrt ⟨[(5, 4), (3, 2)], 6⟩ = some ⟨[(5, 2), (3, 1)], 3⟩ :=
  ⟨by decide,
    (C13_sqrt ⟨[(5, 2), (3, 1)], 3⟩ (by decide)).1.2 ⟨(3, 1), by decide, rfl⟩,
    by decide⟩

/-- C16: for a consistent monomial m and a variable v: when v does not occur in
m, m.dropVariable(v) is m; when v occurs in m together with another variable,
the result is m without the pair of v and with the total degree reduced by the
exponent of v, a consistent monomial; when v is the only variable of m, the
result is "no monomial". -/
theorem C16_dropVariable (m : Monomial) (v : Nat) (hm : m.Consistent) :
    (v ∉ vars m.mExponents → m.dropVariable v = some m) ∧
    (v ∈ vars m.mExponents → (∃ w ∈ vars m.mExponents, w ≠ v) →
      m.dropVariable v = some ⟨m.mExponents.filter (fun p => decide (p.1 ≠ v)),
        m.mTotalDegree - expOf m.mExponents v⟩ ∧
      Monomial.Consistent ⟨m.mExponents.filter (fun p => decide (p.1 ≠ v)),
        m.mTotalDegree - expOf m.mExponents v⟩) ∧
    (v ∈ vars m.mExponents → (∀ w ∈ vars m.mExponents, w = v) → m.dropVariable v = none) := by
  have hnot : v ∉ vars m.mExponents → m.dropVariable v = some m := by
    intro hv
    have h2 := (find_snd_eq_nil_iff m.mExponents v).2 hv
    unfold Monomial.dropVariable
    rw [show find m.mExponents v = ((find m.mExponents v).1, []) from Prod.ext rfl h2]
    rfl
  have hin : v ∈ vars m.mExponents →
      ∃ before it after, find m.mExponents v = (before, it :: after) ∧
        m.mExponents = before ++ it :: after ∧ it.1 = v := by
    intro hv
    obtain ⟨hsplit, -, hit⟩ := find_spec m.mExponents v
    have hne : (find m.mExponents v).2 ≠ [] := fun h => (find_snd_eq_nil_iff _ _).1 h hv
    obtain ⟨it, after, hcons⟩ := List.exists_cons_of_ne_nil hne
    refine ⟨(find m.mExponents v).1, it, after, Prod.ext rfl hcons, ?_, hit it after hcons⟩
    rw [← hcons]; exact hsplit
  refine ⟨hnot, fun hv hother => ?_, fun hv honly => ?_⟩
  · obtain ⟨before, it, after, hfind, hsplit, hitv⟩ := hin hv
    have hs := hm.sorted
    rw [hsplit] at hs
    obtain ⟨hfil, hexp⟩ := filter_of_split hs
    rw [hitv] at hfil hexp
    obtain ⟨hb, ha, hsba, -, -⟩ := sorted_append_cons hs
    have hlen : ¬ m.mExponents.length = 1 := by
      intro h1
      rw [hsplit] at h1
      have hlen1 : before.length + (after.length + 1) = 1 := by simpa using h1
      have hb0 : before = [] := List.length_eq_zero.1 (by omega)
      have ha0 : after = [] := List.length_eq_zero.1 (by omega)
      obtain ⟨w, hw, hwv⟩ := hother
      rw [hsplit, hb0, ha0] at hw
      simp only [vars, List.nil_append, List.map_cons, List.map_nil, List.mem_singleton] at hw
      exact hwv (hw.trans hitv)
    have hdrop : m.dropVariable v = some ⟨before ++ after, m.mTotalDegree - it.2⟩ := by
      unfold Monomial.dropVariable
      rw [hfind]
      simp only [if_neg hlen]
      rfl
    rw [hsplit, hfil, hexp]
    refine ⟨hdrop, consistent_mk hsba ?_ ?_ ?_⟩
    · intro p hp
      refine hm.pos p ?_
      rw [hsplit]
      rcases List.mem_append.1 hp with h | h
      · exact List.mem_append_left _ h
      · exact List.mem_append_right _ (List.mem_cons_of_mem _ h)
    · have := hm.tdeg_eq
      rw [hsplit, degSum_append, degSum_cons] at this
      rw [degSum_append]
      omega
    · intro hnil
      have hb0 : before = [] := (List.append_eq_nil.1 hnil).1
      have ha0 : after = [] := (List.append_eq_nil.1 hnil).2
      exact hlen (by rw [hsplit, hb0, ha0]; rfl)
  · obtain ⟨before, it, after, hfind, hsplit, hitv⟩ := hin hv
    have hs := hm.sorted
    rw [hsplit] at hs
    obtain ⟨hb, ha, -, -, -⟩ := sorted_append_cons hs
    have hb0 : before = [] := by
      cases before with
      | nil => rfl
      | cons x xs =>
        exfalso
        have h1 := hb x (List.mem_cons_self _ _)
        have h2 := honly x.1 (by rw [hsplit]; simp [vars])
        omega
    have ha0 : after = [] := by
      cases after with
      | nil => rfl
      | cons x xs =>
        exfalso
        have h1 := ha x (List.mem_cons_self _ _)
        have h2 := honly x.1 (by rw [hsplit]; simp [vars])
        omega
    have hlen : m.mExponents.length = 1 := by rw [hsplit, hb0, ha0]; rfl
    unfold Monomial.dropVariable
    rw [hfind]
    simp only [if_pos hlen]

/-- C16 at x5^2 * x3: dropping the variable 4, the variable 5, and at x5 dropping
the variable 5. -/
theorem C16_dropVariable_witness :
    Monomial.Consistent ⟨[(5, 2), (3, 1)], 3⟩ ∧
    Monomial.dropVariable ⟨[(5, 2), (3, 1)], 3⟩ 4 = some ⟨[(5, 2), (3, 1)], 3⟩ ∧
    Monomial.dropVariable ⟨[(5, 2), (3, 1)], 3⟩ 5 = some ⟨[(3, 1)], 1⟩ ∧
    Monomial.dropVariable ⟨[(5, 2)], 2⟩ 5 = none :=
  ⟨by decide,
    (C16_dropVariable ⟨[(5, 2), (3, 1)], 3⟩ 4 (by decide)).1 (by decide),
    ((C16_dropVariable ⟨[(5, 2), (3, 1)], 3⟩ 5 (by decide)).2.1 (by decide)
      ⟨3, by decide, by decide⟩).1,
    (C16_dropVariable ⟨[(5, 2)], 2⟩ 5 (by decide)).2.2 (by decide) (by decide)⟩

/-- C17: for a consistent monomial m, m.separablePart() has the pairs of m in the
same order with every exponent replaced by 1, so exactly the variables of m;
its total degree is the number of variables of m; it is consistent; and its own
separable part is itself. -/
theorem C17_separablePart (m : Monomial) (hm : m.Consistent) :
    ∃ r, m.separablePart = some r ∧
      r.mExponents = m.mExponents.map (fun p => (p.1, 1)) ∧
      vars r.mExponents = vars m.mExponents ∧
      (∀ p ∈ r.mExponents, p.2 = 1) ∧
      r.mTotalDegree = (vars m.mExponents).length ∧
      r.Consistent ∧
      r.separablePart = some r := by
  refine ⟨_, separablePart_eq m, rfl, vars_map_snd (fun _ => 1) _, ?_, by simp [vars], ?_, ?_⟩
  · intro q hq
    obtain ⟨p, -, rfl⟩ := List.mem_map.1 hq
    rfl
  · refine consistent_mk (sorted_map_snd (fun _ => 1) hm.sorted) ?_ (degSum_map_one _).symm ?_
    · intro q hq
      obtain ⟨p, -, rfl⟩ := List.mem_map.1 hq
      exact Nat.le_refl 1
    · intro h
      exact hm.ne_nil (List.map_eq_nil_iff.1 h)
  · rw [separablePart_eq]
    simp [Function.comp_def]

/-- C17 at x5^2 * x3, whose separable part is x5 * x3. -/
theorem C17_separablePart_witness :
    Monomial.Consistent ⟨[(5, 2), (3, 1)], 3⟩ ∧
    Monomial.separablePart ⟨[(5, 2), (3, 1)], 3⟩ = some ⟨[(5, 1), (3, 1)], 2⟩ ∧
    ∃ r, Monomial.separablePart ⟨[(5, 2), (3, 1)], 3⟩ = some r ∧ r.separablePart = some r :=
  ⟨by decide, by decide,
    (fun h => ⟨h.choose, h.choose_spec.1, h.choose_spec.2.2.2.2.2.2⟩)
      (C17_separablePart ⟨[(5, 2), (3, 1)], 3⟩ (by decide))⟩

/-- C18: for consistent monomials a and b, lexicalCompare(a, b) is EQUAL when a
and b are the same monomial, and LESS or GREATER otherwise. When the two
exponent lists agree on a common beginning and then hold different pairs x (in
a) and y (in b), the result is decided there: LESS when x has the smaller
variable, GREATER when y has the smaller variable, and for equal variables LESS
when x has the smaller exponent and GREATER when y has it. When the list of a is
exhausted while b still has entries the result is LESS, and when the list of b
is exhausted while a still has entries the result is GREATER. -/
theorem C18_lexicalCompare (a b : Monomial) (ha : a.Consistent) (hb : b.Consistent) :
    (a = b → a.lexicalCompare b = some CompareResult.EQUAL) ∧
    (a ≠ b → a.lexicalCompare b = some CompareResult.LESS ∨
      a.lexicalCompare b = some CompareResult.GREATER) ∧
    (∀ pre x y ra rb, a.mExponents = pre ++ x :: ra → b.mExponents = pre ++ y :: rb → x ≠ y →
      (x.1 < y.1 → a.lexicalCompare b = some CompareResult.LESS) ∧
      (y.1 < x.1 → a.lexicalCompare b = some CompareResult.GREATER) ∧
      (x.1 = y.1 → x.2 < y.2 → a.lexicalCompare b = some CompareResult.LESS) ∧
      (x.1 = y.1 → y.2 < x.2 → a.lexicalCompare b = some CompareResult.GREATER)) ∧
    (∀ y rb, b.mExponents = a.mExponents ++ y :: rb →
      a.lexicalCompare b = some CompareResult.LESS) ∧
    (∀ x ra, a.mExponents = b.mExponents ++ x :: ra →
      a.lexicalCompare b = some CompareResult.GREATER) := by
  have hloop : a ≠ b → a.lexicalCompare b = lexicalCompareLoop a.mExponents b.mExponents := by
    intro h
    unfold Monomial.lexicalCompare
    rw [if_neg h]
  have hne_of : a.mExponents ≠ b.mExponents → a ≠ b := fun h hab => h (by rw [hab])
  refine ⟨fun h => ?_, fun h => ?_, fun pre x y ra rb hxa hyb hxy => ?_, fun y rb hy => ?_,
    fun x ra hx => ?_⟩
  · unfold Monomial.lexicalCompare
    rw [if_pos h]
  · rw [hloop h]
    refine lexicalCompareLoop_ne _ _ (fun he => h ?_)
    exact monomial_eq_of_expOf_eq ha hb (fun v => by rw [he])
  · have hab : a ≠ b := hne_of (by
      rw [hxa, hyb]
      intro h
      exact hxy (List.cons.inj (List.append_cancel_left h)).1)
    rw [hloop hab, hxa, hyb, lexicalCompareLoop_append, lexicalCompareLoop_cons_cons]
    refine ⟨fun h => ?_, fun h => ?_, fun h1 h2 => ?_, fun h1 h2 => ?_⟩
    · rw [if_neg (by omega), if_pos h]
    · rw [if_neg (by omega), if_neg (by omega)]
    · rw [if_pos h1, if_pos h2]
    · rw [if_pos h1, if_neg (by omega), if_pos h2]
  · have hab : a ≠ b := hne_of (by
      rw [hy]
      intro h
      have := congrArg List.length h
      simp at this)
    rw [hloop hab, hy]
    have := lexicalCompareLoop_append a.mExponents [] (y :: rb)
    rw [List.append_nil] at this
    rw [this]
    rfl
  · have hab : a ≠ b := hne_of (by
      rw [hx]
      intro h
      have := congrArg List.length h
      simp at this)
    rw [hloop hab, hx]
    have := lexicalCompareLoop_append b.mExponents (x :: ra) []
    rw [List.append_nil] at this
    rw [this]
    rfl

/-- C18 at x5^2 * x3 and x5 * x4, which differ at the first pair in the exponent,
and at x5 and x5 * x3, where the first list is exhausted. -/
theorem C18_lexicalCompare_witness :
    Monomial.Consistent ⟨[(5, 2), (3, 1)], 3⟩ ∧ Monomial.Consistent ⟨[(5, 1), (4, 1)], 2⟩ ∧
    Monomial.lexicalCompare ⟨[(5, 2), (3, 1)], 3⟩ ⟨[(5, 1), (4, 1)], 2⟩ =
      some CompareResult.GREATER ∧
    Monomial.lexicalCompare ⟨[(5, 1)], 1⟩ ⟨[(5, 1), (3, 1)], 2⟩ = some CompareResult.LESS :=
  ⟨by decide, by decide,
    ((C18_lexicalCompare ⟨[(5, 2), (3, 1)], 3⟩ ⟨[(5, 1), (4, 1)], 2⟩ (by decide) (by decide)).2.2.1
      [] (5, 2) (5, 1) [(3, 1)] [(4, 1)] rfl rfl (by decide)).2.2.2 rfl (by decide),
    (C18_lexicalCompare ⟨[(5, 1)], 1⟩ ⟨[(5, 1), (3, 1)], 2⟩ (by decide) (by decide)).2.2.2.1
      (3, 1) [] rfl⟩

/-- The instance that the specification gives for a shared root: over the
integers, with a normalization that leaves x^2 - 1 and x - 1 as they are, the
resultant of x^2 - 1 and x - 1 is the zero polynomial under every strategy, as
soon as the main loop may start one round. -/
theorem resultant_shared_root (normalized : List Int → List Int)
    (part3Ducos : List Int → List Int → List Int → Nat → Nat → Nat →
      Except SubresError (List Int))
    (strategy : SubresultantStrategy) (fuel : Nat)
    (h1 : normalized [-1, 0, 1] = [-1, 0, 1]) (h2 : normalized [-1, 1] = [-1, 1])
    (hf : 1 ≤ fuel) :
    resultant intOps normalized part3Ducos strategy fuel [-1, 0, 1] [-1, 1] = Except.ok [] := by
  obtain ⟨n, rfl⟩ : ∃ n, fuel = n + 1 := ⟨fuel - 1, by omega⟩
  simp only [resultant, resultant_calculate, h1, h2]
  rfl

/-- C20: over the integers, with a normalization that leaves x^2 + 1 and x^2 - 1
as they are (both are monic and primitive), the resultant of x^2 + 1 and
x^2 - 1 is the constant polynomial 4, with the strategy Default and with the
strategy Generic, as soon as the main loop may start one round. -/
theorem C20_resultant_is_four (normalized : List Int → List Int)
    (part3Ducos : List Int → List Int → List Int → Nat → Nat → Nat →
      Except SubresError (List Int))
    (fuel : Nat)
    (h1 : normalized [1, 0, 1] = [1, 0, 1]) (h2 : normalized [-1, 0, 1] = [-1, 0, 1])
    (hf : 1 ≤ fuel) :
    resultant intOps normalized part3Ducos SubresultantStrategy.Default fuel
      [1, 0, 1] [-1, 0, 1] = Except.ok [4] ∧
    resultant intOps normalized part3Ducos SubresultantStrategy.Generic fuel
      [1, 0, 1] [-1, 0, 1] = Except.ok [4] := by
  obtain ⟨n, rfl⟩ : ∃ n, fuel = n + 1 := ⟨fuel - 1, by omega⟩
  constructor
  · simp only [resultant, resultant_calculate, h1, h2]
    rfl
  · simp only [resultant, resultant_calculate, h1, h2]
    rfl

/-- C20 with the normalization by the sign of the leading coefficient. -/
theorem C20_resultant_is_four_witness :
    IntPoly.normalized [1, 0, 1] = [1, 0, 1] ∧ IntPoly.normalized [-1, 0, 1] = [-1, 0, 1] ∧
    resultant intOps IntPoly.normalized (fun _ _ _ _ _ _ => Except.error SubresError.fuel)
      SubresultantStrategy.Default 3 [1, 0, 1] [-1, 0, 1] = Except.ok [4] ∧
    resultant intOps IntPoly.normalized (fun _ _ _ _ _ _ => Except.error SubresError.fuel)
      SubresultantStrategy.Generic 3 [1, 0, 1] [-1, 0, 1] = Except.ok [4] :=
  ⟨by decide, by decide,
    C20_resultant_is_four IntPoly.normalized (fun _ _ _ _ _ _ => Except.error SubresError.fuel) 3
      (by decide) (by decide) (by decide)⟩

/-- The function resultant returns the zero polynomial when p or q is zero;
otherwise, whenever subresultants returns a chain for the normalized inputs,
that chain has a front element and resultant returns it when it is constant and
the zero polynomial when it is not; so every polynomial that resultant returns
is constant (the zero polynomial being constant). -/
theorem resultant_front {P C : Type} (ops : PolyOps P C) (normalized : P → P)
    (part3Ducos : P → P → P → Nat → Nat → Nat → Except SubresError P)
    (strategy : SubresultantStrategy) (fuel : Nat) (p q : P)
    (hzero : ops.is_constant ops.zero = true) :
    (ops.isZero p = true ∨ ops.isZero q = true →
      resultant ops normalized part3Ducos strategy fuel p q = Except.ok ops.zero) ∧
    (ops.isZero p = false → ops.isZero q = false → ∀ chain,
      subresultants ops part3Ducos strategy fuel (normalized p) (normalized q) =
        Except.ok chain →
      ∃ front rest, chain = front :: rest ∧
        resultant ops normalized part3Ducos strategy fuel p q =
          Except.ok (if ops.is_constant front then front else ops.zero)) ∧
    (∀ res, resultant ops normalized part3Ducos strategy fuel p q = Except.ok res →
      ops.is_constant res = true) := by
  refine ⟨?_, ?_, ?_⟩
  · intro h
    unfold resultant
    rw [if_pos h]
  · intro hp hq chain hchain
    have hne : chain ≠ [] := by
      obtain ⟨-, -, hs⟩ := subresultants_suffix ops part3Ducos strategy fuel _ _ chain hchain
      rcases hs with ⟨-, hs⟩ | ⟨pre, hs⟩
      · rw [hs]; simp
      · rw [hs]; simp
    cases chain with
    | nil => exact absurd rfl hne
    | cons front rest =>
      refine ⟨front, rest, rfl, ?_⟩
      unfold resultant resultant_calculate
      rw [if_neg (by simp [hp, hq]), hchain]
      by_cases hc : ops.is_constant front = true
      · simp [hc]
      · simp [hc]
  · intro res h
    unfold resultant at h
    by_cases h0 : ops.isZero p = true ∨ ops.isZero q = true
    · rw [if_pos h0] at h
      simp only [Except.ok.injEq] at h
      rw [← h]; exact hzero
    · rw [if_neg h0] at h
      split at h
      · cases h
      · rename_i r hr
        by_cases hc : ops.is_constant r = true
        · rw [if_pos hc] at h
          simp only [Except.ok.injEq] at h
          rw [← h]; exact hc
        · rw [if_neg hc] at h
          simp only [Except.ok.injEq] at h
          rw [← h]; exact hzero

/-- The lemma resultant_front on the integer polynomials x^2 + 1 and x^2 - 1:
the zero polynomial is constant and the resultant 4 that the function returns
is constant. -/
theorem resultant_front_example :
    intOps.is_constant intOps.zero = true ∧ intOps.is_constant [4] = true :=
  ⟨by decide,
    (resultant_front intOps IntPoly.normalized
      (fun _ _ _ _ _ _ => Except.error SubresError.fuel) SubresultantStrategy.Lazard 3
      [1, 0, 1] [-1, 0, 1] (by decide)).2.2 [4] (by rfl)⟩

/-- For non-zero inputs and every strategy, every chain that subresultants
returns ends with the two inputs: its last element is the input of the larger
degree (pol1 when the degrees are equal) and the element before it is the other
input; when that other input is constant the function returns the chain of
exactly these two elements. -/
theorem subresultants_ends_with_inputs {P C : Type} (ops : PolyOps P C)
    (part3Ducos : P → P → P → Nat → Nat → Nat → Except SubresError P)
    (strategy : SubresultantStrategy) (fuel : Nat) (pol1 pol2 : P)
    (h1 : ops.isZero pol1 = false) (h2 : ops.isZero pol2 = false) :
    (∀ chain, subresultants ops part3Ducos strategy fuel pol1 pol2 = Except.ok chain →
      ∃ pre, chain = pre ++ [if ops.degree pol1 < ops.degree pol2 then pol1 else pol2,
        if ops.degree pol1 < ops.degree pol2 then pol2 else pol1]) ∧
    (ops.is_constant (if ops.degree pol1 < ops.degree pol2 then pol1 else pol2) = true →
      subresultants ops part3Ducos strategy fuel pol1 pol2 =
        Except.ok [if ops.degree pol1 < ops.degree pol2 then pol1 else pol2,
          if ops.degree pol1 < ops.degree pol2 then pol2 else pol1]) := by
  have hq : ops.isZero (if ops.degree pol1 < ops.degree pol2 then pol1 else pol2) = false := by
    split_ifs
    · exact h1
    · exact h2
  constructor
  · intro chain hchain
    obtain ⟨-, -, hs⟩ := subresultants_suffix ops part3Ducos strategy fuel _ _ chain hchain
    rcases hs with ⟨hz, -⟩ | hs
    · rw [hq] at hz; cases hz
    · exact hs
  · intro hc
    unfold subresultants
    simp only [h1, h2, hq, hc, Bool.false_eq_true, if_false, if_true]

/-- The lemma subresultants_ends_with_inputs on the constant 3 and x^2 + 1 over
the integers: the chain is these two. -/
theorem subresultants_ends_with_inputs_example :
    intOps.isZero [3] = false ∧ intOps.isZero [1, 0, 1] = false ∧
    subresultants intOps (fun _ _ _ _ _ _ => Except.error SubresError.fuel)
      SubresultantStrategy.Ducos 1 [3] [1, 0, 1] = Except.ok [[3], [1, 0, 1]] :=
  ⟨by decide, by decide,
    (subresultants_ends_with_inputs intOps (fun _ _ _ _ _ _ => Except.error SubresError.fuel)
      SubresultantStrategy.Ducos 1 [3] [1, 0, 1] (by decide) (by decide)).2 (by decide)⟩

/-- C29, the claim as stated fails: over the integers the chain of x^2 + 1 and
x + 1 is 2, x + 1, x^2 + 1, and principalSubresultantsCoefficients returns the
constant polynomials 2, 1, 1. The entries for x + 1 (degree 1) and for x^2 + 1
(degree 2) are the same polynomial, of degree 0: an entry does not carry the
degree of its chain element. -/
theorem C29_principalSubresultantsCoefficients_counterexample :
    subresultants intOps (fun _ _ _ _ _ _ => Except.error SubresError.fuel)
      SubresultantStrategy.Lazard 2 [1, 0, 1] [1, 1] = Except.ok [[2], [1, 1], [1, 0, 1]] ∧
    principalSubresultantsCoefficients intOps (fun _ _ _ _ _ _ => Except.error SubresError.fuel)
      SubresultantStrategy.Lazard 2 [1, 0, 1] [1, 1] = Except.ok [[2], [1], [1]] ∧
    intOps.degree [1, 1] = 1 ∧ intOps.degree [1, 0, 1] = 2 ∧ intOps.degree [1] = 0 :=
  ⟨by rfl, by rfl, by decide, by decide, by decide⟩

/-- C29, amended: when subresultants returns a chain without a zero element,
principalSubresultantsCoefficients returns one entry per chain element, in the
same order from front to back, and the entry of an element is the constant
polynomial UnivariatePolynomial(mainVar, lcoeff) of its leading coefficient. -/
theorem C29_principalSubresultantsCoefficients {P C : Type} (ops : PolyOps P C)
    (part3Ducos : P → P → P → Nat → Nat → Nat → Except SubresError P)
    (strategy : SubresultantStrategy) (fuel : Nat) (p q : P) (chain : List P)
    (hchain : subresultants ops part3Ducos strategy fuel p q = Except.ok chain)
    (hnz : ∀ s ∈ chain, ops.isZero s = false) :
    principalSubresultantsCoefficients ops part3Ducos strategy fuel p q =
      Except.ok (chain.map (fun s => ops.constant (ops.lcoeff s))) ∧
    ∀ coeffs, principalSubresultantsCoefficients ops part3Ducos strategy fuel p q =
        Except.ok coeffs →
      coeffs.length = chain.length ∧
      ∀ i (hi : i < chain.length) (hj : i < coeffs.length),
        coeffs.get ⟨i, hj⟩ = ops.constant (ops.lcoeff (chain.get ⟨i, hi⟩)) := by
  have h : principalSubresultantsCoefficients ops part3Ducos strategy fuel p q =
      Except.ok (chain.map (fun s => ops.constant (ops.lcoeff s))) := by
    unfold principalSubresultantsCoefficients
    rw [hchain]
    simp only
    rw [principalSubresultantsCoefficientsLoop_eq ops chain [] hnz]
    simp
  refine ⟨h, ?_⟩
  intro coeffs hc
  rw [h] at hc
  simp only [Except.ok.injEq] at hc
  subst hc
  refine ⟨by simp, ?_⟩
  intro i hi hj
  simp

/-- C29, amended, on x^2 + 1 and x + 1 over the integers. -/
theorem C29_principalSubresultantsCoefficients_witness :
    subresultants intOps (fun _ _ _ _ _ _ => Except.error SubresError.fuel)
      SubresultantStrategy.Generic 2 [1, 0, 1] [1, 1] = Except.ok [[2], [1, 1], [1, 0, 1]] ∧
    principalSubresultantsCoefficients intOps (fun _ _ _ _ _ _ => Except.error SubresError.fuel)
      SubresultantStrategy.Generic 2 [1, 0, 1] [1, 1] =
      Except.ok ([[2], [1, 1], [1, 0, 1]].map (fun s => intOps.constant (intOps.lcoeff s))) :=
  ⟨by rfl,
    (C29_principalSubresultantsCoefficients intOps
      (fun _ _ _ _ _ _ => Except.error SubresError.fuel) SubresultantStrategy.Generic 2
      [1, 0, 1] [1, 1] [[2], [1, 1], [1, 0, 1]] (by rfl) (by decide)).1⟩

/-- C23: over the integers, for every a, the discriminant of
x^2 - 2*a*x + a^2 = (x - a)^2 is the zero polynomial, under every strategy (and
whatever the Ducos branch of part 3 does), as soon as the main loop may start
one round. -/
theorem C23_discriminant_of_square (a : Int)
    (part3Ducos : List Int → List Int → List Int → Nat → Nat → Nat →
      Except SubresError (List Int))
    (strategy : SubresultantStrategy) (fuel : Nat) (hf : 1 ≤ fuel) :
    discriminant intOps IntPoly.normalized part3Ducos IntPoly.derivative IntPoly.isNumber
      (fun z => z) strategy fuel [a ^ 2, -2 * a, 1] = Except.ok [] := by
  obtain ⟨n, rfl⟩ : ∃ n, fuel = n + 1 := ⟨fuel - 1, by omega⟩
  have sq : IntPoly.strip [-2 * a, 2] = [-2 * a, 2] := strip_two _ _ (by norm_num)
  have sp : IntPoly.strip [a ^ 2, -2 * a, 1] = [a ^ 2, -2 * a, 1] := strip_three _ _ _ (by norm_num)
  have zp : IntPoly.isZero [a ^ 2, -2 * a, 1] = false := by rw [IntPoly.isZero, sp]; rfl
  have zq : IntPoly.isZero [-2 * a, 2] = false := by rw [IntPoly.isZero, sq]; rfl
  have dp : IntPoly.degree [a ^ 2, -2 * a, 1] = 2 := by rw [IntPoly.degree, sp]; rfl
  have dq : IntPoly.degree [-2 * a, 2] = 1 := by rw [IntPoly.degree, sq]; rfl
  have lp : IntPoly.lcoeff [a ^ 2, -2 * a, 1] = 1 := by rw [IntPoly.lcoeff, sp]; rfl
  have lq : IntPoly.lcoeff [-2 * a, 2] = 2 := by rw [IntPoly.lcoeff, sq]; rfl
  have cq : IntPoly.is_constant [-2 * a, 2] = false := by rw [IntPoly.is_constant, sq]; rfl
  have np : IntPoly.normalized [a ^ 2, -2 * a, 1] = [a ^ 2, -2 * a, 1] := by
    rw [IntPoly.normalized, lp, if_neg (by decide)]
  have nq : IntPoly.normalized [-2 * a, 2] = [-2 * a, 2] := by
    rw [IntPoly.normalized, lq, if_neg (by decide)]
  have zp1 : intOps.isZero [a ^ 2, -2 * a, 1] = false := zp
  have zq1 : intOps.isZero [-2 * a, 2] = false := zq
  have dp1 : intOps.degree [a ^ 2, -2 * a, 1] = 2 := dp
  have dq1 : intOps.degree [-2 * a, 2] = 1 := dq
  have cq1 : intOps.is_constant [-2 * a, 2] = false := cq
  have pr1 : intOps.pseudo_remainder [a ^ 2, -2 * a, 1] (intOps.neg [-2 * a, 2]) = [] := by
    simp only [intOps]
    exact pseudo_remainder_square a
  have z0 : intOps.isZero [] = true := rfl
  have hsub : subresultants intOps part3Ducos strategy (n + 1)
      [a ^ 2, -2 * a, 1] [-2 * a, 2] = Except.ok [[-2 * a, 2], [a ^ 2, -2 * a, 1]] := by
    have h21 : ¬ ((2 : Nat) < 1) := by decide
    simp only [subresultants, zp1, zq1, dp1, dq1, cq1, pr1, Bool.false_eq_true, if_false, h21,
      ge_iff_le, Nat.one_le_ofNat, le_refl, not_true_eq_false]
    rw [subresultantsLoop, if_pos z0]
  have hres : resultant intOps IntPoly.normalized part3Ducos strategy (n + 1)
      [a ^ 2, -2 * a, 1] [-2 * a, 2] = Except.ok [] := by
    unfold resultant
    rw [if_neg (by rw [zp1, zq1]; decide)]
    unfold resultant_calculate
    rw [np, nq, hsub]
    simp only [cq1, Bool.false_eq_true, if_false]
    rfl
  rw [discriminant, derivative_square, hres]
  rfl

/-- C23 at a = 3: the discriminant of x^2 - 6*x + 9 is the zero polynomial. -/
theorem C23_discriminant_of_square_witness :
    1 ≤ 1 ∧
    discriminant intOps IntPoly.normalized (fun _ _ _ _ _ _ => Except.error SubresError.fuel)
      IntPoly.derivative IntPoly.isNumber (fun z => z) SubresultantStrategy.Ducos 1
      [(3 : Int) ^ 2, -2 * 3, 1] = Except.ok [] :=
  ⟨by decide,
    C23_discriminant_of_square 3 (fun _ _ _ _ _ _ => Except.error SubresError.fuel)
      SubresultantStrategy.Ducos 1 (by decide)⟩

/-- C22, the claim as stated fails: over the integers x^2 + 1 has degree 2, so
the sign is -1 and sign * lcoeff is -1; the resultant of x^2 + 1 and its
derivative 2*x is 4, and the division of 4 by -1 succeeds with the quotient -4;
but discriminant returns 4, the resultant itself, because it is a number. -/
theorem C22_discriminant_counterexample :
    IntPoly.is_constant [1, 0, 1] = false ∧ IntPoly.derivative [1, 0, 1] = [0, 2] ∧
    intOps.degree [1, 0, 1] = 2 ∧ (2 * (2 - 1) / 2) % 2 ≠ 0 ∧
    resultant intOps IntPoly.normalized (fun _ _ _ _ _ _ => Except.error SubresError.fuel)
      SubresultantStrategy.Lazard 2 [1, 0, 1] (IntPoly.derivative [1, 0, 1]) = Except.ok [4] ∧
    intOps.try_divide [4] (intOps.mulC (-1) (intOps.lcoeff [1, 0, 1])) = some [-4] ∧
    discriminant intOps IntPoly.normalized (fun _ _ _ _ _ _ => Except.error SubresError.fuel)
      IntPoly.derivative IntPoly.isNumber (fun z => z) SubresultantStrategy.Lazard 2
      [1, 0, 1] = Except.ok [4] :=
  ⟨by decide, by decide, by decide, by decide, by rfl, by decide, by rfl⟩

/-- C22, amended: when resultant(p, derivative(p)) returns res, discriminant
returns res itself if res is a number; otherwise it returns the quotient of res
by sign * lcoeff(p), with sign 1 if d * (d - 1) / 2 is even and -1 otherwise for
the degree d of p, when that division succeeds, and the assertion of line 347
fails when it does not. -/
theorem C22_discriminant {P C : Type} (ops : PolyOps P C) (normalized : P → P)
    (part3Ducos : P → P → P → Nat → Nat → Nat → Except SubresError P)
    (derivative : P → P) (isNumber : P → Bool) (ofInt : Int → C)
    (strategy : SubresultantStrategy) (fuel : Nat) (p res : P)
    (hres : resultant ops normalized part3Ducos strategy fuel p (derivative p) =
      Except.ok res) :
    (isNumber res = true →
      discriminant ops normalized part3Ducos derivative isNumber ofInt strategy fuel p =
        Except.ok res) ∧
    (isNumber res = false → ∀ quotient,
      ops.try_divide res
        (ops.mulC (if (ops.degree p * (ops.degree p - 1) / 2) % 2 = 0 then ofInt 1
          else ofInt (-1)) (ops.lcoeff p)) = some quotient →
      discriminant ops normalized part3Ducos derivative isNumber ofInt strategy fuel p =
        Except.ok quotient) ∧
    (isNumber res = false →
      ops.try_divide res
        (ops.mulC (if (ops.degree p * (ops.degree p - 1) / 2) % 2 = 0 then ofInt 1
          else ofInt (-1)) (ops.lcoeff p)) = none →
      discriminant ops normalized part3Ducos derivative isNumber ofInt strategy fuel p =
        Except.error (SubresError.assertion 347)) := by
  refine ⟨?_, ?_, ?_⟩
  · intro h
    rw [discriminant, hres]
    simp only [h, if_true]
  · intro h quotient hq
    rw [discriminant, hres]
    simp only [h, Bool.false_eq_true, if_false, hq]
  · intro h hq
    rw [discriminant, hres]
    simp only [h, Bool.false_eq_true, if_false, hq]

/-- C22, amended, on x^2 + 1 over the integers: the resultant 4 is a number and
is what discriminant returns. -/
theorem C22_discriminant_witness :
    resultant intOps IntPoly.normalized (fun _ _ _ _ _ _ => Except.error SubresError.fuel)
      SubresultantStrategy.Generic 2 [1, 0, 1] (IntPoly.derivative [1, 0, 1]) = Except.ok [4] ∧
    IntPoly.isNumber [4] = true ∧
    discriminant intOps IntPoly.normalized (fun _ _ _ _ _ _ => Except.error SubresError.fuel)
      IntPoly.derivative IntPoly.isNumber (fun z => z) SubresultantStrategy.Generic 2
      [1, 0, 1] = Except.ok [4] :=
  ⟨by rfl, by decide,
    (C22_discriminant intOps IntPoly.normalized (fun _ _ _ _ _ _ => Except.error SubresError.fuel)
      IntPoly.derivative IntPoly.isNumber (fun z => z) SubresultantStrategy.Generic 2
      [1, 0, 1] [4] (by rfl)).1 (by decide)⟩

/-- C30: x.divide with the null argument does not return the instance of the pool.
The pool owns the instance of x at the address 0, and create returns that
address for the content of x; x.divide with the null argument returns true with
an object of the same content at the new address 1, which the pool does not
own, whereas x^2.divide(x) returns the instance of the pool. -/
theorem C30_divide_no_monomial_not_pooled :
    MonomialPool.createShared ⟨[], []⟩ [(1, 1)] 1 = (0, ⟨[⟨[(1, 1)], 1⟩], [0]⟩) ∧
    MonomialPool.createShared ⟨[⟨[(1, 1)], 1⟩], [0]⟩ [(1, 1)] 1 =
      (0, ⟨[⟨[(1, 1)], 1⟩], [0]⟩) ∧
    Monomial.divideShared ⟨[⟨[(1, 1)], 1⟩], [0]⟩ ⟨[(1, 1)], 1⟩ none =
      some (some 1, ⟨[⟨[(1, 1)], 1⟩, ⟨[(1, 1)], 1⟩], [0]⟩) ∧
    1 ∉ [0] ∧
    Monomial.divideShared ⟨[⟨[(1, 1)], 1⟩], [0]⟩ ⟨[(1, 2)], 2⟩ (some ⟨[(1, 1)], 1⟩) =
      some (some 0, ⟨[⟨[(1, 1)], 1⟩], [0]⟩) := by
  decide

/-- C37: on consistent monomials lexicalCompare is a strict total order:
lexicalCompare(a, b) is LESS exactly when lexicalCompare(b, a) is GREATER; from
a LESS b and b LESS c follows a LESS c; the result is EQUAL only for a = b; and
for a and b of different content the result is LESS or GREATER, so the final
assertion, whose failure is the value none, is not violated. -/
theorem C37_lexicalCompare_strict_total_order (a b c : Monomial)
    (ha : a.Consistent) (hb : b.Consistent) (hc : c.Consistent) :
    (a.lexicalCompare b = some CompareResult.LESS ↔
      b.lexicalCompare a = some CompareResult.GREATER) ∧
    (a.lexicalCompare b = some CompareResult.LESS →
      b.lexicalCompare c = some CompareResult.LESS →
      a.lexicalCompare c = some CompareResult.LESS) ∧
    (a.lexicalCompare b = some CompareResult.EQUAL → a = b) ∧
    (a ≠ b → a.lexicalCompare b = some CompareResult.LESS ∨
      a.lexicalCompare b = some CompareResult.GREATER) ∧
    a.lexicalCompare b ≠ none := by
  have hne : a ≠ b → a.lexicalCompare b = some CompareResult.LESS ∨
      a.lexicalCompare b = some CompareResult.GREATER := by
    intro h
    rw [lexicalCompare_of_ne h]
    exact lexicalCompareLoop_ne _ _ (exps_ne_of_consistent_ne ha hb h)
  have heq : ∀ m : Monomial, m.lexicalCompare m = some CompareResult.EQUAL := by
    intro m
    unfold Monomial.lexicalCompare
    rw [if_pos rfl]
  refine ⟨?_, ?_, ?_, hne, ?_⟩
  · by_cases h : a = b
    · subst h
      rw [heq a]
      simp
    · rw [lexicalCompare_of_ne h, lexicalCompare_of_ne (fun e => h e.symm)]
      exact (lexicalCompareLoop_swap _ _).1
  · intro h1 h2
    have hab : a ≠ b := by
      intro e
      subst e
      rw [heq a] at h1
      simp at h1
    have hbc : b ≠ c := by
      intro e
      subst e
      rw [heq b] at h2
      simp at h2
    rw [lexicalCompare_of_ne hab] at h1
    rw [lexicalCompare_of_ne hbc] at h2
    have hac : a ≠ c := by
      intro e
      subst e
      have := (lexicalCompareLoop_swap _ _).1.1 h1
      rw [h2] at this
      simp at this
    rw [lexicalCompare_of_ne hac]
    exact lexicalCompareLoop_trans _ _ _ h1 h2
  · intro h
    by_contra hab
    rcases hne hab with h2 | h2
    · rw [h] at h2; simp at h2
    · rw [h] at h2; simp at h2
  · by_cases h : a = b
    · subst h
      rw [heq a]
      simp
    · rcases hne h with h2 | h2
      · rw [h2]; simp
      · rw [h2]; simp

/-- C37 at a = x5, b = x5 * x3 and c = x5^2: a is LESS than b, b is LESS than c
and so a is LESS than c. -/
theorem C37_lexicalCompare_strict_total_order_witness :
    Monomial.Consistent ⟨[(5, 1)], 1⟩ ∧ Monomial.Consistent ⟨[(5, 1), (3, 1)], 2⟩ ∧
    Monomial.Consistent ⟨[(5, 2)], 2⟩ ∧
    Monomial.lexicalCompare ⟨[(5, 1)], 1⟩ ⟨[(5, 1), (3, 1)], 2⟩ = some CompareResult.LESS ∧
    Monomial.lexicalCompare ⟨[(5, 1), (3, 1)], 2⟩ ⟨[(5, 2)], 2⟩ = some CompareResult.LESS ∧
    Monomial.lexicalCompare ⟨[(5, 1)], 1⟩ ⟨[(5, 2)], 2⟩ = some CompareResult.LESS :=
  ⟨by decide, by decide, by decide, by decide, by decide,
    (C37_lexicalCompare_strict_total_order ⟨[(5, 1)], 1⟩ ⟨[(5, 1), (3, 1)], 2⟩ ⟨[(5, 2)], 2⟩
      (by decide) (by decide) (by decide)).2.1 (by decide) (by decide)⟩

/-- The reduction step of part 2 on the state q = 4*x + 4, subresLcoeff = 8 and
delta = 5 over the integers: the first division of the loop succeeds
(16 / 8 = 2), the second one fails (4 is not a multiple of 8) and leaves
reductionCoeff at 2, and the final division of 2 * q by 8 succeeds: under
Lazard and under Ducos the element x + 1 is pushed and c is x + 1, not q. Under
Generic the one division fails and c is q. -/
theorem lazard_inner_failure_state :
    intOps.highestPower (5 - 1) = 4 ∧
    intOps.try_divide (intOps.mul [4] [4]) 8 = some [2] ∧
    intOps.try_divide (intOps.mul [2] [2]) 8 = none ∧
    lazardLoop intOps 8 4 4 4 0 [4] = some [2] ∧
    subresultantsPart2 intOps SubresultantStrategy.Lazard [4, 4] 8 5 1 [[4, 4]] =
      Except.ok ([1, 1], 1, [[1, 1], [4, 4]]) ∧
    subresultantsPart2 intOps SubresultantStrategy.Ducos [4, 4] 8 5 1 [[4, 4]] =
      Except.ok ([1, 1], 1, [[1, 1], [4, 4]]) ∧
    subresultantsPart2 intOps SubresultantStrategy.Generic [4, 4] 8 5 1 [[4, 4]] =
      Except.ok ([4, 4], 1, [[4, 4]]) :=
  ⟨by decide, by decide, by decide, by rfl, by rfl, by rfl, by rfl⟩

/-- In part 2 with delta > 1 under Lazard or Ducos, when the loop
ends with the value r of reductionCoeff and the final division of r * q by
subresLcoeff fails, c is q, qDeg is unchanged and nothing is pushed onto the
chain. A division that fails inside the loop only leaves reductionCoeff as it
is: the round goes on to the next one with the halved exponent. -/
theorem lazard_final_failure {P C : Type} (ops : PolyOps P C)
    (strategy : SubresultantStrategy) (q : P) (subresLcoeff : C) (delta qDeg : Nat)
    (chain : List P) (hs : strategy ≠ SubresultantStrategy.Generic) (hd : delta > 1) :
    (∀ r, lazardLoop ops subresLcoeff (ops.lcoeff q) (ops.highestPower (delta - 1))
        (ops.highestPower (delta - 1)) (delta - 1 - ops.highestPower (delta - 1))
        (ops.constant (ops.lcoeff q)) = some r →
      ops.try_divide (ops.mul r q) subresLcoeff = none →
      subresultantsPart2 ops strategy q subresLcoeff delta qDeg chain =
        Except.ok (q, qDeg, chain)) ∧
    (∀ fuel exponent deltaReduced reductionCoeff, exponent ≠ 1 →
      ops.try_divide (ops.mul reductionCoeff reductionCoeff) subresLcoeff = none →
      lazardLoop ops subresLcoeff (ops.lcoeff q) (fuel + 1) exponent deltaReduced
          reductionCoeff =
        lazardLoop ops subresLcoeff (ops.lcoeff q) fuel (exponent / 2) deltaReduced
          reductionCoeff) := by
  constructor
  · intro r hr hdiv
    have hpos : delta - 1 > 0 := by omega
    unfold subresultantsPart2
    rw [if_pos hd]
    cases strategy with
    | Generic => exact absurd rfl hs
    | Lazard =>
      simp only
      rw [if_neg (by simpa using hpos)]
      simp only [hr, hdiv]
    | Ducos =>
      simp only
      rw [if_neg (by simpa using hpos)]
      simp only [hr, hdiv]
  · intro fuel exponent deltaReduced reductionCoeff he hdiv
    rw [lazardLoop, if_pos he]
    simp only [hdiv, Option.isSome_none, Bool.false_eq_true, false_and, if_false,
      Option.getD_none]

/-- The lemma lazard_final_failure on q = 2*x + 2, subresLcoeff = 3 and
delta = 2 over the integers, where the final division fails. -/
theorem lazard_final_failure_example :
    SubresultantStrategy.Lazard ≠ SubresultantStrategy.Generic ∧ 2 > 1 ∧
    subresultantsPart2 intOps SubresultantStrategy.Lazard [2, 2] 3 2 1 [[2, 2]] =
      Except.ok ([2, 2], 1, [[2, 2]]) :=
  ⟨by decide, by decide,
    (lazard_final_failure intOps SubresultantStrategy.Lazard [2, 2] 3 2 1 [[2, 2]]
      (by decide) (by decide)).1 [2] (by rfl) (by decide)⟩

/-- C32: in part 2 with delta > 1, let the operations on polynomials and
coefficients be those of a commutative ring without zero divisors (sem and semC
give the ring element that a polynomial or a coefficient stands for, and a
successful division returns a quotient whose product with the divisor is the
dividend), let subresLcoeff be non-zero and highestPower(delta - 1) be the
highest power of two that is at most delta - 1. When every division of the loop
succeeds and both the Lazard or Ducos computation and the Generic computation
push their element, the two elements stand for the same polynomial c, the one
with c * subresLcoeff^(delta-1) = lcoeff(q)^(delta-1) * q. -/
theorem C32_lazard_equals_generic {P C R : Type} [CommRing R] [IsDomain R]
    (ops : PolyOps P C) (sem : P → R) (semC : C → R)
    (hmul : ∀ a b, sem (ops.mul a b) = sem a * sem b)
    (hmulPC : ∀ a c, sem (ops.mulPC a c) = sem a * semC c)
    (hsmul : ∀ c a, sem (ops.smul c a) = semC c * sem a)
    (hconst : ∀ c, sem (ops.constant c) = semC c)
    (hpow : ∀ c n, semC (ops.pow c n) = semC c ^ n)
    (hdiv : ∀ a c r, ops.try_divide a c = some r → sem r * semC c = sem a)
    (strategy : SubresultantStrategy) (q : P) (subresLcoeff : C) (delta qDeg j : Nat)
    (chain : List P) (cL cG : P) (dL dG : Nat)
    (hs : strategy ≠ SubresultantStrategy.Generic) (hd : delta > 1)
    (hs0 : semC subresLcoeff ≠ 0)
    (hhp : ops.highestPower (delta - 1) = 2 ^ j) (hle : 2 ^ j ≤ delta - 1)
    (hlt : delta - 1 < 2 ^ (j + 1))
    (hall : lazardLoopDivides ops subresLcoeff (ops.lcoeff q) (2 ^ j) (2 ^ j)
      (delta - 1 - 2 ^ j) (ops.constant (ops.lcoeff q)) = true)
    (hL : subresultantsPart2 ops strategy q subresLcoeff delta qDeg chain =
      Except.ok (cL, dL, cL :: chain))
    (hG : subresultantsPart2 ops SubresultantStrategy.Generic q subresLcoeff delta qDeg chain =
      Except.ok (cG, dG, cG :: chain)) :
    sem cL * semC subresLcoeff ^ (delta - 1) = semC (ops.lcoeff q) ^ (delta - 1) * sem q ∧
    sem cG * semC subresLcoeff ^ (delta - 1) = semC (ops.lcoeff q) ^ (delta - 1) * sem q ∧
    sem cL = sem cG := by
  have hj : j < 2 ^ j := Nat.lt_two_pow j
  obtain ⟨r, hr, hinv⟩ := lazardLoop_invariant ops sem semC subresLcoeff (ops.lcoeff q)
    hmul hmulPC hdiv j (2 ^ j) (delta - 1 - 2 ^ j) 1 (ops.constant (ops.lcoeff q))
    (by omega) (by rw [pow_succ] at hlt; omega) (le_refl 1) (by simp [hconst]) hall
  have hn : 1 * 2 ^ j + (delta - 1 - 2 ^ j) = delta - 1 := by omega
  rw [hn] at hinv
  have hfin := subresultantsPart2_lazard_pushed ops strategy q subresLcoeff delta qDeg chain
    hs hd r cL dL (by rw [hhp]; exact hr) hL
  have eL : sem cL * semC subresLcoeff ^ (delta - 1) =
      semC (ops.lcoeff q) ^ (delta - 1) * sem q := by
    have h1 : sem cL * semC subresLcoeff = sem r * sem q := by rw [hdiv _ _ _ hfin, hmul]
    have hk : delta - 1 = (delta - 1 - 1) + 1 := by omega
    rw [← hinv]
    conv_lhs => rw [hk, pow_succ, ← mul_assoc, mul_right_comm, h1]
    ring
  have eG : sem cG * semC subresLcoeff ^ (delta - 1) =
      semC (ops.lcoeff q) ^ (delta - 1) * sem q := by
    have hne : chain ≠ cG :: chain := fun e => by
      have := congrArg List.length e
      simp at this
    unfold subresultantsPart2 at hG
    rw [if_pos hd] at hG
    simp only at hG
    cases h2 : ops.try_divide (ops.smul (ops.pow (ops.lcoeff q) (delta - 1)) q)
        (ops.pow subresLcoeff (delta - 1)) with
    | none =>
      rw [h2] at hG
      simp only [Except.ok.injEq, Prod.mk.injEq] at hG
      exact absurd hG.2.2 hne
    | some c2 =>
      rw [h2] at hG
      simp only at hG
      split_ifs at hG
      simp only [Except.ok.injEq, Prod.mk.injEq] at hG
      have h3 := hdiv _ _ _ h2
      rw [hpow, hsmul, hpow, hG.1] at h3
      exact h3
  refine ⟨eL, eG, ?_⟩
  have hpow0 : semC subresLcoeff ^ (delta - 1) ≠ 0 := pow_ne_zero _ hs0
  exact mul_right_cancel₀ hpow0 (eL.trans eG.symm)

/-- C32 on q = 4*x + 2, subresLcoeff = 2 and delta = 3 over the integers, with
the value at the point 2 for sem: Lazard and Generic both push 16*x + 8. -/
theorem C32_lazard_equals_generic_witness :
    subresultantsPart2 intOps SubresultantStrategy.Lazard [2, 4] 2 3 1 [[2, 4]] =
      Except.ok ([8, 16], 1, [[8, 16], [2, 4]]) ∧
    subresultantsPart2 intOps SubresultantStrategy.Generic [2, 4] 2 3 1 [[2, 4]] =
      Except.ok ([8, 16], 1, [[8, 16], [2, 4]]) ∧
    lazardLoopDivides intOps 2 (intOps.lcoeff [2, 4]) (2 ^ 1) (2 ^ 1) (3 - 1 - 2 ^ 1)
      (intOps.constant (intOps.lcoeff [2, 4])) = true ∧
    IntPoly.eval 2 [8, 16] * (2 : Int) ^ (3 - 1) =
      (intOps.lcoeff [2, 4]) ^ (3 - 1) * IntPoly.eval 2 [2, 4] :=
  ⟨by rfl, by rfl, by decide,
    (C32_lazard_equals_generic intOps (IntPoly.eval 2) (fun c => c)
      (fun a b => eval_mul 2 b a)
      (fun a c => (eval_smul 2 c a).trans (mul_comm _ _))
      (fun c a => eval_smul 2 c a)
      (fun c => (eval_strip 2 [c]).trans (by simp [eval_cons, eval_nil]))
      (fun _ _ => rfl)
      (fun a c r h => eval_try_divide 2 c a r h)
      SubresultantStrategy.Lazard [2, 4] 2 3 1 1 [[2, 4]] [8, 16] [8, 16] 1 1
      (by decide) (by decide) (by decide) (by decide) (by decide) (by decide) (by decide)
      (by rfl) (by rfl)).1⟩

/-- C35: for the inputs x^3 + x^2 and x^3 + 1 under Ducos an access of part 3 is
out of bounds. The first round of the main loop has p = x^3 + 1 and q = c =
-x^2 + 1, so pDeg = 3 and qDeg = 2; the polynomial t of line 260 is built from
the two coefficients 0 and h.back() = -1 and has two coefficients, and line 261
reads its coefficient at the index qDeg = 2. -/
theorem C35_ducos_access_out_of_bounds :
    zxOps.pseudo_remainder [[], [], [1], [1]] (zxOps.neg [[1], [], [], [1]]) =
      [[1], [], [-1]] ∧
    zxOps.degree [[1], [], [], [1]] = 3 ∧ zxOps.degree [[1], [], [-1]] = 2 ∧
    zxDucosOps.coefficients (zxDucosOps.ofCoefficients [zxDucosOps.zeroC, [-1]]) =
      [[], [-1]] ∧
    part3Ducos zxOps zxDucosOps [[1], [], [], [1]] [[1], [], [-1]] [[1], [], [-1]] 3 2 1 =
      Except.error (SubresError.outOfBounds 261) ∧
    subresultants zxOps (part3Ducos zxOps zxDucosOps) SubresultantStrategy.Ducos 5
      [[], [], [1], [1]] [[1], [], [], [1]] = Except.error (SubresError.outOfBounds 261) :=
  ⟨by decide, by decide, by decide, by decide, by rfl, by rfl⟩

/-- C21: for the inputs x^3 + x^2 + 1 and x^3 + 1 the strategies do not agree:
under Generic and under Lazard the resultant is -1; under Ducos the first round
of the main loop has qDeg = 2 and the run ends in the access out of bounds of
line 261, so no resultant is returned. -/
theorem C21_ducos_returns_no_resultant :
    resultant zxOps ZxPoly.normalized (part3Ducos zxOps zxDucosOps)
      SubresultantStrategy.Generic 5 [[1], [], [1], [1]] [[1], [], [], [1]] =
      Except.ok [[-1]] ∧
    resultant zxOps ZxPoly.normalized (part3Ducos zxOps zxDucosOps)
      SubresultantStrategy.Lazard 5 [[1], [], [1], [1]] [[1], [], [], [1]] =
      Except.ok [[-1]] ∧
    resultant zxOps ZxPoly.normalized (part3Ducos zxOps zxDucosOps)
      SubresultantStrategy.Ducos 5 [[1], [], [1], [1]] [[1], [], [], [1]] =
      Except.error (SubresError.outOfBounds 261) :=
  ⟨by rfl, by rfl, by rfl⟩

/-- C26: for the inputs x^3 + x^2 and x^3 + 1, both of degree 3 with integer
coefficients: under Generic and under Lazard the chain has 4 elements, between
2 and 3 + 2; under Ducos the run ends in the access out of bounds of line 261
and there is no chain. -/
theorem C26_ducos_returns_no_chain :
    zxOps.degree [[], [], [1], [1]] = 3 ∧ zxOps.degree [[1], [], [], [1]] = 3 ∧
    subresultants zxOps (part3Ducos zxOps zxDucosOps) SubresultantStrategy.Generic 5
      [[], [], [1], [1]] [[1], [], [], [1]] =
      Except.ok [[[1], [1]], [[1], [], [-1]], [[1], [], [], [1]], [[], [], [1], [1]]] ∧
    subresultants zxOps (part3Ducos zxOps zxDucosOps) SubresultantStrategy.Lazard 5
      [[], [], [1], [1]] [[1], [], [], [1]] =
      Except.ok [[[1], [1]], [[1], [], [-1]], [[1], [], [], [1]], [[], [], [1], [1]]] ∧
    subresultants zxOps (part3Ducos zxOps zxDucosOps) SubresultantStrategy.Ducos 5
      [[], [], [1], [1]] [[1], [], [], [1]] = Except.error (SubresError.outOfBounds 261) :=
  ⟨by decide, by decide, by rfl, by rfl, by rfl⟩

/-- C27: for the inputs x^3 + 1 and x^2 + 1 under Ducos the main loop does not
terminate. The first round of the main loop has p = x^2 + 1 and q = -x + 1 and
replaces q by x + 2, of the same degree 1; the second round has p and q both of
degree 1; and the loop does not return, whatever number of rounds it is given.
Under Generic and under Lazard the loop returns in its second round. -/
theorem C27_ducos_loop_does_not_terminate :
    part3Ducos zxOps zxDucosOps [[1], [], [1]] [[1], [-1]] [[1], [-1]] 2 1 1 =
      Except.ok [[2], [1]] ∧
    zxOps.degree [[1], [-1]] = 1 ∧ zxOps.degree [[2], [1]] = 1 ∧
    (∀ fuel, subresultants zxOps (part3Ducos zxOps zxDucosOps) SubresultantStrategy.Ducos fuel
      [[1], [], [], [1]] [[1], [], [1]] = Except.error SubresError.fuel) ∧
    subresultants zxOps (part3Ducos zxOps zxDucosOps) SubresultantStrategy.Generic 2
      [[1], [], [], [1]] [[1], [], [1]] =
      Except.ok [[[2]], [[1], [-1]], [[1], [], [1]], [[1], [], [], [1]]] ∧
    subresultants zxOps (part3Ducos zxOps zxDucosOps) SubresultantStrategy.Lazard 2
      [[1], [], [], [1]] [[1], [], [1]] =
      Except.ok [[[2]], [[1], [-1]], [[1], [], [1]], [[1], [], [], [1]]] := by
  refine ⟨by rfl, by decide, by decide, ?_, by rfl, by rfl⟩
  intro fuel
  cases fuel with
  | zero => rfl
  | succ n =>
    rw [ducos_first_round]
    exact (ducos_cycle n _ _).1

/-- C34, the claim as stated fails. For the inputs x^3 + 1 and x^2 + 1 the first
round has p = x^2 + 1, q = c = -x + 1 and delta = 1, odd; the statements of
lines 234 to 262 give reducedNewB = x + 2 and q becomes x + 2, reducedNewB
itself and not its negation. For the inputs x^4 + 2*x + 2 and x^3 + 1 the first
round has p = x^3 + 1, q = c = x + 2 and delta = 2, even; reducedNewB is
4*x - 3 and q becomes its negation -4*x + 3. -/
theorem C34_ducos_sign_counterexample :
    zxOps.pseudo_remainder [[1], [], [], [1]] (zxOps.neg [[1], [], [1]]) = [[1], [-1]] ∧
    zxOps.degree [[1], [], [1]] - zxOps.degree [[1], [-1]] = 1 ∧
    ducosReducedNewB zxOps zxDucosOps [[1], [], [1]] [[1], [-1]] [[1], [-1]] 2 1 =
      Except.ok [[2], [1]] ∧
    part3Ducos zxOps zxDucosOps [[1], [], [1]] [[1], [-1]] [[1], [-1]] 2 1 1 =
      Except.ok [[2], [1]] ∧
    zxOps.neg [[2], [1]] ≠ [[2], [1]] ∧
    zxOps.pseudo_remainder [[2], [2], [], [], [1]] (zxOps.neg [[1], [], [], [1]]) =
      [[2], [1]] ∧
    zxOps.degree [[1], [], [], [1]] - zxOps.degree [[2], [1]] = 2 ∧
    subresultantsPart2 zxOps SubresultantStrategy.Ducos [[2], [1]] [1] 2 1 [[[2], [1]]] =
      Except.ok ([[2], [1]], 1, [[[2], [1]], [[2], [1]]]) ∧
    ducosReducedNewB zxOps zxDucosOps [[1], [], [], [1]] [[2], [1]] [[2], [1]] 3 1 =
      Except.ok [[-3], [4]] ∧
    part3Ducos zxOps zxDucosOps [[1], [], [], [1]] [[2], [1]] [[2], [1]] 3 1 2 =
      Except.ok (zxOps.neg [[-3], [4]]) ∧
    zxOps.neg [[-3], [4]] ≠ [[-3], [4]] :=
  ⟨by decide, by decide, by rfl, by rfl, by decide, by decide, by decide, by rfl, by rfl,
    by rfl, by decide⟩

/-- C34, amended: when the statements of lines 234 to 262 of the Ducos branch
of part 3 give the value reducedNewB, the branch assigns to q the negation of
reducedNewB when delta is even and reducedNewB itself, unchanged, when delta is
odd. -/
theorem C34_ducos_sign {P C : Type} (ops : PolyOps P C) (dops : DucosOps P C)
    (p q c : P) (pDeg qDeg delta : Nat) (reducedNewB : P)
    (h : ducosReducedNewB ops dops p q c pDeg qDeg = Except.ok reducedNewB) :
    (delta % 2 = 0 →
      part3Ducos ops dops p q c pDeg qDeg delta = Except.ok (ops.neg reducedNewB)) ∧
    (delta % 2 = 1 →
      part3Ducos ops dops p q c pDeg qDeg delta = Except.ok reducedNewB) := by
  constructor
  · intro hd
    rw [part3Ducos_eq, h]
    simp only [hd, if_true]
  · intro hd
    rw [part3Ducos_eq, h]
    simp only [hd, Nat.one_ne_zero, if_false]

/-- C34, amended, at the first round for x^3 + 1 and x^2 + 1 (delta = 1) and at
the first round for x^4 + 2*x + 2 and x^3 + 1 (delta = 2). -/
theorem C34_ducos_sign_witness :
    ducosReducedNewB zxOps zxDucosOps [[1], [], [1]] [[1], [-1]] [[1], [-1]] 2 1 =
      Except.ok [[2], [1]] ∧
    part3Ducos zxOps zxDucosOps [[1], [], [1]] [[1], [-1]] [[1], [-1]] 2 1 1 =
      Except.ok [[2], [1]] ∧
    ducosReducedNewB zxOps zxDucosOps [[1], [], [], [1]] [[2], [1]] [[2], [1]] 3 1 =
      Except.ok [[-3], [4]] ∧
    part3Ducos zxOps zxDucosOps [[1], [], [], [1]] [[2], [1]] [[2], [1]] 3 1 2 =
      Except.ok (zxOps.neg [[-3], [4]]) :=
  ⟨by rfl,
    (C34_ducos_sign zxOps zxDucosOps [[1], [], [1]] [[1], [-1]] [[1], [-1]] 2 1 1 [[2], [1]]
      (by rfl)).2 (by decide),
    by rfl,
    (C34_ducos_sign zxOps zxDucosOps [[1], [], [], [1]] [[2], [1]] [[2], [1]] 3 1 2 [[-3], [4]]
      (by rfl)).1 (by decide)⟩

/-- C24: for the inputs x^3 + 1 and x^2 + 1 the function resultant returns the
constant 2 under Generic and under Lazard, the front of the chain; under Ducos
the main loop of subresultants does not terminate and resultant returns
nothing, whatever number of rounds the loop is given. -/
theorem C24_ducos_resultant_not_returned :
    ZxPoly.normalized [[1], [], [], [1]] = [[1], [], [], [1]] ∧
    ZxPoly.normalized [[1], [], [1]] = [[1], [], [1]] ∧
    resultant zxOps ZxPoly.normalized (part3Ducos zxOps zxDucosOps)
      SubresultantStrategy.Generic 2 [[1], [], [], [1]] [[1], [], [1]] = Except.ok [[2]] ∧
    resultant zxOps ZxPoly.normalized (part3Ducos zxOps zxDucosOps)
      SubresultantStrategy.Lazard 2 [[1], [], [], [1]] [[1], [], [1]] = Except.ok [[2]] ∧
    zxOps.is_constant [[2]] = true ∧
    (∀ fuel, resultant zxOps ZxPoly.normalized (part3Ducos zxOps zxDucosOps)
      SubresultantStrategy.Ducos fuel [[1], [], [], [1]] [[1], [], [1]] =
      Except.error SubresError.fuel) := by
  have hn1 : ZxPoly.normalized [[1], [], [], [1]] = [[1], [], [], [1]] := by decide
  have hn2 : ZxPoly.normalized [[1], [], [1]] = [[1], [], [1]] := by decide
  refine ⟨hn1, hn2, by rfl, by rfl, by decide, ?_⟩
  intro fuel
  have hsub : subresultants zxOps (part3Ducos zxOps zxDucosOps) SubresultantStrategy.Ducos fuel
      [[1], [], [], [1]] [[1], [], [1]] = Except.error SubresError.fuel := by
    cases fuel with
    | zero => rfl
    | succ n =>
      rw [ducos_first_round]
      exact (ducos_cycle n _ _).1
  unfold resultant
  rw [if_neg (by decide)]
  unfold resultant_calculate
  rw [hn1, hn2, hsub]

/-- C25: for the inputs x^3 + x^2 and x^3 + 1 the chain that subresultants
returns under Generic and under Lazard ends with x^3 + 1 and x^3 + x^2, the two
inputs; under Ducos the run ends in the access out of bounds of line 261 in the
first round and subresultants returns no chain, whatever number of rounds the
main loop is given. -/
theorem C25_ducos_chain_not_returned :
    subresultants zxOps (part3Ducos zxOps zxDucosOps) SubresultantStrategy.Generic 5
      [[], [], [1], [1]] [[1], [], [], [1]] =
      Except.ok ([[[1], [1]], [[1], [], [-1]]] ++ [[[1], [], [], [1]], [[], [], [1], [1]]]) ∧
    subresultants zxOps (part3Ducos zxOps zxDucosOps) SubresultantStrategy.Lazard 5
      [[], [], [1], [1]] [[1], [], [], [1]] =
      Except.ok ([[[1], [1]], [[1], [], [-1]]] ++ [[[1], [], [], [1]], [[], [], [1], [1]]]) ∧
    subresultants zxOps (part3Ducos zxOps zxDucosOps) SubresultantStrategy.Ducos 0
      [[], [], [1], [1]] [[1], [], [], [1]] = Except.error SubresError.fuel ∧
    (∀ fuel, subresultants zxOps (part3Ducos zxOps zxDucosOps) SubresultantStrategy.Ducos
      (fuel + 1) [[], [], [1], [1]] [[1], [], [], [1]] =
      Except.error (SubresError.outOfBounds 261)) := by
  refine ⟨by rfl, by rfl, by rfl, ?_⟩
  intro fuel
  rfl

end carl
